import Mathlib

/-! Node manager governance contract (peersafe/poly)

A shallow embedding of `native/service/governance/node_manager/node_manager.go`.

* The cache database of a native invocation is a finite map from storage keys
  (byte strings) to stored items; it is modelled as a function
  `Store = Bytes → Option Val`.  Every entry point returns the cache database as
  the call left it, together with the call's result, so writes issued before a
  late failure stay visible in the returned store.
* Stored items are typed (`Val`): the binary codec of each record type is an
  external collaborator and is taken to round-trip.
* `uint32` values are natural numbers; additions that can overflow are written
  with an explicit `% 2 ^ 32`.
* Go strings are modelled by `String`; `hex.DecodeString` is embedded in full
  because the storage keys of the three per-key regions are built from its result.
* The last section of the definitions embeds `VerifyBtcTx` of
  `smartcontract/service/native/cross_chain_manager/btc/btc.go`. Its calls into
  the wire library, `merkleblock` and the SPV client are fields of a host
  record; an index expression on the hash list that is out of range ends the
  call with the outcome `aborted`.
-/

namespace NodeManager

/-- Byte strings (`[]byte`), one natural number per byte. -/
abbrev Bytes := List Nat

/-! ## `encoding/hex` -/

/-- The value of one hexadecimal digit, `none` for any other character
(`fromHexChar` of Go's `encoding/hex`: both letter cases are accepted). -/
def fromHexChar (c : Char) : Option Nat :=
  if '0' ≤ c ∧ c ≤ '9' then some (c.toNat - '0'.toNat)
  else if 'a' ≤ c ∧ c ≤ 'f' then some (c.toNat - 'a'.toNat + 10)
  else if 'A' ≤ c ∧ c ≤ 'F' then some (c.toNat - 'A'.toNat + 10)
  else none

/-- Decoding of a character list two digits at a time; an odd length or a
character that is no hexadecimal digit is an error (`none`). -/
def hexDecodeChars : List Char → Option Bytes
  | [] => some []
  | [_] => none
  | p :: q :: rest =>
    match fromHexChar p, fromHexChar q, hexDecodeChars rest with
    | some a, some b, some bs => some ((a * 16 + b) :: bs)
    | _, _, _ => none

/-- Go's `hex.DecodeString`; `none` stands for a returned error. -/
def hex.DecodeString (s : String) : Option Bytes := hexDecodeChars s.toList

/-! ## Records -/

/-- The record `PeerPoolItem` of the peer pool and of pending applications. -/
structure PeerPoolItem where
  Index : Nat
  PeerPubkey : String
  Address : Bytes
deriving DecidableEq, Repr

/-- The record `BlackListItem` written when a peer is banned. -/
structure BlackListItem where
  PeerPubkey : String
  Address : Bytes
deriving DecidableEq, Repr

/-- The record `Configuration`: the consensus timing parameters. -/
structure Configuration where
  BlockMsgDelay : Nat
  HashMsgDelay : Nat
  PeerHandshakeTimeout : Nat
deriving DecidableEq, Repr

/-- The Go map `map[string]*PeerPoolItem` held by `PeerPoolMap`. -/
abbrev PeerPoolMap := String → Option PeerPoolItem

/-- Assignment `m[k] = v` on a peer pool map. -/
def PeerPoolMap.insert (m : PeerPoolMap) (k : String) (v : PeerPoolItem) : PeerPoolMap :=
  fun x => if x = k then some v else m x

/-- Go's `delete(m, k)` on a peer pool map. -/
def PeerPoolMap.erase (m : PeerPoolMap) (k : String) : PeerPoolMap :=
  fun x => if x = k then none else m x

/-- One genesis peer of `config.VBFTConfig` (the fields `InitConfig` reads). -/
structure VBFTPeerStakeInfo where
  Index : Nat
  PeerPubkey : String
  Address : String
deriving DecidableEq, Repr

/-- The genesis configuration `config.VBFTConfig` (the fields `InitConfig` reads). -/
structure VBFTConfig where
  BlockMsgDelay : Nat
  HashMsgDelay : Nat
  PeerHandshakeTimeout : Nat
  Peers : List VBFTPeerStakeInfo
deriving DecidableEq, Repr

/-- Request of `RegisterCandidate`, `UnRegisterCandidate` and `QuitNode`. -/
structure RegisterPeerParam where
  PeerPubkey : String
  Address : Bytes
deriving DecidableEq, Repr

/-- Request of `ApproveCandidate`, `RejectCandidate` and `WhiteNode`. -/
structure PeerParam where
  PeerPubkey : String
deriving DecidableEq, Repr

/-- Request of `BlackNode`. -/
structure PeerListParam where
  PeerPubkeyList : List String
deriving DecidableEq, Repr

/-! ## The cache database -/

/-- A stored item, by the record type its bytes decode to. -/
inductive Val where
  | peerPoolMap (m : PeerPoolMap)
  | uint32 (n : Nat)
  | peerPoolItem (p : PeerPoolItem)
  | blackListItem (b : BlackListItem)
  | configuration (c : Configuration)

/-- The cache database of one native invocation. -/
abbrev Store := Bytes → Option Val

/-- The store that holds nothing. -/
def Store.empty : Store := fun _ => none

/-- Write `GetCacheDB().Put(key, item)`. -/
def Store.Put (s : Store) (key : Bytes) (v : Val) : Store :=
  fun x => if x = key then some v else s x

/-- Write `GetCacheDB().Delete(key)`. -/
def Store.Delete (s : Store) (key : Bytes) : Store :=
  fun x => if x = key then none else s x

/-! ## Storage keys -/

/-- The bytes of an ASCII string constant (`[]byte(s)`). -/
def strBytes (s : String) : Bytes := s.toList.map Char.toNat

/-- Key suffix of the timing configuration. -/
def VBFT_CONFIG : Bytes := strBytes "vbftConfig"
/-- Key suffix of the candidate index counter. -/
def CANDIDITE_INDEX : Bytes := strBytes "candidateIndex"
/-- Key suffix of a pending application. -/
def PEER_APPLY : Bytes := strBytes "peerApply"
/-- Key suffix of the peer pool. -/
def PEER_POOL : Bytes := strBytes "peerPool"
/-- Key suffix of a permanent index assignment. -/
def PEER_INDEX : Bytes := strBytes "peerIndex"
/-- Key suffix of a blacklist entry. -/
def BLACK_LIST : Bytes := strBytes "blackList"

/-- Modelled from the spec: `utils.ConcatKey` (not among the sources); section 6
builds every key as the contract namespace followed by the region's suffix and,
in the per-key regions, the decoded public key bytes. -/
def ConcatKey (contract : Bytes) (args : List Bytes) : Bytes :=
  contract ++ args.flatten

/-- What the contract takes from its host: the contract's own address
(`utils.NodeManagerContractAddress`), the operator address resolved from the
genesis bookkeepers (`none` when `types.AddressFromBookkeepers` fails), the
base58 address decoder and the public key format validator. -/
structure Env where
  NodeManagerContractAddress : Bytes
  operatorAddress : Option Bytes
  AddressFromBase58 : String → Option Bytes
  ValidatePeerPubKeyFormat : String → Bool

/-- Storage key of the peer pool. -/
def peerPoolKey (env : Env) : Bytes :=
  ConcatKey env.NodeManagerContractAddress [PEER_POOL]
/-- Storage key of the candidate index counter. -/
def candidateIndexKey (env : Env) : Bytes :=
  ConcatKey env.NodeManagerContractAddress [CANDIDITE_INDEX]
/-- Storage key of the timing configuration. -/
def vbftConfigKey (env : Env) : Bytes :=
  ConcatKey env.NodeManagerContractAddress [VBFT_CONFIG]
/-- Storage key of the pending application of the public key bytes `pk`. -/
def peerApplyKey (env : Env) (pk : Bytes) : Bytes :=
  ConcatKey env.NodeManagerContractAddress [PEER_APPLY, pk]
/-- Storage key of the permanent index of the public key bytes `pk`. -/
def peerIndexKey (env : Env) (pk : Bytes) : Bytes :=
  ConcatKey env.NodeManagerContractAddress [PEER_INDEX, pk]
/-- Storage key of the blacklist entry of the public key bytes `pk`. -/
def blackListKey (env : Env) (pk : Bytes) : Bytes :=
  ConcatKey env.NodeManagerContractAddress [BLACK_LIST, pk]

/-! ## Results -/

/-- The check at which a call failed. -/
inductive Err where
  | deserialize
  | alreadyExecuted
  | blockMsgDelay
  | hashMsgDelay
  | peerHandshakeTimeout
  | addressFormat
  | peerPubkeyFormat
  | addressParse
  | checkWitness
  | operator
  | invalidPeerPubkey
  | inBlackList
  | getPeeApply
  | alreadyApplied
  | alreadyInPool
  | notApplied
  | notOwner
  | rawStorageItem
  | getCandidateIndex
  | getPeerPoolMap
  | notInPool
  | notInBlackList
deriving DecidableEq, Repr

/-- The pair `([]byte, error)` of an entry point: `ok` is `(BYTE_TRUE, nil)`,
`error e` a returned error. -/
abbrev Result := Except Err Unit

/-- Whether a call succeeded. -/
def succeeded (r : Store × Result) : Bool :=
  match r.2 with
  | .ok _ => true
  | .error _ => false

/-- The check a call failed at, `none` for a call that succeeded. -/
def failure (r : Store × Result) : Option Err :=
  match r.2 with
  | .ok _ => none
  | .error e => some e

/-! ## Helpers of the package that the entry points call -/

/-- Modelled from the spec: `common.AddressParseFromBytes` (not among the
sources); an account id is a 20-byte string, any other length is an error. -/
def AddressParseFromBytes (b : Bytes) : Option Bytes :=
  if b.length = 20 then some b else none

/-- Modelled from the spec: `utils.ValidateOwner` (not among the sources), the
host's authorization check: the address is a witness of the transaction. -/
def ValidateOwner (checkWitness : Bytes → Bool) (address : Bytes) : Bool :=
  checkWitness address

/-- Modelled from the spec: `CheckVBFTConfig` (not among the sources); section
4.7 gives it the three numeric bounds of `UpdateConfig`. -/
def CheckVBFTConfig (configuration : VBFTConfig) : Except Err Unit :=
  if configuration.BlockMsgDelay < 5000 then .error .blockMsgDelay
  else if configuration.HashMsgDelay < 5000 then .error .hashMsgDelay
  else if configuration.PeerHandshakeTimeout < 10 then .error .peerHandshakeTimeout
  else .ok ()

/-- Modelled from the spec: `GetPeerPoolMap` (not among the sources) reloads the
serialized pool stored under `"peerPool"`. The pool exists in storage from
genesis initialization on (section 4.2); a missing or undecodable pool is an
error. -/
def GetPeerPoolMap (env : Env) (s : Store) : Except Err PeerPoolMap :=
  match s (peerPoolKey env) with
  | some (.peerPoolMap m) => .ok m
  | _ => .error .getPeerPoolMap

/-- Modelled from the spec: `putPeerPoolMap` (not among the sources) writes the
whole pool back under `"peerPool"`. -/
def putPeerPoolMap (env : Env) (m : PeerPoolMap) (s : Store) : Store :=
  s.Put (peerPoolKey env) (.peerPoolMap m)

/-- Modelled from the spec: `GetPeeApply` (not among the sources) reads the
pending application stored under `"peerApply" ++ pubkeyBytes`; no record is
`ok none`, an undecodable key or record is an error. -/
def GetPeeApply (env : Env) (s : Store) (peerPubkey : String) :
    Except Err (Option PeerPoolItem) :=
  match hex.DecodeString peerPubkey with
  | none => .error .getPeeApply
  | some pk =>
    match s (peerApplyKey env pk) with
    | none => .ok none
    | some (.peerPoolItem p) => .ok (some p)
    | some _ => .error .getPeeApply

/-- Modelled from the spec: `putPeerApply` (not among the sources) stores the
record under `"peerApply" ++ pubkeyBytes` of the record's own public key. -/
def putPeerApply (env : Env) (peerPoolItem : PeerPoolItem) (s : Store) : Except Err Store :=
  match hex.DecodeString peerPoolItem.PeerPubkey with
  | none => .error .peerPubkeyFormat
  | some pk => .ok (s.Put (peerApplyKey env pk) (.peerPoolItem peerPoolItem))

/-- Modelled from the spec: `getCandidateIndex` (not among the sources) reads the
counter stored under `"candidateIndex"`, persisted from genesis initialization
on (section 4.2); a missing or undecodable counter is an error. -/
def getCandidateIndex (env : Env) (s : Store) : Except Err Nat :=
  match s (candidateIndexKey env) with
  | some (.uint32 n) => .ok n
  | _ => .error .getCandidateIndex

/-- Modelled from the spec: `putCandidateIndex` (not among the sources) persists
the counter under `"candidateIndex"`. -/
def putCandidateIndex (env : Env) (candidateIndex : Nat) (s : Store) : Store :=
  s.Put (candidateIndexKey env) (.uint32 candidateIndex)

/-- Modelled from the spec: `putConfig` (not among the sources) overwrites the
configuration singleton under `"vbftConfig"`. -/
def putConfig (env : Env) (config : Configuration) (s : Store) : Store :=
  s.Put (vbftConfigKey env) (.configuration config)

/-! ## Entry points -/

/-- The loop of `InitConfig` over `configuration.Peers` (lines 95-117): it
tracks `maxId`, fills the in-memory pool and writes each peer's index
assignment at once. -/
def initPeers (env : Env) :
    List VBFTPeerStakeInfo → Nat → PeerPoolMap → Store → Store × Except Err (Nat × PeerPoolMap)
  | [], maxId, peerPoolMap, s => (s, .ok (maxId, peerPoolMap))
  | peer :: rest, maxId, peerPoolMap, s =>
    let maxId1 := if peer.Index > maxId then peer.Index else maxId
    match env.AddressFromBase58 peer.Address with
    | none => (s, .error .addressFormat)
    | some address =>
      let peerPoolItem : PeerPoolItem :=
        { Index := peer.Index, PeerPubkey := peer.PeerPubkey, Address := address }
      let peerPoolMap1 := peerPoolMap.insert peerPoolItem.PeerPubkey peerPoolItem
      match hex.DecodeString peerPoolItem.PeerPubkey with
      | none => (s, .error .peerPubkeyFormat)
      | some pk =>
        initPeers env rest maxId1 peerPoolMap1
          (s.Put (peerIndexKey env pk) (.uint32 peerPoolItem.Index))

/-- Entry point `InitConfig` (lines 68-139). `input` is the decoded request,
`none` when it does not deserialize. -/
def InitConfig (env : Env) (input : Option VBFTConfig) (s : Store) : Store × Result :=
  match input with
  | none => (s, .error .deserialize)
  | some configuration =>
  match s (peerPoolKey env) with
  | some _ => (s, .error .alreadyExecuted)
  | none =>
  match CheckVBFTConfig configuration with
  | .error e => (s, .error e)
  | .ok _ =>
  match initPeers env configuration.Peers 0 (fun _ => none) s with
  | (s1, .error e) => (s1, .error e)
  | (s1, .ok (maxId, peerPoolMap)) =>
    let s2 := putPeerPoolMap env peerPoolMap s1
    let s3 := s2.Put (candidateIndexKey env) (.uint32 ((maxId + 1) % 2 ^ 32))
    let s4 := putConfig env
      { BlockMsgDelay := configuration.BlockMsgDelay
        HashMsgDelay := configuration.HashMsgDelay
        PeerHandshakeTimeout := configuration.PeerHandshakeTimeout } s3
    (s4, .ok ())

/-- Entry point `RegisterCandidate` (lines 142-207). -/
def RegisterCandidate (env : Env) (checkWitness : Bytes → Bool)
    (input : Option RegisterPeerParam) (s : Store) : Store × Result :=
  match input with
  | none => (s, .error .deserialize)
  | some params =>
  match AddressParseFromBytes params.Address with
  | none => (s, .error .addressParse)
  | some address =>
  if ValidateOwner checkWitness address = false then (s, .error .checkWitness) else
  if env.ValidatePeerPubKeyFormat params.PeerPubkey = false then
    (s, .error .invalidPeerPubkey) else
  match hex.DecodeString params.PeerPubkey with
  | none => (s, .error .peerPubkeyFormat)
  | some pk =>
  match s (blackListKey env pk) with
  | some _ => (s, .error .inBlackList)
  | none =>
  match GetPeeApply env s params.PeerPubkey with
  | .error e => (s, .error e)
  | .ok (some _) => (s, .error .alreadyApplied)
  | .ok none =>
  match GetPeerPoolMap env s with
  | .error e => (s, .error e)
  | .ok peerPoolMap =>
  match peerPoolMap params.PeerPubkey with
  | some _ => (s, .error .alreadyInPool)
  | none =>
  match putPeerApply env
      { Index := 0, PeerPubkey := params.PeerPubkey, Address := params.Address } s with
  | .error e => (s, .error e)
  | .ok s1 => (s1, .ok ())

/-- Entry point `UnRegisterCandidate` (lines 210-247). -/
def UnRegisterCandidate (env : Env) (checkWitness : Bytes → Bool)
    (input : Option RegisterPeerParam) (s : Store) : Store × Result :=
  match input with
  | none => (s, .error .deserialize)
  | some params =>
  match AddressParseFromBytes params.Address with
  | none => (s, .error .addressParse)
  | some address =>
  if ValidateOwner checkWitness address = false then (s, .error .checkWitness) else
  match GetPeeApply env s params.PeerPubkey with
  | .error e => (s, .error e)
  | .ok none => (s, .error .notApplied)
  | .ok (some peer) =>
  if peer.Address ≠ params.Address then (s, .error .notOwner) else
  match hex.DecodeString params.PeerPubkey with
  | none => (s, .error .peerPubkeyFormat)
  | some pk => (s.Delete (peerApplyKey env pk), .ok ())

/-- The index resolution of `ApproveCandidate` (lines 278-311): the stored index
of the applicant's key when there is one, else the candidate index counter,
which is then advanced and recorded for the key. -/
def approveIndex (env : Env) (peerPoolItem : PeerPoolItem) (s : Store) :
    Store × Except Err PeerPoolItem :=
  match hex.DecodeString peerPoolItem.PeerPubkey with
  | none => (s, .error .peerPubkeyFormat)
  | some pk =>
  match s (peerIndexKey env pk) with
  | some (.uint32 index) => (s, .ok { peerPoolItem with Index := index })
  | some _ => (s, .error .rawStorageItem)
  | none =>
  match getCandidateIndex env s with
  | .error e => (s, .error e)
  | .ok candidateIndex =>
    let newCandidateIndex := (candidateIndex + 1) % 2 ^ 32
    let s1 := putCandidateIndex env newCandidateIndex s
    let s2 := s1.Put (peerIndexKey env pk) (.uint32 candidateIndex)
    (s2, .ok { peerPoolItem with Index := candidateIndex })

/-- Entry point `ApproveCandidate` (lines 250-325). -/
def ApproveCandidate (env : Env) (checkWitness : Bytes → Bool)
    (input : Option PeerParam) (s : Store) : Store × Result :=
  match input with
  | none => (s, .error .deserialize)
  | some params =>
  match env.operatorAddress with
  | none => (s, .error .operator)
  | some operatorAddress =>
  if ValidateOwner checkWitness operatorAddress = false then (s, .error .checkWitness) else
  match GetPeeApply env s params.PeerPubkey with
  | .error e => (s, .error e)
  | .ok none => (s, .error .notApplied)
  | .ok (some peerPoolItem) =>
  match approveIndex env peerPoolItem s with
  | (s1, .error e) => (s1, .error e)
  | (s1, .ok peerPoolItem1) =>
  match GetPeerPoolMap env s1 with
  | .error e => (s1, .error e)
  | .ok peerPoolMap =>
    (putPeerPoolMap env (peerPoolMap.insert params.PeerPubkey peerPoolItem1) s1, .ok ())

/-- Entry point `RejectCandidate` (lines 328-363). -/
def RejectCandidate (env : Env) (checkWitness : Bytes → Bool)
    (input : Option PeerParam) (s : Store) : Store × Result :=
  match input with
  | none => (s, .error .deserialize)
  | some params =>
  match env.operatorAddress with
  | none => (s, .error .operator)
  | some operatorAddress =>
  if ValidateOwner checkWitness operatorAddress = false then (s, .error .checkWitness) else
  match GetPeeApply env s params.PeerPubkey with
  | .error e => (s, .error e)
  | .ok none => (s, .error .notApplied)
  | .ok (some _) =>
  match hex.DecodeString params.PeerPubkey with
  | none => (s, .error .peerPubkeyFormat)
  | some pk => (s.Delete (peerApplyKey env pk), .ok ())

/-- The loop of `BlackNode` over `params.PeerPubkeyList` (lines 392-412): each
key is looked up in the in-memory pool, its blacklist entry is written to the
cache database at once, and the key is deleted from the in-memory pool. -/
def blackNodeLoop (env : Env) :
    List String → PeerPoolMap → Store → Store × Except Err PeerPoolMap
  | [], peerPoolMap, s => (s, .ok peerPoolMap)
  | peerPubkey :: rest, peerPoolMap, s =>
    match hex.DecodeString peerPubkey with
    | none => (s, .error .peerPubkeyFormat)
    | some pk =>
      match peerPoolMap peerPubkey with
      | none => (s, .error .notInPool)
      | some peerPoolItem =>
        let blackListItem : BlackListItem :=
          { PeerPubkey := peerPoolItem.PeerPubkey, Address := peerPoolItem.Address }
        blackNodeLoop env rest (peerPoolMap.erase peerPubkey)
          (s.Put (blackListKey env pk) (.blackListItem blackListItem))

/-- Entry point `BlackNode` (lines 367-419). -/
def BlackNode (env : Env) (checkWitness : Bytes → Bool)
    (input : Option PeerListParam) (s : Store) : Store × Result :=
  match input with
  | none => (s, .error .deserialize)
  | some params =>
  match env.operatorAddress with
  | none => (s, .error .operator)
  | some operatorAddress =>
  if ValidateOwner checkWitness operatorAddress = false then (s, .error .checkWitness) else
  match GetPeerPoolMap env s with
  | .error e => (s, .error e)
  | .ok peerPoolMap =>
  match blackNodeLoop env params.PeerPubkeyList peerPoolMap s with
  | (s1, .error e) => (s1, .error e)
  | (s1, .ok peerPoolMap1) => (putPeerPoolMap env peerPoolMap1 s1, .ok ())

/-- Entry point `WhiteNode` (lines 422-459). -/
def WhiteNode (env : Env) (checkWitness : Bytes → Bool)
    (input : Option PeerParam) (s : Store) : Store × Result :=
  match input with
  | none => (s, .error .deserialize)
  | some params =>
  match env.operatorAddress with
  | none => (s, .error .operator)
  | some operatorAddress =>
  if ValidateOwner checkWitness operatorAddress = false then (s, .error .checkWitness) else
  match hex.DecodeString params.PeerPubkey with
  | none => (s, .error .peerPubkeyFormat)
  | some pk =>
  match s (blackListKey env pk) with
  | none => (s, .error .notInBlackList)
  | some _ => (s.Delete (blackListKey env pk), .ok ())

/-- Entry point `QuitNode` (lines 463-500). -/
def QuitNode (env : Env) (checkWitness : Bytes → Bool)
    (input : Option RegisterPeerParam) (s : Store) : Store × Result :=
  match input with
  | none => (s, .error .deserialize)
  | some params =>
  match AddressParseFromBytes params.Address with
  | none => (s, .error .addressParse)
  | some address =>
  if ValidateOwner checkWitness address = false then (s, .error .checkWitness) else
  match GetPeerPoolMap env s with
  | .error e => (s, .error e)
  | .ok peerPoolMap =>
  match peerPoolMap params.PeerPubkey with
  | none => (s, .error .notInPool)
  | some peerPoolItem =>
  if params.Address ≠ peerPoolItem.Address then (s, .error .notOwner) else
  (putPeerPoolMap env (peerPoolMap.erase params.PeerPubkey) s, .ok ())

/-- Entry point `UpdateConfig` (lines 503-538). -/
def UpdateConfig (env : Env) (checkWitness : Bytes → Bool)
    (input : Option Configuration) (s : Store) : Store × Result :=
  match env.operatorAddress with
  | none => (s, .error .operator)
  | some operatorAddress =>
  if ValidateOwner checkWitness operatorAddress = false then (s, .error .checkWitness) else
  match input with
  | none => (s, .error .deserialize)
  | some configuration =>
  if configuration.BlockMsgDelay < 5000 then (s, .error .blockMsgDelay) else
  if configuration.HashMsgDelay < 5000 then (s, .error .hashMsgDelay) else
  if configuration.PeerHandshakeTimeout < 10 then (s, .error .peerHandshakeTimeout) else
  (putConfig env configuration s, .ok ())

/-! ## The state machine -/

/-- One Governance API call: the entry point, the witness set of the
transaction that carries it, and its decoded request. -/
inductive Call where
  | InitConfig (input : Option VBFTConfig)
  | RegisterCandidate (checkWitness : Bytes → Bool) (input : Option RegisterPeerParam)
  | UnRegisterCandidate (checkWitness : Bytes → Bool) (input : Option RegisterPeerParam)
  | QuitNode (checkWitness : Bytes → Bool) (input : Option RegisterPeerParam)
  | ApproveCandidate (checkWitness : Bytes → Bool) (input : Option PeerParam)
  | RejectCandidate (checkWitness : Bytes → Bool) (input : Option PeerParam)
  | BlackNode (checkWitness : Bytes → Bool) (input : Option PeerListParam)
  | WhiteNode (checkWitness : Bytes → Bool) (input : Option PeerParam)
  | UpdateConfig (checkWitness : Bytes → Bool) (input : Option Configuration)

/-- The dispatch of `RegisterNodeManagerContract` (lines 55-65): the cache
database and the result a call leaves. -/
def exec (env : Env) (s : Store) : Call → Store × Result
  | .InitConfig input => InitConfig env input s
  | .RegisterCandidate w input => RegisterCandidate env w input s
  | .UnRegisterCandidate w input => UnRegisterCandidate env w input s
  | .QuitNode w input => QuitNode env w input s
  | .ApproveCandidate w input => ApproveCandidate env w input s
  | .RejectCandidate w input => RejectCandidate env w input s
  | .BlackNode w input => BlackNode env w input s
  | .WhiteNode w input => WhiteNode env w input s
  | .UpdateConfig w input => UpdateConfig env w input s

/-- Modelled from the spec: the host's commit rule (not among the sources);
section 5 has the host keep the writes of a call that succeeded and discard
those of a call that returned an error. -/
def commit (env : Env) (s : Store) (c : Call) : Store :=
  match exec env s c with
  | (s1, .ok _) => s1
  | (_, .error _) => s

/-- The committed stores of a chain whose genesis configuration satisfies `G`
and whose calls are all made on stores that satisfy `P`: the store a
successful `InitConfig` leaves on the empty store, and every store a further
committed call leads to. -/
inductive ReachableVia (env : Env) (G : VBFTConfig → Prop) (P : Store → Prop) : Store → Prop
  | init (configuration : VBFTConfig) :
      G configuration →
      succeeded (InitConfig env (some configuration) Store.empty) = true →
      ReachableVia env G P (InitConfig env (some configuration) Store.empty).1
  | step (s : Store) (c : Call) :
      ReachableVia env G P s → P s → ReachableVia env G P (commit env s c)

/-- The stores reachable from the empty store by a successful `InitConfig`
followed by any sequence of Governance API calls. -/
def Reachable (env : Env) (s : Store) : Prop :=
  ReachableVia env (fun _ => True) (fun _ => True) s

/-! ## Observations of a store -/

/-- The peer pool record of a key: the entry of the stored pool under the key
string, `none` when there is no such entry or no pool. -/
def PeerPool (env : Env) (s : Store) (pubkey : String) : Option PeerPoolItem :=
  match GetPeerPoolMap env s with
  | .ok m => m pubkey
  | .error _ => none

/-- The permanent index assigned to a key: the `uint32` stored under
`"peerIndex" ++ pubkeyBytes`. -/
def IndexAssignment (env : Env) (s : Store) (pubkey : String) : Option Nat :=
  match hex.DecodeString pubkey with
  | none => none
  | some pk =>
    match s (peerIndexKey env pk) with
    | some (.uint32 n) => some n
    | _ => none

/-- The candidate index counter: the `uint32` stored under `"candidateIndex"`. -/
def CandidateIndexCounter (env : Env) (s : Store) : Option Nat :=
  match s (candidateIndexKey env) with
  | some (.uint32 n) => some n
  | _ => none

/-- The pending application of a key: the record stored under
`"peerApply" ++ pubkeyBytes`. -/
def ApplicationRecord (env : Env) (s : Store) (pubkey : String) : Option PeerPoolItem :=
  match hex.DecodeString pubkey with
  | none => none
  | some pk =>
    match s (peerApplyKey env pk) with
    | some (.peerPoolItem p) => some p
    | _ => none

/-- The blacklist entry of a key: the record stored under
`"blackList" ++ pubkeyBytes`. -/
def Blacklist (env : Env) (s : Store) (pubkey : String) : Option BlackListItem :=
  match hex.DecodeString pubkey with
  | none => none
  | some pk =>
    match s (blackListKey env pk) with
    | some (.blackListItem b) => some b
    | _ => none

/-- Whether a key is barred from registration: any item stored under its
blacklist key (the test `blackList != nil` of `RegisterCandidate`). -/
def Blacklisted (env : Env) (s : Store) (pubkey : String) : Bool :=
  match hex.DecodeString pubkey with
  | none => false
  | some pk => (s (blackListKey env pk)).isSome

/-- The stored timing configuration. -/
def StoredConfiguration (env : Env) (s : Store) : Option Configuration :=
  match s (vbftConfigKey env) with
  | some (.configuration c) => some c
  | _ => none

/-- The operator authorized the call: the operator address resolves and is a
witness of the transaction. -/
def OperatorAuthorized (env : Env) (checkWitness : Bytes → Bool) : Prop :=
  ∃ op, env.operatorAddress = some op ∧ checkWitness op = true


/-- Whether the store holds a peer pool that loads. -/
def HasPeerPool (env : Env) (s : Store) : Bool :=
  match GetPeerPoolMap env s with
  | .ok _ => true
  | .error _ => false

/-- Genesis peers with the same index have the same public key bytes, and every
genesis index is below the largest `uint32`. -/
def GenesisIndicesDistinct (configuration : VBFTConfig) : Prop :=
  (∀ p ∈ configuration.Peers, ∀ q ∈ configuration.Peers, p.Index = q.Index →
      hex.DecodeString p.PeerPubkey = hex.DecodeString q.PeerPubkey) ∧
    ∀ p ∈ configuration.Peers, p.Index + 1 < 2 ^ 32

/-- The candidate index counter is stored and is below the largest `uint32`, so
that advancing it does not wrap. -/
def CounterBelowMax (env : Env) (s : Store) : Prop :=
  ∃ c, CandidateIndexCounter env s = some c ∧ c + 1 < 2 ^ 32

/-- The index `i` belongs to the public key bytes `b`: it is the permanent index
stored for `b`, or a pool record whose key decodes to `b` carries it. -/
def Owns (env : Env) (s : Store) (m : PeerPoolMap) (b : Bytes) (i : Nat) : Prop :=
  s (peerIndexKey env b) = some (.uint32 i) ∨
    ∃ k it, m k = some it ∧ hex.DecodeString k = some b ∧ it.Index = i

/-- The invariant behind index injectivity: counter and pool are stored, every
index in use is below the counter and belongs to one public key only, and every
pending application is stored under its own key. -/
def IndexInv (env : Env) (s : Store) : Prop :=
  ∃ c m, s (candidateIndexKey env) = some (.uint32 c) ∧
    s (peerPoolKey env) = some (.peerPoolMap m) ∧
    (∀ b i, Owns env s m b i → i < c) ∧
    (∀ b1 b2 i, Owns env s m b1 i → Owns env s m b2 i → b1 = b2) ∧
    (∀ k it, m k = some it → (hex.DecodeString k).isSome = true) ∧
    (∀ b it, s (peerApplyKey env b) = some (.peerPoolItem it) →
      hex.DecodeString it.PeerPubkey = some b)

/-- Whether an application is pending for a key: any item stored under its
application key (`RegisterCandidate` fails on a record that `GetPeeApply`
returns and on an item it cannot decode alike). -/
def ApplicationStored (env : Env) (s : Store) (pubkey : String) : Bool :=
  match hex.DecodeString pubkey with
  | none => false
  | some pk => (s (peerApplyKey env pk)).isSome

/-- The stores `s` and `s1` show the same peer pool, blacklist, index
assignments, candidate index counter and configuration. -/
def SameOutsideApplications (env : Env) (s s1 : Store) : Prop :=
  (∀ k, PeerPool env s1 k = PeerPool env s k) ∧
    (∀ k, Blacklist env s1 k = Blacklist env s k) ∧
    (∀ k, Blacklisted env s1 k = Blacklisted env s k) ∧
    (∀ k, IndexAssignment env s1 k = IndexAssignment env s k) ∧
    CandidateIndexCounter env s1 = CandidateIndexCounter env s ∧
    StoredConfiguration env s1 = StoredConfiguration env s

/-- The stores `s` and `s1` show the same application record for every key
whose bytes differ from those of `pubkey`. -/
def SameOtherApplications (env : Env) (s s1 : Store) (pubkey : String) : Prop :=
  ∀ k, hex.DecodeString k ≠ hex.DecodeString pubkey →
    ApplicationRecord env s1 k = ApplicationRecord env s k

/-- The largest index of a genesis peer list, 0 for the empty list
(`max(supplied indices)` of section 4.2). -/
def maxIndex (peers : List VBFTPeerStakeInfo) : Nat :=
  (peers.map (fun p => p.Index)).foldr max 0

/-- The logical regions of the storage key layout (section 6). -/
inductive Region where
  | peerPool
  | candidateIndex
  | peerApply
  | peerIndex
  | blackList
  | vbftConfig
deriving DecidableEq, Repr

/-- Whether the keys of a region carry the decoded public key as suffix. -/
def Region.perKey : Region → Bool
  | .peerApply => true
  | .peerIndex => true
  | .blackList => true
  | _ => false

/-- The storage key the entry points build for a region and a public key
string: the region's key, in the three per-key regions with the bytes
`hex.DecodeString` gives for the string (`none` when it does not decode). -/
def storageKey (env : Env) (r : Region) (pubkey : String) : Option Bytes :=
  match r with
  | .peerPool => some (peerPoolKey env)
  | .candidateIndex => some (candidateIndexKey env)
  | .vbftConfig => some (vbftConfigKey env)
  | .peerApply => (hex.DecodeString pubkey).map (peerApplyKey env)
  | .peerIndex => (hex.DecodeString pubkey).map (peerIndexKey env)
  | .blackList => (hex.DecodeString pubkey).map (blackListKey env)

/-- Every pending application is stored under the bytes of its own public key,
as `RegisterCandidate` stores it. -/
def ApplicationsKeyed (env : Env) (s : Store) : Prop :=
  ∀ b it, s (peerApplyKey env b) = some (.peerPoolItem it) →
    hex.DecodeString it.PeerPubkey = some b

/-- Every record of the stored pool carries the permanent index stored for the
bytes of its key. -/
def PoolCarriesIndex (env : Env) (s : Store) : Prop :=
  ∃ m, s (peerPoolKey env) = some (.peerPoolMap m) ∧
    ∀ k it, m k = some it →
      ∃ b, hex.DecodeString k = some b ∧ s (peerIndexKey env b) = some (.uint32 it.Index)

/-- Every record of the stored pool is stored under a key that decodes, and its
own public key decodes to the same bytes. -/
def PoolKeyedByBytes (env : Env) (s : Store) : Prop :=
  ∃ m, s (peerPoolKey env) = some (.peerPoolMap m) ∧
    ∀ k it, m k = some it →
      ∃ b, hex.DecodeString k = some b ∧ hex.DecodeString it.PeerPubkey = some b

/-- Genesis peers whose public keys decode to the same bytes have the same index. -/
def GenesisKeysAgree (configuration : VBFTConfig) : Prop :=
  ∀ p ∈ configuration.Peers, ∀ q ∈ configuration.Peers,
    hex.DecodeString p.PeerPubkey = hex.DecodeString q.PeerPubkey → p.Index = q.Index

/-! ## A concrete chain, for evaluating the entry points -/

/-- A public key format validator for the concrete chain: 33 bytes in
hexadecimal, the first of them 2 or 3 (a compressed curve point). -/
def demoValidate (s : String) : Bool :=
  match hex.DecodeString s with
  | some (b :: rest) => (b = 2 ∨ b = 3) ∧ rest.length = 32
  | _ => false

/-- The operator address of the concrete chain. -/
def demoOperator : Bytes := List.replicate 20 9

/-- An account address, the owner of the candidate keys below. -/
def demoOwner : Bytes := List.replicate 20 1

/-- The host of the concrete chain. -/
def demoEnv : Env :=
  { NodeManagerContractAddress := List.replicate 19 0 ++ [5]
    operatorAddress := some demoOperator
    AddressFromBase58 := fun a => if a = "" then none else some (List.replicate 20 a.length)
    ValidatePeerPubKeyFormat := demoValidate }

/-- The witness set of a transaction signed by the address `a` alone. -/
def signedBy (a : Bytes) : Bytes → Bool := fun x => decide (x = a)

/-- A candidate public key. -/
def demoKey : String := "02abababababababababababababababababababababababababababababababab"

/-- The same public key bytes as `demoKey`, written with upper-case digits. -/
def demoKeyUpper : String := "02ABABABABABABABABABABABABABABABABABABABABABABABABABABABABABABABAB"

/-- A second public key. -/
def demoKey2 : String := "03cdcdcdcdcdcdcdcdcdcdcdcdcdcdcdcdcdcdcdcdcdcdcdcdcdcdcdcdcdcdcdcd"

/-- A third public key. -/
def demoKey3 : String := "03efefefefefefefefefefefefefefefefefefefefefefefefefefefefefefefef"

/-- A genesis configuration with valid timing parameters and the given peers. -/
def demoConfig (peers : List VBFTPeerStakeInfo) : VBFTConfig :=
  { BlockMsgDelay := 10000, HashMsgDelay := 10000, PeerHandshakeTimeout := 10, Peers := peers }

/-- Genesis of the concrete chain: one peer, `demoKey2`, with index 1 (the
address string `"genesis"` decodes to twenty bytes 7). -/
def demoGenesis : Store :=
  (InitConfig demoEnv (some (demoConfig [⟨1, demoKey2, "genesis"⟩])) Store.empty).1

/-- The concrete chain after `RegisterCandidate(demoKey, demoOwner)`. -/
def stRegistered : Store :=
  (RegisterCandidate demoEnv (signedBy demoOwner) (some ⟨demoKey, demoOwner⟩) demoGenesis).1

/-- The concrete chain after the operator's `ApproveCandidate(demoKey)`. -/
def stApproved : Store :=
  (ApproveCandidate demoEnv (signedBy demoOperator) (some ⟨demoKey⟩) stRegistered).1

/-- The concrete chain after the owner's `QuitNode(demoKey, demoOwner)`. -/
def stQuit : Store :=
  (QuitNode demoEnv (signedBy demoOwner) (some ⟨demoKey, demoOwner⟩) stApproved).1

/-- A chain whose genesis peer has index `2^32 - 2`, after
`RegisterCandidate(demoKey, demoOwner)`: its counter is the largest `uint32`. -/
def stMaxRegistered : Store :=
  (RegisterCandidate demoEnv (signedBy demoOwner) (some ⟨demoKey, demoOwner⟩)
    (InitConfig demoEnv (some (demoConfig [⟨4294967294, demoKey2, "genesis"⟩]))
      Store.empty).1).1

/-- The concrete chain after the operator's `BlackNode([demoKey])`. -/
def stBlack : Store :=
  (BlackNode demoEnv (signedBy demoOperator) (some ⟨[demoKey]⟩) stApproved).1

/-- The concrete chain after the operator approves `demoKey` once more. -/
def stReapproved : Store :=
  (ApproveCandidate demoEnv (signedBy demoOperator) (some ⟨demoKey⟩) stBlack).1

/-- A chain whose genesis holds the same public key bytes under two spellings:
`demoKey` with address twenty bytes 1 and `demoKeyUpper` with twenty bytes 2. -/
def stAliasGenesis : Store :=
  (InitConfig demoEnv
    (some (demoConfig [⟨1, demoKey, "a"⟩, ⟨2, demoKeyUpper, "bb"⟩])) Store.empty).1

/-- A fourth public key. -/
def demoKey4 : String := "021212121212121212121212121212121212121212121212121212121212121212"

/-- A chain whose genesis peers have the distinct indices 1 and `2^32 - 1`: the
counter `maxId + 1` of `InitConfig` wraps to 0. -/
def stWrapGenesis : Store :=
  (InitConfig demoEnv
    (some (demoConfig [⟨1, demoKey2, "a"⟩, ⟨4294967295, demoKey3, "bb"⟩])) Store.empty).1

/-- The chain `stWrapGenesis` after `demoKey` is registered and approved: it is
given index 0. -/
def stWrapFirst : Store :=
  (ApproveCandidate demoEnv (signedBy demoOperator) (some ⟨demoKey⟩)
    (RegisterCandidate demoEnv (signedBy demoOwner) (some ⟨demoKey, demoOwner⟩)
      stWrapGenesis).1).1

/-- The chain `stWrapFirst` after `demoKey4` is registered. -/
def stWrapSecondRegistered : Store :=
  (RegisterCandidate demoEnv (signedBy demoOwner) (some ⟨demoKey4, demoOwner⟩) stWrapFirst).1

/-- The chain `stWrapSecondRegistered` after `demoKey4` is approved: it is given
index 1, the index of the genesis peer `demoKey2`. -/
def stWrapSecond : Store :=
  (ApproveCandidate demoEnv (signedBy demoOperator) (some ⟨demoKey4⟩)
    stWrapSecondRegistered).1

/-- The concrete chain after the operator approves the pending application of
`demoKey` with the request `ApproveCandidate(demoKeyUpper)`. -/
def stAliasApproved : Store :=
  (ApproveCandidate demoEnv (signedBy demoOperator) (some ⟨demoKeyUpper⟩) stRegistered).1

/-! ## Cross-chain manager: the Bitcoin proof verifier (package `btc`) -/

/-- The message `wire_bch.MsgMerkleBlock` of the wire library: the block header
as its bytes, the transaction count, the hash list and the flag bytes. -/
structure MsgMerkleBlock where
  Header : Bytes
  Transactions : Nat
  Hashes : List Bytes
  Flags : Bytes
deriving DecidableEq, Repr

/-- The message `wire.MsgTx` of the wire library: a decoded transaction, kept as
the bytes it was decoded from. -/
structure MsgTx where
  payload : Bytes
deriving DecidableEq, Repr

/-- What `VerifyBtcTx` calls outside its own text: the two decoders and the
transaction hash of the wire library, the tree walk of `merkleblock`
(`ExtractMatches` is `none` for a nil root) and the header lookup of the SPV
client, which yields the merkle root of the header at a height. -/
structure BtcHost where
  BchDecode : Bytes → Option MsgMerkleBlock
  BtcDecode : Bytes → Option MsgTx
  TxHash : MsgTx → Bytes
  ExtractMatches : MsgMerkleBlock → Option Bytes
  BadTree : MsgMerkleBlock → Bool
  GetMatches : MsgMerkleBlock → List Bytes
  GetHeaderFromSpv : Nat → Option Bytes

/-- The errors `VerifyBtcTx` returns, in source order (lines 42-73). -/
inductive BtcErr where
  | decodeProof
  | decodeTransaction
  | wrongTransactionHash
  | badMerkleTree
  | spvHeader
  | merkleRootNotEqual
deriving DecidableEq, Repr

/-- How a call of `VerifyBtcTx` ends: it returns its pair `(bool, error)`, or the
Go runtime aborts it on an index expression that is out of range. -/
inductive Outcome where
  | returned (ok : Bool) (err : Option BtcErr)
  | aborted
deriving DecidableEq, Repr

/-- The condition of line 54,
`!bytes.Equal(mb.Hashes[0][:], txid[:]) && !bytes.Equal(mb.Hashes[1][:], txid[:])`:
`none` when an index expression it evaluates is out of range. The left operand
indexes `Hashes[0]`; the right one, evaluated only when the left is true,
indexes `Hashes[1]`. -/
def wrongTransactionHash (hashes : List Bytes) (txid : Bytes) : Option Bool :=
  match hashes[0]? with
  | none => none
  | some h0 =>
    if h0 ≠ txid then
      match hashes[1]? with
      | none => none
      | some h1 => some (decide (h1 ≠ txid))
    else some false

/-- The function `VerifyBtcTx` (lines 39-76). -/
def VerifyBtcTx (host : BtcHost) (proof tx : Bytes) (height : Nat) : Outcome :=
  match host.BchDecode proof with
  | none => .returned false (some .decodeProof)
  | some mb =>
  match host.BtcDecode tx with
  | none => .returned false (some .decodeTransaction)
  | some mtx =>
  let txid := host.TxHash mtx
  match wrongTransactionHash mb.Hashes txid with
  | none => .aborted
  | some true => .returned false (some .wrongTransactionHash)
  | some false =>
  let merkleRootCalc := host.ExtractMatches mb
  if merkleRootCalc = none ∨ host.BadTree mb = true ∨ (host.GetMatches mb).length = 0 then
    .returned false (some .badMerkleTree)
  else
  match host.GetHeaderFromSpv height with
  | none => .returned false (some .spvHeader)
  | some merkleRoot =>
  if merkleRootCalc ≠ some merkleRoot then .returned false (some .merkleRootNotEqual)
  else .returned true none

/-- Reads `n` hashes of 32 bytes each from the front of a byte string. -/
def readHashes : Nat → Bytes → Option (List Bytes × Bytes)
  | 0, bs => some ([], bs)
  | n + 1, bs =>
    if bs.length < 32 then none else
    match readHashes n (bs.drop 32) with
    | none => none
    | some (hs, rest) => some (bs.take 32 :: hs, rest)

/-- The merkle block decoder of the concrete host, for messages with one-byte
counts: an 80-byte header, a 4-byte transaction count (little endian), the
number of hashes, the hashes, the number of flag bytes, the flag bytes. -/
def demoBchDecode (proof : Bytes) : Option MsgMerkleBlock :=
  if proof.length < 85 then none else
  match proof.drop 84 with
  | [] => none
  | count :: rest =>
    if count ≥ 253 then none else
    match readHashes count rest with
    | none => none
    | some (_, []) => none
    | some (hashes, flagCount :: flags) =>
      if flagCount ≥ 253 ∨ flags.length ≠ flagCount then none else
      some
        { Header := proof.take 80
          Transactions := ((proof.drop 80).take 4).foldr (fun b acc => b + 256 * acc) 0
          Hashes := hashes
          Flags := flags }

/-- The concrete host of the verifier: a transaction is any non-empty byte
string and its hash is its first 32 bytes, padded with zeros; the tree of a
block is taken to have its first hash as root and its hashes as matches; every
header of the SPV client has the merkle root thirty-two bytes 7. -/
def demoBtcHost : BtcHost :=
  { BchDecode := demoBchDecode
    BtcDecode := fun tx => if tx = [] then none else some ⟨tx⟩
    TxHash := fun mtx => (mtx.payload ++ List.replicate 32 0).take 32
    ExtractMatches := fun mb => mb.Hashes.head?
    BadTree := fun _ => false
    GetMatches := fun mb => mb.Hashes
    GetHeaderFromSpv := fun _ => some (List.replicate 32 7) }

/-- A proof that decodes to a merkle block without hashes: a zero header, no
transactions, hash count 0, flag count 0. -/
def demoProofNoHashes : Bytes := List.replicate 80 0 ++ [0, 0, 0, 0] ++ [0] ++ [0]

/-- A proof that decodes to a merkle block with the single hash thirty-two
bytes 7 and one flag byte. -/
def demoProofOneHash : Bytes :=
  List.replicate 80 0 ++ [1, 0, 0, 0] ++ [1] ++ List.replicate 32 7 ++ [1, 1]

/-- A transaction whose hash on the concrete host is 1 followed by zeros. -/
def demoTx : Bytes := [1]

/-- A transaction whose hash on the concrete host is thirty-two bytes 7. -/
def demoTxSeven : Bytes := List.replicate 32 7

/-! ## Storage keys of different regions never coincide -/

theorem VBFT_CONFIG_eq : VBFT_CONFIG = [118, 98, 102, 116, 67, 111, 110, 102, 105, 103] := by decide
theorem CANDIDITE_INDEX_eq : CANDIDITE_INDEX = [99, 97, 110, 100, 105, 100, 97, 116, 101, 73, 110, 100, 101, 120] := by decide
theorem PEER_APPLY_eq : PEER_APPLY = [112, 101, 101, 114, 65, 112, 112, 108, 121] := by decide
theorem PEER_POOL_eq : PEER_POOL = [112, 101, 101, 114, 80, 111, 111, 108] := by decide
theorem PEER_INDEX_eq : PEER_INDEX = [112, 101, 101, 114, 73, 110, 100, 101, 120] := by decide
theorem BLACK_LIST_eq : BLACK_LIST = [98, 108, 97, 99, 107, 76, 105, 115, 116] := by decide

theorem peerPoolKey_nf (env : Env) : peerPoolKey env =
    env.NodeManagerContractAddress ++ [112, 101, 101, 114, 80, 111, 111, 108] := by
  simp [peerPoolKey, ConcatKey, PEER_POOL_eq]
theorem candidateIndexKey_nf (env : Env) : candidateIndexKey env =
    env.NodeManagerContractAddress ++
      [99, 97, 110, 100, 105, 100, 97, 116, 101, 73, 110, 100, 101, 120] := by
  simp [candidateIndexKey, ConcatKey, CANDIDITE_INDEX_eq]
theorem vbftConfigKey_nf (env : Env) : vbftConfigKey env =
    env.NodeManagerContractAddress ++ [118, 98, 102, 116, 67, 111, 110, 102, 105, 103] := by
  simp [vbftConfigKey, ConcatKey, VBFT_CONFIG_eq]
theorem peerApplyKey_nf (env : Env) (b : Bytes) : peerApplyKey env b =
    env.NodeManagerContractAddress ++
      (112 :: 101 :: 101 :: 114 :: 65 :: 112 :: 112 :: 108 :: 121 :: b) := by
  simp [peerApplyKey, ConcatKey, PEER_APPLY_eq]
theorem peerIndexKey_nf (env : Env) (b : Bytes) : peerIndexKey env b =
    env.NodeManagerContractAddress ++
      (112 :: 101 :: 101 :: 114 :: 73 :: 110 :: 100 :: 101 :: 120 :: b) := by
  simp [peerIndexKey, ConcatKey, PEER_INDEX_eq]
theorem blackListKey_nf (env : Env) (b : Bytes) : blackListKey env b =
    env.NodeManagerContractAddress ++
      (98 :: 108 :: 97 :: 99 :: 107 :: 76 :: 105 :: 115 :: 116 :: b) := by
  simp [blackListKey, ConcatKey, BLACK_LIST_eq]

@[simp] theorem peerPoolKey_ne_candidateIndexKey (env : Env) :
    peerPoolKey env ≠ candidateIndexKey env := by
  simp [peerPoolKey_nf, candidateIndexKey_nf]
@[simp] theorem peerPoolKey_ne_vbftConfigKey (env : Env) :
    peerPoolKey env ≠ vbftConfigKey env := by
  simp [peerPoolKey_nf, vbftConfigKey_nf]
@[simp] theorem peerPoolKey_ne_peerApplyKey (env : Env) (b : Bytes) :
    peerPoolKey env ≠ peerApplyKey env b := by
  simp [peerPoolKey_nf, peerApplyKey_nf]
@[simp] theorem peerPoolKey_ne_peerIndexKey (env : Env) (b : Bytes) :
    peerPoolKey env ≠ peerIndexKey env b := by
  simp [peerPoolKey_nf, peerIndexKey_nf]
@[simp] theorem peerPoolKey_ne_blackListKey (env : Env) (b : Bytes) :
    peerPoolKey env ≠ blackListKey env b := by
  simp [peerPoolKey_nf, blackListKey_nf]
@[simp] theorem candidateIndexKey_ne_peerPoolKey (env : Env) :
    candidateIndexKey env ≠ peerPoolKey env := by
  simp [candidateIndexKey_nf, peerPoolKey_nf]
@[simp] theorem candidateIndexKey_ne_vbftConfigKey (env : Env) :
    candidateIndexKey env ≠ vbftConfigKey env := by
  simp [candidateIndexKey_nf, vbftConfigKey_nf]
@[simp] theorem candidateIndexKey_ne_peerApplyKey (env : Env) (b : Bytes) :
    candidateIndexKey env ≠ peerApplyKey env b := by
  simp [candidateIndexKey_nf, peerApplyKey_nf]
@[simp] theorem candidateIndexKey_ne_peerIndexKey (env : Env) (b : Bytes) :
    candidateIndexKey env ≠ peerIndexKey env b := by
  simp [candidateIndexKey_nf, peerIndexKey_nf]
@[simp] theorem candidateIndexKey_ne_blackListKey (env : Env) (b : Bytes) :
    candidateIndexKey env ≠ blackListKey env b := by
  simp [candidateIndexKey_nf, blackListKey_nf]
@[simp] theorem vbftConfigKey_ne_peerPoolKey (env : Env) :
    vbftConfigKey env ≠ peerPoolKey env := by
  simp [vbftConfigKey_nf, peerPoolKey_nf]
@[simp] theorem vbftConfigKey_ne_candidateIndexKey (env : Env) :
    vbftConfigKey env ≠ candidateIndexKey env := by
  simp [vbftConfigKey_nf, candidateIndexKey_nf]
@[simp] theorem vbftConfigKey_ne_peerApplyKey (env : Env) (b : Bytes) :
    vbftConfigKey env ≠ peerApplyKey env b := by
  simp [vbftConfigKey_nf, peerApplyKey_nf]
@[simp] theorem vbftConfigKey_ne_peerIndexKey (env : Env) (b : Bytes) :
    vbftConfigKey env ≠ peerIndexKey env b := by
  simp [vbftConfigKey_nf, peerIndexKey_nf]
@[simp] theorem vbftConfigKey_ne_blackListKey (env : Env) (b : Bytes) :
    vbftConfigKey env ≠ blackListKey env b := by
  simp [vbftConfigKey_nf, blackListKey_nf]
@[simp] theorem peerApplyKey_ne_peerPoolKey (env : Env) (a : Bytes) :
    peerApplyKey env a ≠ peerPoolKey env := by
  simp [peerApplyKey_nf, peerPoolKey_nf]
@[simp] theorem peerApplyKey_ne_candidateIndexKey (env : Env) (a : Bytes) :
    peerApplyKey env a ≠ candidateIndexKey env := by
  simp [peerApplyKey_nf, candidateIndexKey_nf]
@[simp] theorem peerApplyKey_ne_vbftConfigKey (env : Env) (a : Bytes) :
    peerApplyKey env a ≠ vbftConfigKey env := by
  simp [peerApplyKey_nf, vbftConfigKey_nf]
@[simp] theorem peerApplyKey_ne_peerIndexKey (env : Env) (a b : Bytes) :
    peerApplyKey env a ≠ peerIndexKey env b := by
  simp [peerApplyKey_nf, peerIndexKey_nf]
@[simp] theorem peerApplyKey_ne_blackListKey (env : Env) (a b : Bytes) :
    peerApplyKey env a ≠ blackListKey env b := by
  simp [peerApplyKey_nf, blackListKey_nf]
@[simp] theorem peerIndexKey_ne_peerPoolKey (env : Env) (a : Bytes) :
    peerIndexKey env a ≠ peerPoolKey env := by
  simp [peerIndexKey_nf, peerPoolKey_nf]
@[simp] theorem peerIndexKey_ne_candidateIndexKey (env : Env) (a : Bytes) :
    peerIndexKey env a ≠ candidateIndexKey env := by
  simp [peerIndexKey_nf, candidateIndexKey_nf]
@[simp] theorem peerIndexKey_ne_vbftConfigKey (env : Env) (a : Bytes) :
    peerIndexKey env a ≠ vbftConfigKey env := by
  simp [peerIndexKey_nf, vbftConfigKey_nf]
@[simp] theorem peerIndexKey_ne_peerApplyKey (env : Env) (a b : Bytes) :
    peerIndexKey env a ≠ peerApplyKey env b := by
  simp [peerIndexKey_nf, peerApplyKey_nf]
@[simp] theorem peerIndexKey_ne_blackListKey (env : Env) (a b : Bytes) :
    peerIndexKey env a ≠ blackListKey env b := by
  simp [peerIndexKey_nf, blackListKey_nf]
@[simp] theorem blackListKey_ne_peerPoolKey (env : Env) (a : Bytes) :
    blackListKey env a ≠ peerPoolKey env := by
  simp [blackListKey_nf, peerPoolKey_nf]
@[simp] theorem blackListKey_ne_candidateIndexKey (env : Env) (a : Bytes) :
    blackListKey env a ≠ candidateIndexKey env := by
  simp [blackListKey_nf, candidateIndexKey_nf]
@[simp] theorem blackListKey_ne_vbftConfigKey (env : Env) (a : Bytes) :
    blackListKey env a ≠ vbftConfigKey env := by
  simp [blackListKey_nf, vbftConfigKey_nf]
@[simp] theorem blackListKey_ne_peerApplyKey (env : Env) (a b : Bytes) :
    blackListKey env a ≠ peerApplyKey env b := by
  simp [blackListKey_nf, peerApplyKey_nf]
@[simp] theorem blackListKey_ne_peerIndexKey (env : Env) (a b : Bytes) :
    blackListKey env a ≠ peerIndexKey env b := by
  simp [blackListKey_nf, peerIndexKey_nf]
@[simp] theorem peerApplyKey_inj (env : Env) (a b : Bytes) :
    peerApplyKey env a = peerApplyKey env b ↔ a = b := by
  simp [peerApplyKey_nf]
@[simp] theorem peerIndexKey_inj (env : Env) (a b : Bytes) :
    peerIndexKey env a = peerIndexKey env b ↔ a = b := by
  simp [peerIndexKey_nf]
@[simp] theorem blackListKey_inj (env : Env) (a b : Bytes) :
    blackListKey env a = blackListKey env b ↔ a = b := by
  simp [blackListKey_nf]

/-! ## What each entry point writes -/

/-- The pool loads exactly when a pool item is stored under the pool key. -/
theorem getPeerPoolMap_ok (env : Env) (s : Store) (m : PeerPoolMap) :
    GetPeerPoolMap env s = .ok m ↔ s (peerPoolKey env) = some (.peerPoolMap m) := by
  unfold GetPeerPoolMap
  split <;> simp_all

/-- On a store that holds any item under the pool key, `InitConfig` fails and
writes nothing. -/
theorem initConfig_store_of_pool (env : Env) (input : Option VBFTConfig) (s : Store)
    (h : s (peerPoolKey env) ≠ none) :
    (InitConfig env input s).1 = s ∧ succeeded (InitConfig env input s) = false := by
  unfold InitConfig
  cases input with
  | none => simp [succeeded]
  | some configuration =>
    cases hp : s (peerPoolKey env) with
    | none => exact absurd hp h
    | some v => simp [succeeded]

/-- The only write of `RegisterCandidate` is one application record, stored
under the decoded bytes of its own public key. -/
theorem registerCandidate_store (env : Env) (w : Bytes → Bool)
    (input : Option RegisterPeerParam) (s : Store) :
    (RegisterCandidate env w input s).1 = s ∨
      ∃ b it, hex.DecodeString it.PeerPubkey = some b ∧
        (RegisterCandidate env w input s).1 = s.Put (peerApplyKey env b) (.peerPoolItem it) := by
  unfold RegisterCandidate
  repeat' split
  all_goals first
    | exact Or.inl rfl
    | (rename_i h; unfold putPeerApply at h; split at h
       · simp at h
       · rename_i pk hpk
         simp only [Except.ok.injEq] at h
         exact Or.inr ⟨pk, _, hpk, h.symm⟩)

/-- The only write of `UnRegisterCandidate` is the deletion of one application key. -/
theorem unRegisterCandidate_store (env : Env) (w : Bytes → Bool)
    (input : Option RegisterPeerParam) (s : Store) :
    (UnRegisterCandidate env w input s).1 = s ∨
      ∃ b, (UnRegisterCandidate env w input s).1 = s.Delete (peerApplyKey env b) := by
  unfold UnRegisterCandidate
  repeat' split
  all_goals first
    | exact Or.inl rfl
    | exact Or.inr ⟨_, rfl⟩

/-- The only write of `RejectCandidate` is the deletion of one application key. -/
theorem rejectCandidate_store (env : Env) (w : Bytes → Bool)
    (input : Option PeerParam) (s : Store) :
    (RejectCandidate env w input s).1 = s ∨
      ∃ b, (RejectCandidate env w input s).1 = s.Delete (peerApplyKey env b) := by
  unfold RejectCandidate
  repeat' split
  all_goals first
    | exact Or.inl rfl
    | exact Or.inr ⟨_, rfl⟩

/-- The only write of `WhiteNode` is the deletion of one blacklist key. -/
theorem whiteNode_store (env : Env) (w : Bytes → Bool)
    (input : Option PeerParam) (s : Store) :
    (WhiteNode env w input s).1 = s ∨
      ∃ b, (WhiteNode env w input s).1 = s.Delete (blackListKey env b) := by
  unfold WhiteNode
  repeat' split
  all_goals first
    | exact Or.inl rfl
    | exact Or.inr ⟨_, rfl⟩

/-- The only write of `QuitNode` is the pool with one key erased. -/
theorem quitNode_store (env : Env) (w : Bytes → Bool)
    (input : Option RegisterPeerParam) (s : Store) :
    (QuitNode env w input s).1 = s ∨
      ∃ m k, s (peerPoolKey env) = some (.peerPoolMap m) ∧
        (QuitNode env w input s).1 = putPeerPoolMap env (m.erase k) s := by
  unfold QuitNode
  repeat' split
  all_goals first
    | exact Or.inl rfl
    | (rename_i m hm _ _ _ _; exact Or.inr ⟨m, _, (getPeerPoolMap_ok env s m).1 hm, rfl⟩)

/-- The only write of `UpdateConfig` is the configuration. -/
theorem updateConfig_store (env : Env) (w : Bytes → Bool)
    (input : Option Configuration) (s : Store) :
    (UpdateConfig env w input s).1 = s ∨
      ∃ c, (UpdateConfig env w input s).1 = putConfig env c s := by
  unfold UpdateConfig
  repeat' split
  all_goals first
    | exact Or.inl rfl
    | exact Or.inr ⟨_, rfl⟩
/-- The stores `ApproveCandidate` can leave: the store untouched; the pool with
the applicant inserted under its stored index; or, when no index is stored, the
counter advanced and the index recorded, followed (when the pool loads) by the
pool with the applicant inserted under the old counter value. -/
theorem approveCandidate_store (env : Env) (w : Bytes → Bool)
    (input : Option PeerParam) (s : Store) :
    (ApproveCandidate env w input s).1 = s ∨
      ∃ pk pkb it b, hex.DecodeString pk = some pkb ∧
        s (peerApplyKey env pkb) = some (.peerPoolItem it) ∧
        hex.DecodeString it.PeerPubkey = some b ∧
        ((∃ idx m, s (peerIndexKey env b) = some (.uint32 idx) ∧
            s (peerPoolKey env) = some (.peerPoolMap m) ∧
            (ApproveCandidate env w input s).1 =
              putPeerPoolMap env (m.insert pk { it with Index := idx }) s) ∨
          (∃ c, s (peerIndexKey env b) = none ∧
            s (candidateIndexKey env) = some (.uint32 c) ∧
            ((ApproveCandidate env w input s).1 =
                (putCandidateIndex env ((c + 1) % 2 ^ 32) s).Put (peerIndexKey env b)
                  (.uint32 c) ∨
              ∃ m, s (peerPoolKey env) = some (.peerPoolMap m) ∧
                (ApproveCandidate env w input s).1 =
                  putPeerPoolMap env (m.insert pk { it with Index := c })
                    ((putCandidateIndex env ((c + 1) % 2 ^ 32) s).Put (peerIndexKey env b)
                      (.uint32 c))))) := by
  unfold ApproveCandidate
  cases input with
  | none => exact Or.inl rfl
  | some params =>
    cases env.operatorAddress with
    | none => exact Or.inl rfl
    | some op =>
      by_cases hw : ValidateOwner w op = false
      · simp [hw]
      · dsimp only
        rw [if_neg hw]
        unfold GetPeeApply
        cases hd : hex.DecodeString params.PeerPubkey with
        | none => exact Or.inl rfl
        | some pkb =>
          dsimp only
          cases ha : s (peerApplyKey env pkb) with
          | none => exact Or.inl rfl
          | some v =>
            cases v with
            | peerPoolItem it =>
              dsimp only
              unfold approveIndex
              cases hb : hex.DecodeString it.PeerPubkey with
              | none => exact Or.inl rfl
              | some b =>
                dsimp only
                cases hi : s (peerIndexKey env b) with
                | some v =>
                  cases v with
                  | uint32 idx =>
                    dsimp only
                    cases hp : GetPeerPoolMap env s with
                    | error e => exact Or.inl rfl
                    | ok m =>
                      exact Or.inr ⟨_, pkb, it, b, hd, ha, hb,
                        Or.inl ⟨idx, m, hi, (getPeerPoolMap_ok env s m).1 hp, rfl⟩⟩
                  | _ => exact Or.inl rfl
                | none =>
                  dsimp only
                  unfold getCandidateIndex
                  cases hc : s (candidateIndexKey env) with
                  | none => exact Or.inl rfl
                  | some v =>
                    cases v with
                    | uint32 c =>
                      dsimp only
                      cases hp : GetPeerPoolMap env
                          ((putCandidateIndex env ((c + 1) % 2 ^ 32) s).Put (peerIndexKey env b)
                            (.uint32 c)) with
                      | error e =>
                        exact Or.inr ⟨_, pkb, it, b, hd, ha, hb,
                          Or.inr ⟨c, hi, rfl, Or.inl rfl⟩⟩
                      | ok m =>
                        have hm := (getPeerPoolMap_ok env _ m).1 hp
                        simp [putCandidateIndex, Store.Put] at hm
                        exact Or.inr ⟨_, pkb, it, b, hd, ha, hb,
                          Or.inr ⟨c, hi, rfl, Or.inr ⟨m, hm, rfl⟩⟩⟩
                    | _ => exact Or.inl rfl
            | _ => exact Or.inl rfl

/-- The loop of `BlackNode` writes blacklist keys of listed pool keys only. -/
theorem blackNodeLoop_writes (env : Env) (keys : List String) :
    ∀ (m : PeerPoolMap) (s : Store) (key : Bytes),
      (blackNodeLoop env keys m s).1 key ≠ s key →
      ∃ k ∈ keys, ∃ b, m k ≠ none ∧ hex.DecodeString k = some b ∧ key = blackListKey env b := by
  induction keys with
  | nil => intro m s key h; exact absurd rfl h
  | cons k rest ih =>
    intro m s key h
    unfold blackNodeLoop at h
    cases hd : hex.DecodeString k with
    | none => simp [hd] at h
    | some b =>
      cases hm : m k with
      | none => simp [hd, hm] at h
      | some it =>
        simp only [hd, hm] at h
        by_cases hkey : key = blackListKey env b
        · exact ⟨k, List.mem_cons_self _ _, b, by simp [hm], hd, hkey⟩
        · have h2 : (s.Put (blackListKey env b)
              (.blackListItem { PeerPubkey := it.PeerPubkey, Address := it.Address })) key
              = s key := by simp [Store.Put, hkey]
          rw [← h2] at h
          obtain ⟨k2, hk2, b2, hm2, hd2, hkey2⟩ := ih _ _ _ h
          refine ⟨k2, List.mem_cons_of_mem _ hk2, b2, ?_, hd2, hkey2⟩
          intro hnone
          apply hm2
          simp [PeerPoolMap.erase, hnone]

/-- The pool the loop of `BlackNode` returns holds only entries of the pool it
started from. -/
theorem blackNodeLoop_shrinks (env : Env) (keys : List String) :
    ∀ (m m1 : PeerPoolMap) (s : Store),
      (blackNodeLoop env keys m s).2 = .ok m1 →
      ∀ k it, m1 k = some it → m k = some it := by
  induction keys with
  | nil =>
    intro m m1 s h k it hk
    simp [blackNodeLoop] at h
    subst h
    exact hk
  | cons k0 rest ih =>
    intro m m1 s h k it hk
    unfold blackNodeLoop at h
    cases hd : hex.DecodeString k0 with
    | none => simp [hd] at h
    | some b =>
      cases hm : m k0 with
      | none => simp [hd, hm] at h
      | some it0 =>
        simp only [hd, hm] at h
        have := ih _ _ _ h k it hk
        simp only [PeerPoolMap.erase] at this
        split at this
        · simp at this
        · exact this

/-- The loop of `BlackNode` fails when a listed key is not in the pool. -/
theorem blackNodeLoop_missing (env : Env) (keys : List String) :
    ∀ (m : PeerPoolMap) (s : Store), (∃ k ∈ keys, m k = none) →
      ∃ e, (blackNodeLoop env keys m s).2 = .error e := by
  induction keys with
  | nil => intro m s ⟨k, hk, _⟩; simp at hk
  | cons k0 rest ih =>
    intro m s ⟨k, hk, hnone⟩
    unfold blackNodeLoop
    cases hd : hex.DecodeString k0 with
    | none => exact ⟨_, rfl⟩
    | some b =>
      cases hm : m k0 with
      | none => exact ⟨_, rfl⟩
      | some it0 =>
        simp only []
        apply ih
        rcases List.mem_cons.1 hk with rfl | hk
        · simp [hm] at hnone
        · exact ⟨k, hk, by simp [PeerPoolMap.erase, hnone]⟩

/-- What `BlackNode` writes, successful or not: blacklist keys and the pool
key, the latter with a pool that holds only entries of the pool before. -/
theorem blackNode_store (env : Env) (w : Bytes → Bool)
    (input : Option PeerListParam) (s : Store) :
    (∀ key, (∀ b, key ≠ blackListKey env b) → key ≠ peerPoolKey env →
        (BlackNode env w input s).1 key = s key) ∧
      ((BlackNode env w input s).1 (peerPoolKey env) = s (peerPoolKey env) ∨
        ∃ m m1, s (peerPoolKey env) = some (.peerPoolMap m) ∧
          (BlackNode env w input s).1 (peerPoolKey env) = some (.peerPoolMap m1) ∧
          ∀ k it, m1 k = some it → m k = some it) := by
  unfold BlackNode
  cases input with
  | none => exact ⟨fun _ _ _ => rfl, Or.inl rfl⟩
  | some params =>
    cases env.operatorAddress with
    | none => exact ⟨fun _ _ _ => rfl, Or.inl rfl⟩
    | some op =>
      by_cases hw : ValidateOwner w op = false
      · simp [hw]
      · dsimp only
        rw [if_neg hw]
        cases hp : GetPeerPoolMap env s with
        | error e => exact ⟨fun _ _ _ => rfl, Or.inl rfl⟩
        | ok m =>
          simp only []
          have hwr := blackNodeLoop_writes env params.PeerPubkeyList m s
          have hsh := blackNodeLoop_shrinks env params.PeerPubkeyList m
          cases hl : blackNodeLoop env params.PeerPubkeyList m s with
          | mk s1 r =>
            rw [hl] at hwr
            cases r with
            | error e =>
              refine ⟨fun key hb _ => ?_, Or.inl ?_⟩
              · by_contra hne
                obtain ⟨_, _, b, _, _, hkey⟩ := hwr key hne
                exact hb b hkey
              · by_contra hne
                obtain ⟨_, _, b, _, _, hkey⟩ := hwr _ hne
                exact peerPoolKey_ne_blackListKey env b hkey
            | ok m1 =>
              refine ⟨fun key hb hpool => ?_, Or.inr ⟨m, m1, (getPeerPoolMap_ok env s m).1 hp, ?_,
                hsh m1 s (by rw [hl])⟩⟩
              · simp only [putPeerPoolMap, Store.Put, hpool, if_false]
                by_contra hne
                obtain ⟨_, _, b, _, _, hkey⟩ := hwr key hne
                exact hb b hkey
              · simp [putPeerPoolMap, Store.Put]
/-! ## Reachable stores -/

/-- The loop of `InitConfig` writes permanent index keys only. -/
theorem initPeers_frame (env : Env) (peers : List VBFTPeerStakeInfo) :
    ∀ (maxId : Nat) (m : PeerPoolMap) (s : Store) (key : Bytes),
      (∀ b, key ≠ peerIndexKey env b) → (initPeers env peers maxId m s).1 key = s key := by
  induction peers with
  | nil => intro maxId m s key _; rfl
  | cons p rest ih =>
    intro maxId m s key hkey
    unfold initPeers
    cases env.AddressFromBase58 p.Address with
    | none => rfl
    | some address =>
      dsimp only
      cases hd : hex.DecodeString p.PeerPubkey with
      | none => rfl
      | some b =>
        dsimp only
        rw [ih _ _ _ key hkey]
        simp [Store.Put, hkey b]

/-- The store a successful `InitConfig` leaves. -/
theorem initConfig_success (env : Env) (configuration : VBFTConfig) (s : Store)
    (hok : succeeded (InitConfig env (some configuration) s) = true) :
    ∃ maxId m s1, initPeers env configuration.Peers 0 (fun _ => none) s = (s1, .ok (maxId, m)) ∧
      s (peerPoolKey env) = none ∧
      (InitConfig env (some configuration) s).1 =
        putConfig env
          { BlockMsgDelay := configuration.BlockMsgDelay
            HashMsgDelay := configuration.HashMsgDelay
            PeerHandshakeTimeout := configuration.PeerHandshakeTimeout }
          ((putPeerPoolMap env m s1).Put (candidateIndexKey env)
            (.uint32 ((maxId + 1) % 2 ^ 32))) := by
  revert hok
  unfold InitConfig
  dsimp only
  cases hp : s (peerPoolKey env) with
  | some v => simp [succeeded]
  | none =>
    dsimp only
    cases CheckVBFTConfig configuration with
    | error e => simp [succeeded]
    | ok u =>
      dsimp only
      cases hl : initPeers env configuration.Peers 0 (fun _ => none) s with
      | mk s1 r =>
        cases r with
        | error e => simp [succeeded]
        | ok v =>
          obtain ⟨maxId, m⟩ := v
          intro _
          exact ⟨maxId, m, s1, rfl, rfl, rfl⟩

/-- The committed store is the store before, or the store a successful call leaves. -/
theorem commit_cases (env : Env) (s : Store) (c : Call) :
    commit env s c = s ∨
      (commit env s c = (exec env s c).1 ∧ succeeded (exec env s c) = true) := by
  unfold commit succeeded
  cases h : exec env s c with
  | mk s1 r =>
    cases r with
    | error e => exact Or.inl rfl
    | ok u => exact Or.inr ⟨rfl, rfl⟩

/-- The writes of a successful call are committed. -/
theorem commit_of_succeeded (env : Env) (s : Store) (c : Call)
    (hok : succeeded (exec env s c) = true) : commit env s c = (exec env s c).1 := by
  revert hok
  unfold commit succeeded
  cases h : exec env s c with
  | mk s1 r =>
    cases r with
    | error e => simp
    | ok u => intro _; rfl

/-- The store a successful call leaves on a reachable store is reachable. -/
theorem reachable_exec (env : Env) (s : Store) (c : Call) (hr : Reachable env s)
    (hok : succeeded (exec env s c) = true) : Reachable env (exec env s c).1 := by
  rw [← commit_of_succeeded env s c hok]
  exact ReachableVia.step s c hr trivial

/-- Entry points other than `InitConfig` never remove or retype the stored pool. -/
theorem exec_pool_present (env : Env) (s : Store) (c : Call) (m : PeerPoolMap)
    (hp : s (peerPoolKey env) = some (.peerPoolMap m)) :
    ∃ m1, (exec env s c).1 (peerPoolKey env) = some (.peerPoolMap m1) := by
  cases c with
  | InitConfig input =>
    rw [exec, (initConfig_store_of_pool env input s (by simp [hp])).1]
    exact ⟨m, hp⟩
  | RegisterCandidate w input =>
    rcases registerCandidate_store env w input s with h | ⟨b, it, _, h⟩ <;>
      simp [exec, h, hp, Store.Put]
  | UnRegisterCandidate w input =>
    rcases unRegisterCandidate_store env w input s with h | ⟨b, h⟩ <;>
      simp [exec, h, hp, Store.Delete]
  | QuitNode w input =>
    rcases quitNode_store env w input s with h | ⟨m1, k, _, h⟩ <;>
      simp [exec, h, hp, putPeerPoolMap, Store.Put]
  | ApproveCandidate w input =>
    rcases approveCandidate_store env w input s with
      h | ⟨pk, pkb, it, b, _, _, _, ⟨idx, m1, _, _, h⟩ | ⟨c, _, _, h | ⟨m1, _, h⟩⟩⟩ <;>
      simp [exec, h, hp, putPeerPoolMap, putCandidateIndex, Store.Put]
  | RejectCandidate w input =>
    rcases rejectCandidate_store env w input s with h | ⟨b, h⟩ <;>
      simp [exec, h, hp, Store.Delete]
  | BlackNode w input =>
    rcases (blackNode_store env w input s).2 with h | ⟨m0, m1, _, h, _⟩
    · exact ⟨m, by simp [exec, h, hp]⟩
    · exact ⟨m1, by simp [exec, h]⟩
  | WhiteNode w input =>
    rcases whiteNode_store env w input s with h | ⟨b, h⟩ <;>
      simp [exec, h, hp, Store.Delete]
  | UpdateConfig w input =>
    rcases updateConfig_store env w input s with h | ⟨c, h⟩ <;>
      simp [exec, h, hp, putConfig, Store.Put]

/-- Every reachable store holds a pool. -/
theorem reachableVia_pool (env : Env) (G : VBFTConfig → Prop) (P : Store → Prop) (s : Store)
    (hr : ReachableVia env G P s) : ∃ m, s (peerPoolKey env) = some (.peerPoolMap m) := by
  induction hr with
  | init configuration _ hok =>
    obtain ⟨maxId, m, s1, _, _, h⟩ := initConfig_success env configuration _ hok
    exact ⟨m, by simp [h, putConfig, putPeerPoolMap, Store.Put]⟩
  | step s c _ _ ih =>
    obtain ⟨m, hm⟩ := ih
    rcases commit_cases env s c with h | ⟨h, _⟩
    · exact ⟨m, by rw [h]; exact hm⟩
    · rw [h]; exact exec_pool_present env s c m hm

/-- On a store that holds a pool, no entry point overwrites or deletes an item
stored under a permanent index key. -/
theorem exec_index_kept (env : Env) (s : Store) (c : Call)
    (hp : s (peerPoolKey env) ≠ none) (b : Bytes) (v : Val)
    (h : s (peerIndexKey env b) = some v) :
    (exec env s c).1 (peerIndexKey env b) = some v := by
  cases c with
  | InitConfig input =>
    rw [exec, (initConfig_store_of_pool env input s hp).1]; exact h
  | RegisterCandidate w input =>
    rcases registerCandidate_store env w input s with h1 | ⟨b1, it, _, h1⟩ <;>
      simp [exec, h1, h, Store.Put]
  | UnRegisterCandidate w input =>
    rcases unRegisterCandidate_store env w input s with h1 | ⟨b1, h1⟩ <;>
      simp [exec, h1, h, Store.Delete]
  | QuitNode w input =>
    rcases quitNode_store env w input s with h1 | ⟨m1, k, _, h1⟩ <;>
      simp [exec, h1, h, putPeerPoolMap, Store.Put]
  | ApproveCandidate w input =>
    rcases approveCandidate_store env w input s with
      h1 | ⟨pk, pkb, it, b1, _, _, _, ⟨idx, m1, _, _, h1⟩ | ⟨c, hnone, _, h1 | ⟨m1, _, h1⟩⟩⟩
    · simp [exec, h1, h]
    · simp [exec, h1, h, putPeerPoolMap, Store.Put]
    · have hne : b ≠ b1 := by rintro rfl; simp [h] at hnone
      simp [exec, h1, h, putCandidateIndex, Store.Put, hne]
    · have hne : b ≠ b1 := by rintro rfl; simp [h] at hnone
      simp [exec, h1, h, putPeerPoolMap, putCandidateIndex, Store.Put, hne]
  | RejectCandidate w input =>
    rcases rejectCandidate_store env w input s with h1 | ⟨b1, h1⟩ <;>
      simp [exec, h1, h, Store.Delete]
  | BlackNode w input =>
    rw [exec, (blackNode_store env w input s).1 _ (by simp) (by simp)]; exact h
  | WhiteNode w input =>
    rcases whiteNode_store env w input s with h1 | ⟨b1, h1⟩ <;>
      simp [exec, h1, h, Store.Delete]
  | UpdateConfig w input =>
    rcases updateConfig_store env w input s with h1 | ⟨c, h1⟩ <;>
      simp [exec, h1, h, putConfig, Store.Put]

theorem demoGenesis_reachable : Reachable demoEnv demoGenesis :=
  ReachableVia.init (demoConfig [⟨1, demoKey2, "genesis"⟩]) trivial (by decide)

theorem stRegistered_reachable : Reachable demoEnv stRegistered :=
  reachable_exec demoEnv demoGenesis
    (.RegisterCandidate (signedBy demoOwner) (some ⟨demoKey, demoOwner⟩))
    demoGenesis_reachable (by decide)

theorem stApproved_reachable : Reachable demoEnv stApproved :=
  reachable_exec demoEnv stRegistered
    (.ApproveCandidate (signedBy demoOperator) (some ⟨demoKey⟩))
    stRegistered_reachable (by decide)

theorem stQuit_reachable : Reachable demoEnv stQuit :=
  reachable_exec demoEnv stApproved
    (.QuitNode (signedBy demoOwner) (some ⟨demoKey, demoOwner⟩))
    stApproved_reachable (by decide)

/-! ## Permanence of index assignments -/

/-- C4: index assignments are permanent. For every state reachable after a
successful `InitConfig`, every Governance API call and every public key `pk`
with `IndexAssignment[pk] = i` before the call, `IndexAssignment[pk] = i` holds
in the store the call leaves, whether the call succeeds or fails. -/
theorem index_assignment_permanent (env : Env) (s : Store) (c : Call) (pk : String) (i : Nat)
    (hr : Reachable env s) (hi : IndexAssignment env s pk = some i) :
    IndexAssignment env (exec env s c).1 pk = some i := by
  obtain ⟨m, hm⟩ := reachableVia_pool env _ _ s hr
  unfold IndexAssignment at hi ⊢
  cases hd : hex.DecodeString pk with
  | none => simp [hd] at hi
  | some b =>
    simp only [hd] at hi ⊢
    cases hv : s (peerIndexKey env b) with
    | none => simp [hv] at hi
    | some v =>
      rw [exec_index_kept env s c (by simp [hm]) b v hv]
      simpa [hv] using hi

/-- C4 at a concrete input: on the concrete chain after register and approve,
`demoKey` has index 2, and it keeps it through the owner's `QuitNode`. -/
theorem index_assignment_permanent_witness :
    IndexAssignment demoEnv
      (exec demoEnv stApproved (.QuitNode (signedBy demoOwner) (some ⟨demoKey, demoOwner⟩))).1
      demoKey = some 2 :=
  index_assignment_permanent demoEnv stApproved
    (.QuitNode (signedBy demoOwner) (some ⟨demoKey, demoOwner⟩)) demoKey 2
    stApproved_reachable (by decide)
/-! ## The application record that outlives approval -/

/-- `ApproveCandidate` never removes a pending application: a record stored for
a key before the call is stored for it after the call, successful or not. -/
theorem approveCandidate_keeps_application (env : Env) (w : Bytes → Bool)
    (input : Option PeerParam) (s : Store) (pk : String) (item : PeerPoolItem)
    (h : ApplicationRecord env s pk = some item) :
    ApplicationRecord env (ApproveCandidate env w input s).1 pk = some item := by
  unfold ApplicationRecord at h ⊢
  cases hd : hex.DecodeString pk with
  | none => simp [hd] at h
  | some b =>
    simp only [hd] at h ⊢
    have hkeep : (ApproveCandidate env w input s).1 (peerApplyKey env b)
        = s (peerApplyKey env b) := by
      rcases approveCandidate_store env w input s with
        h1 | ⟨_, _, _, b1, _, _, _, ⟨_, _, _, _, h1⟩ | ⟨_, _, _, h1 | ⟨_, _, h1⟩⟩⟩ <;>
        simp [h1, putPeerPoolMap, putCandidateIndex, Store.Put]
    rw [hkeep]
    exact h

/-- The application record of `demoKey` on the concrete chain is still stored
after the operator approved the key. -/
theorem approveCandidate_keeps_application_witness :
    ApplicationRecord demoEnv
      (ApproveCandidate demoEnv (signedBy demoOperator) (some ⟨demoKey⟩) stRegistered).1
      demoKey = some ⟨0, demoKey, demoOwner⟩ :=
  approveCandidate_keeps_application demoEnv (signedBy demoOperator) (some ⟨demoKey⟩)
    stRegistered demoKey ⟨0, demoKey, demoOwner⟩ (by decide)

/-- C5 on the concrete chain: `demoKey` is validly formatted, not blacklisted,
not applied and not in the pool; register, approve and quit succeed, and the
second `RegisterCandidate` fails with "peer already applied", because
`ApproveCandidate` left the application record in the store. -/
theorem reregister_after_quit_fails :
    Reachable demoEnv demoGenesis ∧
      demoEnv.ValidatePeerPubKeyFormat demoKey = true ∧
      Blacklisted demoEnv demoGenesis demoKey = false ∧
      ApplicationRecord demoEnv demoGenesis demoKey = none ∧
      PeerPool demoEnv demoGenesis demoKey = none ∧
      succeeded (RegisterCandidate demoEnv (signedBy demoOwner) (some ⟨demoKey, demoOwner⟩)
        demoGenesis) = true ∧
      succeeded (ApproveCandidate demoEnv (signedBy demoOperator) (some ⟨demoKey⟩)
        stRegistered) = true ∧
      succeeded (QuitNode demoEnv (signedBy demoOwner) (some ⟨demoKey, demoOwner⟩)
        stApproved) = true ∧
      failure (RegisterCandidate demoEnv (signedBy demoOwner) (some ⟨demoKey, demoOwner⟩)
        stQuit) = some .alreadyApplied := by
  refine ⟨demoGenesis_reachable, by decide, by decide, by decide, by decide, by decide,
    by decide, by decide, by decide⟩

/-- C6 on the concrete chain: after register and approve, a reachable store,
`demoKey` has both an application record and a peer pool entry. -/
theorem application_survives_approval :
    Reachable demoEnv stApproved ∧
      ApplicationRecord demoEnv stApproved demoKey = some ⟨0, demoKey, demoOwner⟩ ∧
      PeerPool demoEnv stApproved demoKey = some ⟨2, demoKey, demoOwner⟩ := by
  refine ⟨stApproved_reachable, by decide, by decide⟩

theorem stBlack_reachable : Reachable demoEnv stBlack :=
  reachable_exec demoEnv stApproved
    (.BlackNode (signedBy demoOperator) (some ⟨[demoKey]⟩))
    stApproved_reachable (by decide)

theorem stReapproved_reachable : Reachable demoEnv stReapproved :=
  reachable_exec demoEnv stBlack
    (.ApproveCandidate (signedBy demoOperator) (some ⟨demoKey⟩))
    stBlack_reachable (by decide)

/-- C7 on the concrete chain: after register, approve and ban, the operator's
second `ApproveCandidate(demoKey)` succeeds on the stale application record,
and in the reachable store it leaves `demoKey` has both a blacklist entry and a
peer pool entry. -/
theorem blacklisted_key_reenters_pool :
    succeeded (BlackNode demoEnv (signedBy demoOperator) (some ⟨[demoKey]⟩) stApproved)
        = true ∧
      succeeded (ApproveCandidate demoEnv (signedBy demoOperator) (some ⟨demoKey⟩) stBlack)
        = true ∧
      Reachable demoEnv stReapproved ∧
      Blacklist demoEnv stReapproved demoKey = some ⟨demoKey, demoOwner⟩ ∧
      PeerPool demoEnv stReapproved demoKey = some ⟨2, demoKey, demoOwner⟩ := by
  refine ⟨by decide, by decide, stReapproved_reachable, by decide, by decide⟩
/-! ## `BlackNode` and `WhiteNode` -/

/-- The pool observation reads the loaded pool. -/
theorem peerPool_eq_some (env : Env) (s : Store) (m : PeerPoolMap)
    (hm : GetPeerPoolMap env s = .ok m) (k : String) : PeerPool env s k = m k := by
  simp [PeerPool, hm]

/-- Stores with the same item under the pool key have the same pool entries. -/
theorem peerPool_of_store_eq (env : Env) (s s1 : Store)
    (h : s1 (peerPoolKey env) = s (peerPoolKey env)) (k : String) :
    PeerPool env s1 k = PeerPool env s k := by
  simp [PeerPool, GetPeerPoolMap, h]

/-- C8 fails as stated: on the concrete chain `demoKey` is in the pool and
`demoKey3` is not; `BlackNode([demoKey, demoKey3])` fails, yet the store it
leaves holds a blacklist entry for `demoKey` that the store before did not. -/
theorem blackNode_partial_write :
    PeerPool demoEnv stApproved demoKey3 = none ∧
      succeeded (BlackNode demoEnv (signedBy demoOperator) (some ⟨[demoKey, demoKey3]⟩)
        stApproved) = false ∧
      Blacklist demoEnv stApproved demoKey = none ∧
      Blacklist demoEnv
        (BlackNode demoEnv (signedBy demoOperator) (some ⟨[demoKey, demoKey3]⟩)
          stApproved).1 demoKey = some ⟨demoKey, demoOwner⟩ ∧
      (BlackNode demoEnv (signedBy demoOperator) (some ⟨[demoKey, demoKey3]⟩)
          stApproved).1 ≠ stApproved := by
  refine ⟨by decide, by decide, by decide, by decide, ?_⟩
  intro h
  have h1 : Blacklist demoEnv
      (BlackNode demoEnv (signedBy demoOperator) (some ⟨[demoKey, demoKey3]⟩)
        stApproved).1 demoKey = Blacklist demoEnv stApproved demoKey := by rw [h]
  revert h1
  decide

/-- C8, amended: for every store and key list containing a key that is not in
the peer pool, `BlackNode` fails and removes no peer pool entry; the only
storage keys it may have written are blacklist keys of listed keys that are in
the pool, so everything else is as before; when the first listed key is the
missing one nothing is written at all; and the store the host commits is the
store before the call. -/
theorem blackNode_missing_key (env : Env) (w : Bytes → Bool) (s : Store) (keys : List String)
    (hmiss : ∃ k ∈ keys, PeerPool env s k = none) :
    succeeded (BlackNode env w (some ⟨keys⟩) s) = false ∧
      (∀ k, PeerPool env (BlackNode env w (some ⟨keys⟩) s).1 k = PeerPool env s k) ∧
      (∀ key, (BlackNode env w (some ⟨keys⟩) s).1 key ≠ s key →
        ∃ k ∈ keys, ∃ b, PeerPool env s k ≠ none ∧ hex.DecodeString k = some b ∧
          key = blackListKey env b) ∧
      (∀ k rest, keys = k :: rest → PeerPool env s k = none →
        (BlackNode env w (some ⟨keys⟩) s).1 = s) ∧
      commit env s (.BlackNode w (some ⟨keys⟩)) = s := by
  have hmain : succeeded (BlackNode env w (some ⟨keys⟩) s) = false ∧
      (∀ key, (BlackNode env w (some ⟨keys⟩) s).1 key ≠ s key →
        ∃ k ∈ keys, ∃ b, PeerPool env s k ≠ none ∧ hex.DecodeString k = some b ∧
          key = blackListKey env b) ∧
      (∀ k rest, keys = k :: rest → PeerPool env s k = none →
        (BlackNode env w (some ⟨keys⟩) s).1 = s) := by
    unfold BlackNode
    dsimp only
    cases env.operatorAddress with
    | none => exact ⟨rfl, fun _ h => absurd rfl h, fun _ _ _ _ => rfl⟩
    | some op =>
      dsimp only
      by_cases hw : ValidateOwner w op = false
      · rw [if_pos hw]
        exact ⟨rfl, fun _ h => absurd rfl h, fun _ _ _ _ => rfl⟩
      · rw [if_neg hw]
        cases hp : GetPeerPoolMap env s with
        | error e => exact ⟨rfl, fun _ h => absurd rfl h, fun _ _ _ _ => rfl⟩
        | ok m =>
          dsimp only
          have hpm : ∀ k, PeerPool env s k = m k := peerPool_eq_some env s m hp
          obtain ⟨e, he⟩ := blackNodeLoop_missing env keys m s
            (by obtain ⟨k, hk, hnone⟩ := hmiss; exact ⟨k, hk, by rw [← hpm]; exact hnone⟩)
          have hwr := blackNodeLoop_writes env keys m s
          have hfirst : ∀ k rest, keys = k :: rest → m k = none →
              (blackNodeLoop env keys m s).1 = s := by
            intro k rest hkeys hnone
            subst hkeys
            unfold blackNodeLoop
            cases hex.DecodeString k with
            | none => rfl
            | some b => simp [hnone]
          cases hl : blackNodeLoop env keys m s with
          | mk s1 r =>
            rw [hl] at he hwr hfirst
            dsimp only at he hwr hfirst
            subst he
            refine ⟨rfl, fun key hne => ?_, fun k rest hkeys hnone => ?_⟩
            · obtain ⟨k, hk, b, hmk, hd, hkey⟩ := hwr key hne
              exact ⟨k, hk, b, by rw [hpm]; exact hmk, hd, hkey⟩
            · exact hfirst k rest hkeys (by rw [← hpm]; exact hnone)
  obtain ⟨hfail, hwrites, hfirst⟩ := hmain
  refine ⟨hfail, fun k => ?_, hwrites, hfirst, ?_⟩
  · apply peerPool_of_store_eq
    by_contra hne
    obtain ⟨_, _, b, _, _, hkey⟩ := hwrites _ hne
    exact peerPoolKey_ne_blackListKey env b hkey
  · rcases commit_cases env s (.BlackNode w (some ⟨keys⟩)) with h | ⟨_, h⟩
    · exact h
    · rw [exec, hfail] at h
      exact absurd h (by simp)

/-- C8 (amended) at a concrete input: `BlackNode([demoKey, demoKey3])` on the
concrete chain, where `demoKey3` is not in the pool. -/
theorem blackNode_missing_key_witness :
    succeeded (BlackNode demoEnv (signedBy demoOperator) (some ⟨[demoKey, demoKey3]⟩)
        stApproved) = false ∧
      (∀ k, PeerPool demoEnv
          (BlackNode demoEnv (signedBy demoOperator) (some ⟨[demoKey, demoKey3]⟩)
            stApproved).1 k = PeerPool demoEnv stApproved k) ∧
      (∀ key, (BlackNode demoEnv (signedBy demoOperator) (some ⟨[demoKey, demoKey3]⟩)
            stApproved).1 key ≠ stApproved key →
        ∃ k ∈ [demoKey, demoKey3], ∃ b, PeerPool demoEnv stApproved k ≠ none ∧
          hex.DecodeString k = some b ∧ key = blackListKey demoEnv b) ∧
      (∀ k rest, [demoKey, demoKey3] = k :: rest → PeerPool demoEnv stApproved k = none →
        (BlackNode demoEnv (signedBy demoOperator) (some ⟨[demoKey, demoKey3]⟩)
          stApproved).1 = stApproved) ∧
      commit demoEnv stApproved
        (.BlackNode (signedBy demoOperator) (some ⟨[demoKey, demoKey3]⟩)) = stApproved :=
  blackNode_missing_key demoEnv (signedBy demoOperator) stApproved [demoKey, demoKey3]
    ⟨demoKey3, by simp, by decide⟩
/-- On keys that decode to pairwise distinct bytes and are all in the pool the
loop of `BlackNode` succeeds: it erases exactly the listed keys from the pool,
writes for each the blacklist entry of its pool record, and writes nothing else. -/
theorem blackNodeLoop_ok (env : Env) (keys : List String) :
    ∀ (m : PeerPoolMap) (s : Store),
      (keys.map hex.DecodeString).Nodup →
      (∀ k ∈ keys, (hex.DecodeString k).isSome = true ∧ (m k).isSome = true) →
      ∃ m1 s1, blackNodeLoop env keys m s = (s1, .ok m1) ∧
        (∀ k, m1 k = if k ∈ keys then none else m k) ∧
        (∀ k ∈ keys, ∀ b it, hex.DecodeString k = some b → m k = some it →
          s1 (blackListKey env b) = some (.blackListItem ⟨it.PeerPubkey, it.Address⟩)) ∧
        (∀ key, (∀ k ∈ keys, ∀ b, hex.DecodeString k = some b → key ≠ blackListKey env b) →
          s1 key = s key) := by
  induction keys with
  | nil =>
    intro m s _ _
    exact ⟨m, s, rfl, by simp, by simp, fun _ _ => rfl⟩
  | cons k0 rest ih =>
    intro m s hnd hin
    rw [List.map_cons, List.nodup_cons] at hnd
    obtain ⟨hnot, hnd⟩ := hnd
    obtain ⟨hd0, hm0⟩ := hin k0 (List.mem_cons_self _ _)
    obtain ⟨b0, hb0⟩ := Option.isSome_iff_exists.1 hd0
    obtain ⟨it0, hit0⟩ := Option.isSome_iff_exists.1 hm0
    have hne : ∀ k ∈ rest, k ≠ k0 := by
      intro k hk hkk
      subst hkk
      exact hnot (List.mem_map_of_mem _ hk)
    have hin1 : ∀ k ∈ rest,
        (hex.DecodeString k).isSome = true ∧ ((m.erase k0) k).isSome = true := by
      intro k hk
      refine ⟨(hin k (List.mem_cons_of_mem _ hk)).1, ?_⟩
      simp only [PeerPoolMap.erase, if_neg (hne k hk)]
      exact (hin k (List.mem_cons_of_mem _ hk)).2
    obtain ⟨m1, s1, hl, hmap, hbl, hfr⟩ := ih (m.erase k0)
      (s.Put (blackListKey env b0) (.blackListItem ⟨it0.PeerPubkey, it0.Address⟩)) hnd hin1
    refine ⟨m1, s1, ?_, ?_, ?_, ?_⟩
    · rw [blackNodeLoop]
      simp only [hb0, hit0]
      exact hl
    · intro k
      rw [hmap k]
      by_cases hk : k ∈ rest
      · simp [hk]
      · by_cases hk0 : k = k0
        · simp [hk0, PeerPoolMap.erase]
        · simp [hk, hk0, PeerPoolMap.erase]
    · intro k hk b it hb hit
      rcases List.mem_cons.1 hk with rfl | hk
      · rw [hb0] at hb
        rw [hit0] at hit
        cases hb
        cases hit
        rw [hfr]
        · simp [Store.Put]
        · intro k1 hk1 b1 hb1 heq
          have : b0 = b1 := (blackListKey_inj env b0 b1).1 heq
          subst this
          apply hnot
          rw [hb0, ← hb1]
          exact List.mem_map_of_mem _ hk1
      · apply hbl k hk b it hb
        simp only [PeerPoolMap.erase, if_neg (hne k hk)]
        exact hit
    · intro key hkey
      rw [hfr key (fun k hk b hb => hkey k (List.mem_cons_of_mem _ hk) b hb)]
      have := hkey k0 (List.mem_cons_self _ _) b0 hb0
      simp [Store.Put, this]

/-- C9 fails as stated: in a reachable store whose pool holds `demoKey` and
`demoKeyUpper` (distinct keys, both in the pool), `BlackNode` of the two
succeeds, and afterwards the blacklist entry of `demoKey` carries the public key
and the address of the other record. -/
theorem blackNode_alias_overwrites :
    Reachable demoEnv stAliasGenesis ∧
      demoKey ≠ demoKeyUpper ∧
      PeerPool demoEnv stAliasGenesis demoKey = some ⟨1, demoKey, List.replicate 20 1⟩ ∧
      PeerPool demoEnv stAliasGenesis demoKeyUpper
        = some ⟨2, demoKeyUpper, List.replicate 20 2⟩ ∧
      succeeded (BlackNode demoEnv (signedBy demoOperator) (some ⟨[demoKey, demoKeyUpper]⟩)
        stAliasGenesis) = true ∧
      Blacklist demoEnv
        (BlackNode demoEnv (signedBy demoOperator) (some ⟨[demoKey, demoKeyUpper]⟩)
          stAliasGenesis).1 demoKey = some ⟨demoKeyUpper, List.replicate 20 2⟩ := by
  refine ⟨ReachableVia.init _ trivial (by decide), by decide, by decide, by decide,
    by decide, by decide⟩

/-- C9, amended: for every store that holds a peer pool and every list of keys
that hex-decode to pairwise distinct byte strings and are all in the pool, an
operator-authorized `BlackNode` succeeds; afterwards each listed key has a
blacklist entry with the public key and address of the pool record it had
before, each listed key is absent from the pool, and every pool entry of an
unlisted key is unchanged. -/
theorem blackNode_bans_listed (env : Env) (w : Bytes → Bool) (s : Store) (keys : List String)
    (hauth : OperatorAuthorized env w)
    (hpool : HasPeerPool env s = true)
    (hdist : (keys.map hex.DecodeString).Nodup)
    (hin : ∀ k ∈ keys, (hex.DecodeString k).isSome = true ∧ (PeerPool env s k).isSome = true) :
    succeeded (BlackNode env w (some ⟨keys⟩) s) = true ∧
      (∀ k ∈ keys, ∃ it, PeerPool env s k = some it ∧
        Blacklist env (BlackNode env w (some ⟨keys⟩) s).1 k
          = some ⟨it.PeerPubkey, it.Address⟩) ∧
      (∀ k ∈ keys, PeerPool env (BlackNode env w (some ⟨keys⟩) s).1 k = none) ∧
      (∀ k, k ∉ keys → PeerPool env (BlackNode env w (some ⟨keys⟩) s).1 k = PeerPool env s k) := by
  obtain ⟨op, hop, hwop⟩ := hauth
  have hw : ¬ ValidateOwner w op = false := by simp [ValidateOwner, hwop]
  unfold HasPeerPool at hpool
  cases hp : GetPeerPoolMap env s with
  | error e => simp [hp] at hpool
  | ok m =>
    have hpm : ∀ k, PeerPool env s k = m k := peerPool_eq_some env s m hp
    obtain ⟨m1, s1, hl, hmap, hbl, hfr⟩ := blackNodeLoop_ok env keys m s hdist
      (fun k hk => ⟨(hin k hk).1, by rw [← hpm]; exact (hin k hk).2⟩)
    have hrun : BlackNode env w (some ⟨keys⟩) s = (putPeerPoolMap env m1 s1, .ok ()) := by
      unfold BlackNode
      dsimp only
      rw [hop]
      dsimp only
      rw [if_neg hw, hp]
      dsimp only
      rw [hl]
    have hpm1 : ∀ k, PeerPool env (putPeerPoolMap env m1 s1) k = m1 k := by
      intro k
      simp [PeerPool, GetPeerPoolMap, putPeerPoolMap, Store.Put]
    rw [hrun]
    refine ⟨rfl, fun k hk => ?_, fun k hk => ?_, fun k hk => ?_⟩
    · obtain ⟨b, hb⟩ := Option.isSome_iff_exists.1 (hin k hk).1
      obtain ⟨it, hit⟩ := Option.isSome_iff_exists.1 (hin k hk).2
      refine ⟨it, hit, ?_⟩
      rw [hpm] at hit
      simp [Blacklist, hb, putPeerPoolMap, Store.Put, hbl k hk b it hb hit]
    · rw [hpm1, hmap]; simp [hk]
    · rw [hpm1, hmap, hpm]; simp [hk]

/-- C9 (amended) at a concrete input: `BlackNode([demoKey, demoKey2])` on the
concrete chain, whose pool holds both keys. -/
theorem blackNode_bans_listed_witness :
    succeeded (BlackNode demoEnv (signedBy demoOperator) (some ⟨[demoKey, demoKey2]⟩)
        stApproved) = true ∧
      (∀ k ∈ [demoKey, demoKey2], ∃ it, PeerPool demoEnv stApproved k = some it ∧
        Blacklist demoEnv
          (BlackNode demoEnv (signedBy demoOperator) (some ⟨[demoKey, demoKey2]⟩)
            stApproved).1 k = some ⟨it.PeerPubkey, it.Address⟩) ∧
      (∀ k ∈ [demoKey, demoKey2], PeerPool demoEnv
          (BlackNode demoEnv (signedBy demoOperator) (some ⟨[demoKey, demoKey2]⟩)
            stApproved).1 k = none) ∧
      (∀ k, k ∉ [demoKey, demoKey2] → PeerPool demoEnv
          (BlackNode demoEnv (signedBy demoOperator) (some ⟨[demoKey, demoKey2]⟩)
            stApproved).1 k = PeerPool demoEnv stApproved k) :=
  blackNode_bans_listed demoEnv (signedBy demoOperator) stApproved [demoKey, demoKey2]
    ⟨demoOperator, rfl, by decide⟩ (by decide) (by decide) (by decide)

/-- C10: for every store in which the key `k` is in the peer pool (`k` a public
key id, that is hex-encoded, as is every key `InitConfig` or `ApproveCandidate`
puts in the pool), an operator-authorized `BlackNode([k])` followed by an
operator-authorized `WhiteNode(k)` both succeed; afterwards `k` is absent from
the peer pool and from the blacklist, and `WhiteNode` changed nothing except
deleting the blacklist entry of `k`. `WhiteNode` of a key without a blacklist
entry fails and writes nothing. -/
theorem blackNode_then_whiteNode (env : Env) (w1 w2 : Bytes → Bool) (s : Store) (k : String)
    (b : Bytes)
    (hauth1 : OperatorAuthorized env w1) (hauth2 : OperatorAuthorized env w2)
    (hk : hex.DecodeString k = some b)
    (hin : (PeerPool env s k).isSome = true) :
    succeeded (BlackNode env w1 (some ⟨[k]⟩) s) = true ∧
      succeeded (WhiteNode env w2 (some ⟨k⟩) (BlackNode env w1 (some ⟨[k]⟩) s).1) = true ∧
      PeerPool env (WhiteNode env w2 (some ⟨k⟩) (BlackNode env w1 (some ⟨[k]⟩) s).1).1 k
        = none ∧
      Blacklisted env (WhiteNode env w2 (some ⟨k⟩) (BlackNode env w1 (some ⟨[k]⟩) s).1).1 k
        = false ∧
      (WhiteNode env w2 (some ⟨k⟩) (BlackNode env w1 (some ⟨[k]⟩) s).1).1
        = (BlackNode env w1 (some ⟨[k]⟩) s).1.Delete (blackListKey env b) ∧
      (∀ (s0 : Store) (k0 : String), Blacklisted env s0 k0 = false →
        succeeded (WhiteNode env w2 (some ⟨k0⟩) s0) = false ∧
          (WhiteNode env w2 (some ⟨k0⟩) s0).1 = s0) := by
  obtain ⟨op1, hop1, hwop1⟩ := hauth1
  obtain ⟨op2, hop2, hwop2⟩ := hauth2
  rw [hop1] at hop2
  cases hop2
  have hw1 : ¬ ValidateOwner w1 op1 = false := by simp [ValidateOwner, hwop1]
  have hw2 : ¬ ValidateOwner w2 op1 = false := by simp [ValidateOwner, hwop2]
  have hwhite : ∀ (s0 : Store) (k0 : String), Blacklisted env s0 k0 = false →
      succeeded (WhiteNode env w2 (some ⟨k0⟩) s0) = false ∧
        (WhiteNode env w2 (some ⟨k0⟩) s0).1 = s0 := by
    intro s0 k0 h0
    unfold WhiteNode
    dsimp only
    rw [hop1]
    dsimp only
    rw [if_neg hw2]
    unfold Blacklisted at h0
    cases hd : hex.DecodeString k0 with
    | none => exact ⟨rfl, rfl⟩
    | some b0 =>
      rw [hd] at h0
      dsimp only at h0 ⊢
      cases hb : s0 (blackListKey env b0) with
      | none => exact ⟨rfl, rfl⟩
      | some v => simp [hb] at h0
  cases hp : GetPeerPoolMap env s with
  | error e => simp [PeerPool, hp] at hin
  | ok m =>
    obtain ⟨it, hit⟩ := Option.isSome_iff_exists.1 hin
    rw [peerPool_eq_some env s m hp] at hit
    have hrun : BlackNode env w1 (some ⟨[k]⟩) s =
        (putPeerPoolMap env (m.erase k)
          (s.Put (blackListKey env b) (.blackListItem ⟨it.PeerPubkey, it.Address⟩)), .ok ()) := by
      unfold BlackNode
      dsimp only
      rw [hop1]
      dsimp only
      rw [if_neg hw1, hp]
      dsimp only
      simp [blackNodeLoop, hk, hit]
    have hrun2 : WhiteNode env w2 (some ⟨k⟩)
          (putPeerPoolMap env (m.erase k)
            (s.Put (blackListKey env b) (.blackListItem ⟨it.PeerPubkey, it.Address⟩))) =
        ((putPeerPoolMap env (m.erase k)
            (s.Put (blackListKey env b)
              (.blackListItem ⟨it.PeerPubkey, it.Address⟩))).Delete (blackListKey env b),
          .ok ()) := by
      unfold WhiteNode
      dsimp only
      rw [hop1]
      dsimp only
      rw [if_neg hw2, hk]
      simp [putPeerPoolMap, Store.Put]
    rw [hrun]
    dsimp only
    rw [hrun2]
    refine ⟨rfl, rfl, ?_, ?_, rfl, hwhite⟩
    · simp [PeerPool, GetPeerPoolMap, putPeerPoolMap, Store.Put, Store.Delete,
        PeerPoolMap.erase]
    · simp [Blacklisted, hk, Store.Delete]

/-- C10 at a concrete input: ban and unban of `demoKey` on the concrete chain. -/
theorem blackNode_then_whiteNode_witness :
    succeeded (BlackNode demoEnv (signedBy demoOperator) (some ⟨[demoKey]⟩) stApproved)
        = true ∧
      succeeded (WhiteNode demoEnv (signedBy demoOperator) (some ⟨demoKey⟩)
        (BlackNode demoEnv (signedBy demoOperator) (some ⟨[demoKey]⟩) stApproved).1) = true ∧
      PeerPool demoEnv (WhiteNode demoEnv (signedBy demoOperator) (some ⟨demoKey⟩)
        (BlackNode demoEnv (signedBy demoOperator) (some ⟨[demoKey]⟩) stApproved).1).1 demoKey
        = none ∧
      Blacklisted demoEnv (WhiteNode demoEnv (signedBy demoOperator) (some ⟨demoKey⟩)
        (BlackNode demoEnv (signedBy demoOperator) (some ⟨[demoKey]⟩) stApproved).1).1 demoKey
        = false ∧
      (WhiteNode demoEnv (signedBy demoOperator) (some ⟨demoKey⟩)
        (BlackNode demoEnv (signedBy demoOperator) (some ⟨[demoKey]⟩) stApproved).1).1
        = (BlackNode demoEnv (signedBy demoOperator) (some ⟨[demoKey]⟩) stApproved).1.Delete
            (blackListKey demoEnv (2 :: List.replicate 32 171)) ∧
      (∀ (s0 : Store) (k0 : String), Blacklisted demoEnv s0 k0 = false →
        succeeded (WhiteNode demoEnv (signedBy demoOperator) (some ⟨k0⟩) s0) = false ∧
          (WhiteNode demoEnv (signedBy demoOperator) (some ⟨k0⟩) s0).1 = s0) :=
  blackNode_then_whiteNode demoEnv (signedBy demoOperator) (signedBy demoOperator) stApproved
    demoKey (2 :: List.replicate 32 171) ⟨demoOperator, rfl, by decide⟩
    ⟨demoOperator, rfl, by decide⟩ (by decide) (by decide)
/-! ## Injectivity of the index assignment -/

/-- What a successful loop of `InitConfig` returns: `maxId` bounds every genesis
index and is 0 (its start value) or one of them, and every new pool entry and
every new index assignment comes from a genesis peer. -/
theorem initPeers_ok (env : Env) (peers : List VBFTPeerStakeInfo) :
    ∀ (maxId : Nat) (m : PeerPoolMap) (s : Store) (maxId1 : Nat) (m1 : PeerPoolMap) (s1 : Store),
      initPeers env peers maxId m s = (s1, .ok (maxId1, m1)) →
      maxId ≤ maxId1 ∧ (∀ p ∈ peers, p.Index ≤ maxId1) ∧
        (maxId1 = maxId ∨ ∃ p ∈ peers, maxId1 = p.Index) ∧
        (∀ k it, m1 k = some it → m k = some it ∨
          ∃ p ∈ peers, k = p.PeerPubkey ∧ it.Index = p.Index ∧
            (hex.DecodeString k).isSome = true) ∧
        (∀ b v, s1 (peerIndexKey env b) = some v → s (peerIndexKey env b) = some v ∨
          ∃ p ∈ peers, hex.DecodeString p.PeerPubkey = some b ∧ v = .uint32 p.Index) := by
  induction peers with
  | nil =>
    intro maxId m s maxId1 m1 s1 h
    simp only [initPeers, Prod.mk.injEq, Except.ok.injEq] at h
    obtain ⟨rfl, rfl, rfl⟩ := h
    exact ⟨le_refl _, by simp, Or.inl rfl, fun _ _ h => Or.inl h, fun _ _ h => Or.inl h⟩
  | cons p rest ih =>
    intro maxId m s maxId1 m1 s1 h
    unfold initPeers at h
    cases ha : env.AddressFromBase58 p.Address with
    | none => simp [ha] at h
    | some address =>
      cases hd : hex.DecodeString p.PeerPubkey with
      | none => simp [ha, hd] at h
      | some b0 =>
        simp only [ha, hd] at h
        obtain ⟨hle, hall, hmax, hmap, hidx⟩ := ih _ _ _ _ _ _ h
        have hmx : maxId ≤ (if p.Index > maxId then p.Index else maxId) ∧
            p.Index ≤ (if p.Index > maxId then p.Index else maxId) := by
          split <;> omega
        refine ⟨le_trans hmx.1 hle, ?_, ?_, ?_, ?_⟩
        · intro q hq
          rcases List.mem_cons.1 hq with rfl | hq
          · exact le_trans hmx.2 hle
          · exact hall q hq
        · rcases hmax with h1 | ⟨q, hq, h1⟩
          · by_cases hgt : p.Index > maxId
            · exact Or.inr ⟨p, List.mem_cons_self _ _, by simp [h1, hgt]⟩
            · exact Or.inl (by simp [h1, hgt])
          · exact Or.inr ⟨q, List.mem_cons_of_mem _ hq, h1⟩
        · intro k it hk
          rcases hmap k it hk with h1 | ⟨q, hq, h1⟩
          · simp only [PeerPoolMap.insert] at h1
            split at h1
            · rename_i hkp
              simp only [Option.some.injEq] at h1
              subst h1
              exact Or.inr ⟨p, List.mem_cons_self _ _, hkp, rfl, by simp [hkp, hd]⟩
            · exact Or.inl h1
          · exact Or.inr ⟨q, List.mem_cons_of_mem _ hq, h1⟩
        · intro b v hv
          rcases hidx b v hv with h1 | ⟨q, hq, h1⟩
          · simp only [Store.Put] at h1
            split at h1
            · rename_i hkey
              have hb : b = b0 := (peerIndexKey_inj env b b0).1 hkey
              simp only [Option.some.injEq] at h1
              exact Or.inr ⟨p, List.mem_cons_self _ _, by rw [hd, hb], h1.symm⟩
            · exact Or.inl h1
          · exact Or.inr ⟨q, List.mem_cons_of_mem _ hq, h1⟩

/-- Genesis establishes the index invariant when the genesis indices are distinct. -/
theorem indexInv_init (env : Env) (configuration : VBFTConfig)
    (hg : GenesisIndicesDistinct configuration)
    (hok : succeeded (InitConfig env (some configuration) Store.empty) = true) :
    IndexInv env (InitConfig env (some configuration) Store.empty).1 := by
  obtain ⟨maxId, m, s1, hl, _, hs⟩ := initConfig_success env configuration _ hok
  obtain ⟨_, hall, hmax, hmap, hidx⟩ := initPeers_ok env _ _ _ _ _ _ _ hl
  obtain ⟨hdist, hbound⟩ := hg
  have hmaxlt : maxId + 1 < 2 ^ 32 := by
    rcases hmax with h | ⟨p, hp, h⟩
    · rw [h]; norm_num
    · rw [h]; exact hbound p hp
  have hfr := initPeers_frame env configuration.Peers 0 (fun _ => none) Store.empty
  rw [hl] at hfr
  dsimp only at hfr
  have hown : ∀ b i, Owns env (InitConfig env (some configuration) Store.empty).1 m b i →
      ∃ p ∈ configuration.Peers, hex.DecodeString p.PeerPubkey = some b ∧ p.Index = i := by
    intro b i ho
    rcases ho with ho | ⟨k, it, hk, hkd, hki⟩
    · rw [hs] at ho
      simp only [putConfig, putPeerPoolMap, Store.Put, peerIndexKey_ne_vbftConfigKey,
        peerIndexKey_ne_candidateIndexKey, peerIndexKey_ne_peerPoolKey, if_false] at ho
      rcases hidx b _ ho with h | ⟨p, hp, hpd, hv⟩
      · simp [Store.empty] at h
      · simp only [Val.uint32.injEq] at hv
        exact ⟨p, hp, hpd, hv.symm⟩
    · rcases hmap k it hk with h | ⟨p, hp, hkp, hpi, _⟩
      · simp at h
      · exact ⟨p, hp, by rw [← hkp]; exact hkd, by rw [← hpi]; exact hki⟩
  refine ⟨maxId + 1, m, ?_, ?_, ?_, ?_, ?_, ?_⟩
  · rw [hs]
    simp [putConfig, putPeerPoolMap, Store.Put]
    omega
  · rw [hs]
    simp [putConfig, putPeerPoolMap, Store.Put]
  · intro b i ho
    obtain ⟨p, hp, _, hpi⟩ := hown b i ho
    have := hall p hp
    omega
  · intro b1 b2 i h1 h2
    obtain ⟨p, hp, hpd, hpi⟩ := hown b1 i h1
    obtain ⟨q, hq, hqd, hqi⟩ := hown b2 i h2
    have := hdist p hp q hq (by rw [hpi, hqi])
    rw [hpd, hqd] at this
    exact Option.some.inj this
  · intro k it hk
    rcases hmap k it hk with h | ⟨p, hp, hkp, hpi, hdk⟩
    · simp at h
    · exact hdk
  · intro b it ha
    rw [hs] at ha
    simp only [putConfig, putPeerPoolMap, Store.Put, peerApplyKey_ne_vbftConfigKey,
      peerApplyKey_ne_candidateIndexKey, peerApplyKey_ne_peerPoolKey, if_false] at ha
    rw [hfr _ (fun b1 => peerApplyKey_ne_peerIndexKey env b b1)] at ha
    simp [Store.empty] at ha

/-- The index invariant carries over to a store whose counter did not decrease
and whose indices in use are those of before, or the old counter value given
to one key while the counter advanced. -/
theorem indexInv_extend (env : Env) (s s1 : Store) (c c1 : Nat) (m m1 : PeerPoolMap)
    (b0 : Bytes)
    (hlt : ∀ b i, Owns env s m b i → i < c)
    (hfun : ∀ b1 b2 i, Owns env s m b1 i → Owns env s m b2 i → b1 = b2)
    (hc1 : s1 (candidateIndexKey env) = some (.uint32 c1))
    (hm1 : s1 (peerPoolKey env) = some (.peerPoolMap m1))
    (hle : c ≤ c1)
    (hown : ∀ b i, Owns env s1 m1 b i → Owns env s m b i ∨ (b = b0 ∧ i = c ∧ c < c1))
    (hdec1 : ∀ k it, m1 k = some it → (hex.DecodeString k).isSome = true)
    (happ1 : ∀ b it, s1 (peerApplyKey env b) = some (.peerPoolItem it) →
      hex.DecodeString it.PeerPubkey = some b) :
    IndexInv env s1 := by
  refine ⟨c1, m1, hc1, hm1, ?_, ?_, hdec1, happ1⟩
  · intro b i ho
    rcases hown b i ho with h | ⟨_, hi, hlt1⟩
    · exact lt_of_lt_of_le (hlt b i h) hle
    · omega
  · intro b1 b2 i h1 h2
    rcases hown b1 i h1 with h1 | ⟨hb1, hi1, _⟩ <;> rcases hown b2 i h2 with h2 | ⟨hb2, hi2, _⟩
    · exact hfun b1 b2 i h1 h2
    · have := hlt b1 i h1; omega
    · have := hlt b2 i h2; omega
    · rw [hb1, hb2]

/-- With the index keys unchanged and a pool that only lost entries no key gains an index. -/
theorem owns_of_shrink (env : Env) (s s1 : Store) (m m1 : PeerPoolMap)
    (hidx : ∀ b, s1 (peerIndexKey env b) = s (peerIndexKey env b))
    (hsub : ∀ k it, m1 k = some it → m k = some it) (b : Bytes) (i : Nat)
    (ho : Owns env s1 m1 b i) : Owns env s m b i := by
  rcases ho with ho | ⟨k, it, hk, hkd, hki⟩
  · exact Or.inl (by rw [← hidx]; exact ho)
  · exact Or.inr ⟨k, it, hsub k it hk, hkd, hki⟩
/-- The index invariant carries over to a store with the same counter and index
keys, a pool that only lost entries, and application records that are old or
stored under their own key. -/
theorem indexInv_of_shrink (env : Env) (s s1 : Store) (h : IndexInv env s)
    (hcnt : s1 (candidateIndexKey env) = s (candidateIndexKey env))
    (hidx : ∀ b, s1 (peerIndexKey env b) = s (peerIndexKey env b))
    (hpool : ∀ m, s (peerPoolKey env) = some (.peerPoolMap m) →
      ∃ m1, s1 (peerPoolKey env) = some (.peerPoolMap m1) ∧
        ∀ k it, m1 k = some it → m k = some it)
    (happ : ∀ b it, s1 (peerApplyKey env b) = some (.peerPoolItem it) →
      s (peerApplyKey env b) = some (.peerPoolItem it) ∨
        hex.DecodeString it.PeerPubkey = some b) :
    IndexInv env s1 := by
  obtain ⟨c, m, hc, hm, hlt, hfun, hdec, happ0⟩ := h
  obtain ⟨m1, hm1, hsub⟩ := hpool m hm
  refine indexInv_extend env s s1 c c m m1 [] hlt hfun (by rw [hcnt]; exact hc) hm1 (le_refl _)
    (fun b i ho => Or.inl (owns_of_shrink env s s1 m m1 hidx hsub b i ho))
    (fun k it hk => hdec k it (hsub k it hk)) ?_
  intro b it ha
  rcases happ b it ha with h1 | h1
  · exact happ0 b it h1
  · exact h1

/-- Every entry point keeps the index invariant, as long as the counter is
below the largest `uint32` when the call is made. -/
theorem indexInv_exec (env : Env) (s : Store) (call : Call) (h : IndexInv env s)
    (hbelow : CounterBelowMax env s) : IndexInv env (exec env s call).1 := by
  have hpoolne : s (peerPoolKey env) ≠ none := by
    obtain ⟨c, m, _, hm, _⟩ := h
    simp [hm]
  cases call with
  | InitConfig input =>
    rw [exec, (initConfig_store_of_pool env input s hpoolne).1]; exact h
  | RegisterCandidate w input =>
    rcases registerCandidate_store env w input s with h1 | ⟨b1, it1, hd1, h1⟩
    · rw [exec, h1]; exact h
    · rw [exec, h1]
      refine indexInv_of_shrink env s _ h (by simp [Store.Put]) (by simp [Store.Put])
        (fun m hm => ⟨m, by simp [Store.Put, hm], fun _ _ hk => hk⟩) ?_
      intro b it ha
      simp only [Store.Put] at ha
      split at ha
      · rename_i hkey
        have hb : b = b1 := (peerApplyKey_inj env b b1).1 hkey
        simp only [Option.some.injEq, Val.peerPoolItem.injEq] at ha
        subst ha
        exact Or.inr (by rw [hb]; exact hd1)
      · exact Or.inl ha
  | UnRegisterCandidate w input =>
    rcases unRegisterCandidate_store env w input s with h1 | ⟨b1, h1⟩
    · rw [exec, h1]; exact h
    · rw [exec, h1]
      refine indexInv_of_shrink env s _ h (by simp [Store.Delete]) (by simp [Store.Delete])
        (fun m hm => ⟨m, by simp [Store.Delete, hm], fun _ _ hk => hk⟩) ?_
      intro b it ha
      simp only [Store.Delete] at ha
      split at ha
      · simp at ha
      · exact Or.inl ha
  | RejectCandidate w input =>
    rcases rejectCandidate_store env w input s with h1 | ⟨b1, h1⟩
    · rw [exec, h1]; exact h
    · rw [exec, h1]
      refine indexInv_of_shrink env s _ h (by simp [Store.Delete]) (by simp [Store.Delete])
        (fun m hm => ⟨m, by simp [Store.Delete, hm], fun _ _ hk => hk⟩) ?_
      intro b it ha
      simp only [Store.Delete] at ha
      split at ha
      · simp at ha
      · exact Or.inl ha
  | WhiteNode w input =>
    rcases whiteNode_store env w input s with h1 | ⟨b1, h1⟩
    · rw [exec, h1]; exact h
    · rw [exec, h1]
      exact indexInv_of_shrink env s _ h (by simp [Store.Delete]) (by simp [Store.Delete])
        (fun m hm => ⟨m, by simp [Store.Delete, hm], fun _ _ hk => hk⟩)
        (fun b it ha => Or.inl (by simpa [Store.Delete] using ha))
  | UpdateConfig w input =>
    rcases updateConfig_store env w input s with h1 | ⟨c1, h1⟩
    · rw [exec, h1]; exact h
    · rw [exec, h1]
      exact indexInv_of_shrink env s _ h (by simp [putConfig, Store.Put])
        (by simp [putConfig, Store.Put])
        (fun m hm => ⟨m, by simp [putConfig, Store.Put, hm], fun _ _ hk => hk⟩)
        (fun b it ha => Or.inl (by simpa [putConfig, Store.Put] using ha))
  | QuitNode w input =>
    rcases quitNode_store env w input s with h1 | ⟨m0, k0, hm0, h1⟩
    · rw [exec, h1]; exact h
    · rw [exec, h1]
      refine indexInv_of_shrink env s _ h (by simp [putPeerPoolMap, Store.Put])
        (by simp [putPeerPoolMap, Store.Put]) ?_
        (fun b it ha => Or.inl (by simpa [putPeerPoolMap, Store.Put] using ha))
      intro m hm
      rw [hm0] at hm
      simp only [Option.some.injEq, Val.peerPoolMap.injEq] at hm
      subst hm
      refine ⟨m0.erase k0, by simp [putPeerPoolMap, Store.Put], ?_⟩
      intro k it hk
      simp only [PeerPoolMap.erase] at hk
      split at hk
      · simp at hk
      · exact hk
  | BlackNode w input =>
    obtain ⟨hfr, hpl⟩ := blackNode_store env w input s
    rw [exec]
    refine indexInv_of_shrink env s _ h (hfr _ (by simp) (by simp))
      (fun b => hfr _ (by simp) (by simp)) ?_
      (fun b it ha => Or.inl (by rw [← hfr _ (by simp) (by simp)]; exact ha))
    intro m hm
    rcases hpl with h1 | ⟨m0, m1, hm0, hm1, hsub⟩
    · exact ⟨m, by rw [h1]; exact hm, fun _ _ hk => hk⟩
    · rw [hm0] at hm
      simp only [Option.some.injEq, Val.peerPoolMap.injEq] at hm
      subst hm
      exact ⟨m1, hm1, hsub⟩
  | ApproveCandidate w input =>
    rw [exec]
    obtain ⟨c, m, hc, hm, hlt, hfun, hdec, happ⟩ := h
    have hcb : c + 1 < 2 ^ 32 := by
      obtain ⟨c0, hc0, hlt0⟩ := hbelow
      simp [CandidateIndexCounter, hc] at hc0
      omega
    have hmod : (c + 1) % 2 ^ 32 = c + 1 := Nat.mod_eq_of_lt hcb
    rcases approveCandidate_store env w input s with
      h1 | ⟨pk, pkb, it, b, hpk, hrec, hitb, ⟨idx, m0, hidx, hm0, h1⟩ |
        ⟨c0, hnone, hc0, h1 | ⟨m0, hm0, h1⟩⟩⟩
    · rw [h1]; exact ⟨c, m, hc, hm, hlt, hfun, hdec, happ⟩
    · rw [h1]
      have hbb : b = pkb := by
        have := happ pkb it hrec
        rw [hitb] at this
        exact Option.some.inj this
      subst hbb
      rw [hm0] at hm
      simp only [Option.some.injEq, Val.peerPoolMap.injEq] at hm
      subst hm
      refine indexInv_extend env s _ c c m0 (m0.insert pk { it with Index := idx }) [] hlt hfun
        (by simp [putPeerPoolMap, Store.Put, hc]) (by simp [putPeerPoolMap, Store.Put])
        (le_refl _) ?_ ?_ ?_
      · intro b1 i ho
        rcases ho with ho | ⟨k, it1, hk, hkd, hki⟩
        · exact Or.inl (Or.inl (by simpa [putPeerPoolMap, Store.Put] using ho))
        · simp only [PeerPoolMap.insert] at hk
          split at hk
          · rename_i hkpk
            simp only [Option.some.injEq] at hk
            subst hk
            subst hkpk
            rw [hpk] at hkd
            cases hkd
            exact Or.inl (Or.inl (by rw [hidx, ← hki]))
          · exact Or.inl (Or.inr ⟨k, it1, hk, hkd, hki⟩)
      · intro k it1 hk
        simp only [PeerPoolMap.insert] at hk
        split at hk
        · rename_i hkpk
          simp [hkpk, hpk]
        · exact hdec k it1 hk
      · intro b1 it1 ha
        exact happ b1 it1 (by simpa [putPeerPoolMap, Store.Put] using ha)
    · rw [h1]
      rw [hc] at hc0
      simp only [Option.some.injEq, Val.uint32.injEq] at hc0
      subst hc0
      refine indexInv_extend env s _ c (c + 1) m m b hlt hfun
        (by simp only [putCandidateIndex, Store.Put, hmod]; simp)
        (by simp [putCandidateIndex, Store.Put, hm])
        (Nat.le_succ _) ?_ hdec ?_
      · intro b1 i ho
        rcases ho with ho | ho
        · simp only [putCandidateIndex, Store.Put] at ho
          split at ho
          · rename_i hkey
            have hb : b1 = b := (peerIndexKey_inj env b1 b).1 hkey
            simp only [Option.some.injEq, Val.uint32.injEq] at ho
            exact Or.inr ⟨hb, ho.symm, Nat.lt_succ_self _⟩
          · simp only [peerIndexKey_ne_candidateIndexKey, if_false] at ho
            exact Or.inl (Or.inl ho)
        · exact Or.inl (Or.inr ho)
      · intro b1 it1 ha
        exact happ b1 it1 (by simpa [putCandidateIndex, Store.Put] using ha)
    · rw [h1]
      rw [hc] at hc0
      simp only [Option.some.injEq, Val.uint32.injEq] at hc0
      subst hc0
      have hbb : b = pkb := by
        have := happ pkb it hrec
        rw [hitb] at this
        exact Option.some.inj this
      subst hbb
      rw [hm0] at hm
      simp only [Option.some.injEq, Val.peerPoolMap.injEq] at hm
      subst hm
      refine indexInv_extend env s _ c (c + 1) m0 (m0.insert pk { it with Index := c }) b
        hlt hfun
        (by simp only [putPeerPoolMap, putCandidateIndex, Store.Put, hmod]; simp)
        (by simp [putPeerPoolMap, putCandidateIndex, Store.Put])
        (Nat.le_succ _) ?_ ?_ ?_
      · intro b1 i ho
        rcases ho with ho | ⟨k, it1, hk, hkd, hki⟩
        · simp only [putPeerPoolMap, putCandidateIndex, Store.Put,
            peerIndexKey_ne_peerPoolKey, if_false] at ho
          split at ho
          · rename_i hkey
            have hb : b1 = b := (peerIndexKey_inj env b1 b).1 hkey
            simp only [Option.some.injEq, Val.uint32.injEq] at ho
            exact Or.inr ⟨hb, ho.symm, Nat.lt_succ_self _⟩
          · simp only [peerIndexKey_ne_candidateIndexKey, if_false] at ho
            exact Or.inl (Or.inl ho)
        · simp only [PeerPoolMap.insert] at hk
          split at hk
          · rename_i hkpk
            simp only [Option.some.injEq] at hk
            subst hk
            subst hkpk
            rw [hpk] at hkd
            cases hkd
            exact Or.inr ⟨rfl, hki.symm, Nat.lt_succ_self _⟩
          · exact Or.inl (Or.inr ⟨k, it1, hk, hkd, hki⟩)
      · intro k it1 hk
        simp only [PeerPoolMap.insert] at hk
        split at hk
        · rename_i hkpk
          simp [hkpk, hpk]
        · exact hdec k it1 hk
      · intro b1 it1 ha
        exact happ b1 it1 (by simpa [putPeerPoolMap, putCandidateIndex, Store.Put] using ha)
/-- The store a successful call leaves is reachable under the same side conditions. -/
theorem reachableVia_exec (env : Env) (G : VBFTConfig → Prop) (P : Store → Prop) (s : Store)
    (c : Call) (hr : ReachableVia env G P s) (hP : P s)
    (hok : succeeded (exec env s c) = true) : ReachableVia env G P (exec env s c).1 := by
  rw [← commit_of_succeeded env s c hok]
  exact ReachableVia.step s c hr hP

/-- The index invariant holds in every store reached from a genesis with distinct
indices through calls made while the counter is below its maximum. -/
theorem reachableVia_indexInv (env : Env) (s : Store)
    (hr : ReachableVia env GenesisIndicesDistinct (CounterBelowMax env) s) :
    IndexInv env s := by
  induction hr with
  | init configuration hg hok => exact indexInv_init env configuration hg hok
  | step s c _ hP ih =>
    rcases commit_cases env s c with h | ⟨h, _⟩
    · rw [h]; exact ih
    · rw [h]; exact indexInv_exec env s c ih hP

/-- C1 fails as stated: with the distinct genesis indices 1 and `2^32 - 1` the
counter `maxId + 1` of `InitConfig` wraps to 0, so the first approved candidate
gets index 0 and the second, `demoKey4`, gets index 1, which the genesis peer
`demoKey2` holds: in a reachable store two different public keys have the same
assigned index, and their peer pool records carry it. -/
theorem index_reused_after_wrap :
    Reachable demoEnv stWrapSecond ∧
      CandidateIndexCounter demoEnv stWrapGenesis = some 0 ∧
      demoKey2 ≠ demoKey4 ∧
      hex.DecodeString demoKey2 ≠ hex.DecodeString demoKey4 ∧
      IndexAssignment demoEnv stWrapSecond demoKey2 = some 1 ∧
      IndexAssignment demoEnv stWrapSecond demoKey4 = some 1 ∧
      PeerPool demoEnv stWrapSecond demoKey2 = some ⟨1, demoKey2, List.replicate 20 1⟩ ∧
      PeerPool demoEnv stWrapSecond demoKey4 = some ⟨1, demoKey4, demoOwner⟩ := by
  have h0 : Reachable demoEnv stWrapGenesis := ReachableVia.init _ trivial (by decide)
  have h1 := reachable_exec demoEnv stWrapGenesis
    (.RegisterCandidate (signedBy demoOwner) (some ⟨demoKey, demoOwner⟩)) h0 (by decide)
  have h2 := reachable_exec demoEnv _
    (.ApproveCandidate (signedBy demoOperator) (some ⟨demoKey⟩)) h1 (by decide)
  have h3 := reachable_exec demoEnv _
    (.RegisterCandidate (signedBy demoOwner) (some ⟨demoKey4, demoOwner⟩)) h2 (by decide)
  have h4 := reachable_exec demoEnv _
    (.ApproveCandidate (signedBy demoOperator) (some ⟨demoKey4⟩)) h3 (by decide)
  exact ⟨h4, by decide, by decide, by decide, by decide, by decide, by decide, by decide⟩

/-- C1, amended: in every state reachable from the empty store by a successful
`InitConfig` whose genesis peers carry pairwise distinct indices below
`2^32 - 1`, followed by any sequence of committed Governance API calls made
while `CandidateIndexCounter` is below `2^32 - 1`, the index assignment is
injective on public key bytes: two keys with the same assigned index decode to
the same bytes, and so do the keys of two peer pool records that carry the same
index. -/
theorem index_assignment_injective (env : Env) (s : Store)
    (hr : ReachableVia env GenesisIndicesDistinct (CounterBelowMax env) s) :
    (∀ pk1 pk2 i, IndexAssignment env s pk1 = some i → IndexAssignment env s pk2 = some i →
        hex.DecodeString pk1 = hex.DecodeString pk2) ∧
      (∀ k1 k2 r1 r2, PeerPool env s k1 = some r1 → PeerPool env s k2 = some r2 →
        r1.Index = r2.Index → hex.DecodeString k1 = hex.DecodeString k2) := by
  obtain ⟨c, m, hc, hm, hlt, hfun, hdec, happ⟩ := reachableVia_indexInv env s hr
  have hidx : ∀ pk i, IndexAssignment env s pk = some i →
      ∃ b, hex.DecodeString pk = some b ∧ Owns env s m b i := by
    intro pk i h
    unfold IndexAssignment at h
    cases hd : hex.DecodeString pk with
    | none => simp [hd] at h
    | some b =>
      simp only [hd] at h
      cases hv : s (peerIndexKey env b) with
      | none => simp [hv] at h
      | some v =>
        cases v <;> simp [hv] at h
        subst h
        exact ⟨b, rfl, Or.inl hv⟩
  have hpool : ∀ k r, PeerPool env s k = some r →
      ∃ b, hex.DecodeString k = some b ∧ Owns env s m b r.Index := by
    intro k r h
    have hk : m k = some r := by
      simpa [PeerPool, GetPeerPoolMap, hm] using h
    obtain ⟨b, hb⟩ := Option.isSome_iff_exists.1 (hdec k r hk)
    exact ⟨b, hb, Or.inr ⟨k, r, hk, hb, rfl⟩⟩
  constructor
  · intro pk1 pk2 i h1 h2
    obtain ⟨b1, hb1, ho1⟩ := hidx pk1 i h1
    obtain ⟨b2, hb2, ho2⟩ := hidx pk2 i h2
    rw [hb1, hb2, hfun b1 b2 i ho1 ho2]
  · intro k1 k2 r1 r2 h1 h2 heq
    obtain ⟨b1, hb1, ho1⟩ := hpool k1 r1 h1
    obtain ⟨b2, hb2, ho2⟩ := hpool k2 r2 h2
    rw [heq] at ho1
    rw [hb1, hb2, hfun b1 b2 _ ho1 ho2]

theorem demoGenesis_distinct :
    GenesisIndicesDistinct (demoConfig [⟨1, demoKey2, "genesis"⟩]) := by
  constructor
  · intro p hp q hq _
    simp only [demoConfig, List.mem_singleton] at hp hq
    rw [hp, hq]
  · intro p hp
    simp only [demoConfig, List.mem_singleton] at hp
    rw [hp]
    norm_num

/-- C1 (amended) at a concrete input: the concrete chain after register and
approve, reached from a genesis with distinct indices while the counter was 2. -/
theorem index_assignment_injective_witness :
    (∀ pk1 pk2 i, IndexAssignment demoEnv stApproved pk1 = some i →
        IndexAssignment demoEnv stApproved pk2 = some i →
        hex.DecodeString pk1 = hex.DecodeString pk2) ∧
      (∀ k1 k2 r1 r2, PeerPool demoEnv stApproved k1 = some r1 →
        PeerPool demoEnv stApproved k2 = some r2 →
        r1.Index = r2.Index → hex.DecodeString k1 = hex.DecodeString k2) :=
  index_assignment_injective demoEnv stApproved
    (reachableVia_exec demoEnv _ _ stRegistered
      (.ApproveCandidate (signedBy demoOperator) (some ⟨demoKey⟩))
      (reachableVia_exec demoEnv _ _ demoGenesis
        (.RegisterCandidate (signedBy demoOwner) (some ⟨demoKey, demoOwner⟩))
        (ReachableVia.init _ demoGenesis_distinct (by decide))
        ⟨2, by decide, by decide⟩ (by decide))
      ⟨2, by decide, by decide⟩ (by decide))
/-! ## `RegisterCandidate` -/

/-- Stores that differ on application keys only show the same pool, blacklist,
index assignments, counter and configuration. -/
theorem sameOutsideApplications_of_frame (env : Env) (s s1 : Store)
    (h : ∀ key, (∀ b, key ≠ peerApplyKey env b) → s1 key = s key) :
    SameOutsideApplications env s s1 := by
  have hpool : s1 (peerPoolKey env) = s (peerPoolKey env) := h _ (by simp)
  have hcnt : s1 (candidateIndexKey env) = s (candidateIndexKey env) := h _ (by simp)
  have hcfg : s1 (vbftConfigKey env) = s (vbftConfigKey env) := h _ (by simp)
  have hidx : ∀ b, s1 (peerIndexKey env b) = s (peerIndexKey env b) := fun b => h _ (by simp)
  have hbl : ∀ b, s1 (blackListKey env b) = s (blackListKey env b) := fun b => h _ (by simp)
  refine ⟨fun k => peerPool_of_store_eq env s s1 hpool k, fun k => ?_, fun k => ?_, fun k => ?_,
    ?_, ?_⟩
  · unfold Blacklist
    cases hex.DecodeString k with
    | none => rfl
    | some b => simp only [hbl]
  · unfold Blacklisted
    cases hex.DecodeString k with
    | none => rfl
    | some b => simp only [hbl]
  · unfold IndexAssignment
    cases hex.DecodeString k with
    | none => rfl
    | some b => simp only [hidx]
  · simp only [CandidateIndexCounter, hcnt]
  · simp only [StoredConfiguration, hcfg]

/-- Stores that agree on every application key but that of the bytes of
`pubkey` show the same application record for every key with other bytes. -/
theorem sameOtherApplications_of_frame (env : Env) (s s1 : Store) (pubkey : String) (b : Bytes)
    (hb : hex.DecodeString pubkey = some b)
    (h : ∀ b1, b1 ≠ b → s1 (peerApplyKey env b1) = s (peerApplyKey env b1)) :
    SameOtherApplications env s s1 pubkey := by
  intro k hk
  unfold ApplicationRecord
  cases hd : hex.DecodeString k with
  | none => rfl
  | some b1 =>
    have hne : b1 ≠ b := by
      intro heq
      apply hk
      rw [hd, hb, heq]
    simp only [h b1 hne]

/-- C11: for every store that holds a peer pool and every well-formed request
`(pk, addr)` (a 20-byte address) whose claimed address authorized the call,
`RegisterCandidate` fails if and only if the key fails format validation (the
host's validator or the hexadecimal decoding rejects it), or an item is stored
under its blacklist key, or an item is stored under its application key, or the
key is a key of the peer pool. -/
theorem registerCandidate_fails_iff (env : Env) (w : Bytes → Bool) (s : Store)
    (pk : String) (addr : Bytes)
    (hinit : HasPeerPool env s = true) (hlen : addr.length = 20) (hauth : w addr = true) :
    succeeded (RegisterCandidate env w (some ⟨pk, addr⟩) s) = false ↔
      ((env.ValidatePeerPubKeyFormat pk = false ∨ hex.DecodeString pk = none) ∨
        Blacklisted env s pk = true ∨ ApplicationStored env s pk = true ∨
        (PeerPool env s pk).isSome = true) := by
  unfold HasPeerPool at hinit
  cases hp : GetPeerPoolMap env s with
  | error e => simp [hp] at hinit
  | ok m =>
    have hpm : PeerPool env s pk = m pk := peerPool_eq_some env s m hp pk
    unfold RegisterCandidate
    simp only [AddressParseFromBytes, hlen, if_true, ValidateOwner, hauth]
    cases hv : env.ValidatePeerPubKeyFormat pk with
    | false => simp [succeeded]
    | true =>
      cases hd : hex.DecodeString pk with
      | none => simp [succeeded]
      | some b =>
        simp only [Blacklisted, ApplicationStored, hd, GetPeeApply, hpm]
        cases hbl : s (blackListKey env b) with
        | some v => simp [succeeded]
        | none =>
          cases hap : s (peerApplyKey env b) with
          | some v => cases v <;> simp [succeeded]
          | none =>
            simp only [hp]
            cases hm : m pk with
            | some it => simp [succeeded]
            | none => simp [succeeded, putPeerApply, hd]

/-- C11 at a concrete input: on the concrete genesis `demoKey` passes all four
tests and registration succeeds. -/
theorem registerCandidate_fails_iff_witness :
    succeeded (RegisterCandidate demoEnv (signedBy demoOwner) (some ⟨demoKey, demoOwner⟩)
        demoGenesis) = false ↔
      ((demoEnv.ValidatePeerPubKeyFormat demoKey = false ∨ hex.DecodeString demoKey = none) ∨
        Blacklisted demoEnv demoGenesis demoKey = true ∨
        ApplicationStored demoEnv demoGenesis demoKey = true ∨
        (PeerPool demoEnv demoGenesis demoKey).isSome = true) :=
  registerCandidate_fails_iff demoEnv (signedBy demoOwner) demoGenesis demoKey demoOwner
    (by decide) (by decide) (by decide)

/-- C12: for every store and request on which `RegisterCandidate(pk, addr)`
succeeds, the only write is the application record: afterwards
`ApplicationRecord[pk] = {pk, addr}` (index field 0, no index is allocated),
and the peer pool, the blacklist, every index assignment, the candidate index
counter, the configuration and the application record of every key with other
bytes are unchanged. -/
theorem registerCandidate_effect (env : Env) (w : Bytes → Bool) (s : Store)
    (pk : String) (addr : Bytes)
    (hok : succeeded (RegisterCandidate env w (some ⟨pk, addr⟩) s) = true) :
    ApplicationRecord env (RegisterCandidate env w (some ⟨pk, addr⟩) s).1 pk
        = some ⟨0, pk, addr⟩ ∧
      (∃ b, hex.DecodeString pk = some b ∧
        (RegisterCandidate env w (some ⟨pk, addr⟩) s).1
          = s.Put (peerApplyKey env b) (.peerPoolItem ⟨0, pk, addr⟩)) ∧
      SameOutsideApplications env s (RegisterCandidate env w (some ⟨pk, addr⟩) s).1 ∧
      SameOtherApplications env s (RegisterCandidate env w (some ⟨pk, addr⟩) s).1 pk := by
  have hrun : ∃ b, hex.DecodeString pk = some b ∧
      (RegisterCandidate env w (some ⟨pk, addr⟩) s).1
        = s.Put (peerApplyKey env b) (.peerPoolItem ⟨0, pk, addr⟩) := by
    revert hok
    unfold RegisterCandidate
    dsimp only
    cases AddressParseFromBytes addr with
    | none => simp [succeeded]
    | some address =>
      dsimp only
      by_cases hw : ValidateOwner w address = false
      · simp [hw, succeeded]
      · rw [if_neg hw]
        by_cases hv : env.ValidatePeerPubKeyFormat pk = false
        · simp [hv, succeeded]
        · rw [if_neg hv]
          cases hd : hex.DecodeString pk with
          | none => simp [succeeded]
          | some b =>
            dsimp only
            cases s (blackListKey env b) with
            | some v => simp [succeeded]
            | none =>
              dsimp only
              cases GetPeeApply env s pk with
              | error e => simp [succeeded]
              | ok r =>
                cases r with
                | some it => simp [succeeded]
                | none =>
                  dsimp only
                  cases GetPeerPoolMap env s with
                  | error e => simp [succeeded]
                  | ok m =>
                    dsimp only
                    cases m pk with
                    | some it => simp [succeeded]
                    | none =>
                      intro _
                      exact ⟨b, rfl, by simp [putPeerApply, hd]⟩
  obtain ⟨b, hb, hs⟩ := hrun
  refine ⟨?_, ⟨b, hb, hs⟩, ?_, ?_⟩
  · simp [ApplicationRecord, hb, hs, Store.Put]
  · apply sameOutsideApplications_of_frame
    intro key hkey
    simp [hs, Store.Put, hkey b]
  · apply sameOtherApplications_of_frame env s _ pk b hb
    intro b1 hne
    simp [hs, Store.Put, hne]

/-- C12 at a concrete input: `RegisterCandidate(demoKey, demoOwner)` on the
concrete genesis. -/
theorem registerCandidate_effect_witness :
    ApplicationRecord demoEnv stRegistered demoKey = some ⟨0, demoKey, demoOwner⟩ ∧
      (∃ b, hex.DecodeString demoKey = some b ∧
        stRegistered
          = demoGenesis.Put (peerApplyKey demoEnv b) (.peerPoolItem ⟨0, demoKey, demoOwner⟩)) ∧
      SameOutsideApplications demoEnv demoGenesis stRegistered ∧
      SameOtherApplications demoEnv demoGenesis stRegistered demoKey :=
  registerCandidate_effect demoEnv (signedBy demoOwner) demoGenesis demoKey demoOwner
    (by decide)
/-! ## `QuitNode`, `UpdateConfig`, `InitConfig` twice, `RejectCandidate` -/

/-- C13: for every store and owner-authorized `QuitNode(pk, addr)` (a 20-byte
address that is a witness of the call): the call fails with the whole store
unchanged if `pk` is not a key of the peer pool or if the address of
`PeerPool[pk]` differs from `addr`; otherwise it succeeds, removes the pool
entry of `pk`, writes nothing but the pool, and leaves every other pool entry,
every index assignment and the candidate index counter unchanged. -/
theorem quitNode_effect (env : Env) (w : Bytes → Bool) (s : Store) (pk : String)
    (addr : Bytes) (hlen : addr.length = 20) (hauth : w addr = true) :
    (PeerPool env s pk = none →
        succeeded (QuitNode env w (some ⟨pk, addr⟩) s) = false ∧
          (QuitNode env w (some ⟨pk, addr⟩) s).1 = s) ∧
      (∀ it, PeerPool env s pk = some it → it.Address ≠ addr →
        succeeded (QuitNode env w (some ⟨pk, addr⟩) s) = false ∧
          (QuitNode env w (some ⟨pk, addr⟩) s).1 = s) ∧
      (∀ it, PeerPool env s pk = some it → it.Address = addr →
        succeeded (QuitNode env w (some ⟨pk, addr⟩) s) = true ∧
          PeerPool env (QuitNode env w (some ⟨pk, addr⟩) s).1 pk = none ∧
          (∀ k, k ≠ pk →
            PeerPool env (QuitNode env w (some ⟨pk, addr⟩) s).1 k = PeerPool env s k) ∧
          (∀ key, key ≠ peerPoolKey env →
            (QuitNode env w (some ⟨pk, addr⟩) s).1 key = s key) ∧
          (∀ k, IndexAssignment env (QuitNode env w (some ⟨pk, addr⟩) s).1 k
            = IndexAssignment env s k) ∧
          CandidateIndexCounter env (QuitNode env w (some ⟨pk, addr⟩) s).1
            = CandidateIndexCounter env s) := by
  unfold QuitNode
  simp only [AddressParseFromBytes, hlen, if_true, ValidateOwner, hauth,
    Bool.true_eq_false, if_false]
  cases hp : GetPeerPoolMap env s with
  | error e =>
    refine ⟨fun _ => ⟨rfl, rfl⟩, fun it h => ?_, fun it h => ?_⟩ <;>
      simp [PeerPool, hp] at h
  | ok m =>
    have hpm : ∀ k, PeerPool env s k = m k := peerPool_eq_some env s m hp
    rw [hpm]
    dsimp only
    cases hm : m pk with
    | none =>
      refine ⟨fun _ => ⟨rfl, rfl⟩, fun it h => ?_, fun it h => ?_⟩ <;> simp at h
    | some it0 =>
      dsimp only
      refine ⟨fun h => by simp at h, fun it h hne => ?_, fun it h heq => ?_⟩
      · simp only [Option.some.injEq] at h
        subst h
        have : addr ≠ it0.Address := fun h => hne h.symm
        rw [if_pos this]
        exact ⟨rfl, rfl⟩
      · simp only [Option.some.injEq] at h
        subst h
        have : ¬ addr ≠ it0.Address := fun h => h heq.symm
        rw [if_neg this]
        refine ⟨rfl, ?_, fun k hk => ?_, fun key hkey => ?_, fun k => ?_, ?_⟩
        · simp [PeerPool, GetPeerPoolMap, putPeerPoolMap, Store.Put, PeerPoolMap.erase]
        · rw [hpm]
          simp [PeerPool, GetPeerPoolMap, putPeerPoolMap, Store.Put, PeerPoolMap.erase, hk]
        · simp [putPeerPoolMap, Store.Put, hkey]
        · unfold IndexAssignment
          cases hex.DecodeString k with
          | none => rfl
          | some b => simp [putPeerPoolMap, Store.Put]
        · simp [CandidateIndexCounter, putPeerPoolMap, Store.Put]

/-- C13 at a concrete input: `QuitNode(demoKey, demoOwner)` by the owner on the
concrete chain after register and approve. -/
theorem quitNode_effect_witness :
    succeeded (QuitNode demoEnv (signedBy demoOwner) (some ⟨demoKey, demoOwner⟩) stApproved)
        = true ∧
      PeerPool demoEnv stQuit demoKey = none ∧
      (∀ k, k ≠ demoKey → PeerPool demoEnv stQuit k = PeerPool demoEnv stApproved k) ∧
      (∀ key, key ≠ peerPoolKey demoEnv → stQuit key = stApproved key) ∧
      (∀ k, IndexAssignment demoEnv stQuit k = IndexAssignment demoEnv stApproved k) ∧
      CandidateIndexCounter demoEnv stQuit = CandidateIndexCounter demoEnv stApproved :=
  (quitNode_effect demoEnv (signedBy demoOwner) stApproved demoKey demoOwner
    (by decide) (by decide)).2.2 ⟨2, demoKey, demoOwner⟩ (by decide) rfl

/-- C14: for every store and every decodable replacement configuration
submitted by the operator, `UpdateConfig` succeeds if and only if
`BlockMsgDelay >= 5000`, `HashMsgDelay >= 5000` and
`PeerHandshakeTimeout >= 10`; on success the stored configuration is the
submitted one, whatever was stored before, and nothing else is written; on
failure the store is unchanged. -/
theorem updateConfig_effect (env : Env) (w : Bytes → Bool) (s : Store)
    (configuration : Configuration) (hauth : OperatorAuthorized env w) :
    (succeeded (UpdateConfig env w (some configuration) s) = true ↔
        (5000 ≤ configuration.BlockMsgDelay ∧ 5000 ≤ configuration.HashMsgDelay ∧
          10 ≤ configuration.PeerHandshakeTimeout)) ∧
      (succeeded (UpdateConfig env w (some configuration) s) = true →
        StoredConfiguration env (UpdateConfig env w (some configuration) s).1
            = some configuration ∧
          ∀ key, key ≠ vbftConfigKey env →
            (UpdateConfig env w (some configuration) s).1 key = s key) ∧
      (succeeded (UpdateConfig env w (some configuration) s) = false →
        (UpdateConfig env w (some configuration) s).1 = s) := by
  obtain ⟨op, hop, hwop⟩ := hauth
  unfold UpdateConfig
  simp only [hop, ValidateOwner, hwop]
  by_cases h1 : configuration.BlockMsgDelay < 5000
  · simp [h1, succeeded]
  · by_cases h2 : configuration.HashMsgDelay < 5000
    · simp [h1, h2, succeeded]
    · by_cases h3 : configuration.PeerHandshakeTimeout < 10
      · simp [h1, h2, h3, succeeded]
      · simp only [h1, h2, h3, if_false, Bool.true_eq_false]
        refine ⟨⟨fun _ => by omega, fun _ => rfl⟩, fun _ => ⟨?_, fun key hkey => ?_⟩, ?_⟩
        · simp [StoredConfiguration, putConfig, Store.Put]
        · simp [putConfig, Store.Put, hkey]
        · simp [succeeded]

/-- C14 at concrete inputs: on the concrete chain the operator's `UpdateConfig`
with `BlockMsgDelay = 5000` succeeds and replaces the stored configuration. -/
theorem updateConfig_effect_witness :
    (succeeded (UpdateConfig demoEnv (signedBy demoOperator) (some ⟨5000, 6000, 10⟩)
          demoGenesis) = true ↔
        (5000 ≤ 5000 ∧ 5000 ≤ 6000 ∧ 10 ≤ 10)) ∧
      (succeeded (UpdateConfig demoEnv (signedBy demoOperator) (some ⟨5000, 6000, 10⟩)
          demoGenesis) = true →
        StoredConfiguration demoEnv
            (UpdateConfig demoEnv (signedBy demoOperator) (some ⟨5000, 6000, 10⟩)
              demoGenesis).1 = some ⟨5000, 6000, 10⟩ ∧
          ∀ key, key ≠ vbftConfigKey demoEnv →
            (UpdateConfig demoEnv (signedBy demoOperator) (some ⟨5000, 6000, 10⟩)
              demoGenesis).1 key = demoGenesis key) ∧
      (succeeded (UpdateConfig demoEnv (signedBy demoOperator) (some ⟨5000, 6000, 10⟩)
          demoGenesis) = false →
        (UpdateConfig demoEnv (signedBy demoOperator) (some ⟨5000, 6000, 10⟩)
          demoGenesis).1 = demoGenesis) :=
  updateConfig_effect demoEnv (signedBy demoOperator) demoGenesis ⟨5000, 6000, 10⟩
    ⟨demoOperator, rfl, by decide⟩

/-- C15: `InitConfig` is one-shot and validates before writing. For every
input, if an item is already stored under the peer pool key, or if the input
decodes and `CheckVBFTConfig` rejects it, `InitConfig` fails and the store is
exactly the store before the call; in particular a second `InitConfig` after a
successful one (whatever its peer list, the empty one included) fails and
leaves the store untouched. -/
theorem initConfig_one_shot (env : Env) (input : Option VBFTConfig) (s : Store) :
    ((s (peerPoolKey env) ≠ none ∨
        ∃ configuration e, input = some configuration ∧
          CheckVBFTConfig configuration = .error e) →
        succeeded (InitConfig env input s) = false ∧ (InitConfig env input s).1 = s) ∧
      (∀ first : VBFTConfig, succeeded (InitConfig env (some first) s) = true →
        succeeded (InitConfig env input (InitConfig env (some first) s).1) = false ∧
          (InitConfig env input (InitConfig env (some first) s).1).1
            = (InitConfig env (some first) s).1) := by
  constructor
  · rintro (hpool | ⟨configuration, e, rfl, hcheck⟩)
    · exact ⟨(initConfig_store_of_pool env input s hpool).2,
        (initConfig_store_of_pool env input s hpool).1⟩
    · unfold InitConfig
      dsimp only
      cases s (peerPoolKey env) with
      | some v => exact ⟨rfl, rfl⟩
      | none =>
        dsimp only
        rw [hcheck]
        exact ⟨rfl, rfl⟩
  · intro first hok
    obtain ⟨maxId, m, s1, _, _, hs⟩ := initConfig_success env first s hok
    have hpool : (InitConfig env (some first) s).1 (peerPoolKey env) ≠ none := by
      rw [hs]
      simp [putConfig, putPeerPoolMap, Store.Put]
    exact ⟨(initConfig_store_of_pool env input _ hpool).2,
      (initConfig_store_of_pool env input _ hpool).1⟩

/-- C15 at concrete inputs: on the empty store a configuration with
`BlockMsgDelay = 4999` is rejected without a write, and on the concrete genesis
a second `InitConfig` with an empty peer list fails and changes nothing. -/
theorem initConfig_one_shot_witness :
    (succeeded (InitConfig demoEnv (some ⟨4999, 10000, 10, []⟩) Store.empty) = false ∧
        (InitConfig demoEnv (some ⟨4999, 10000, 10, []⟩) Store.empty).1 = Store.empty) ∧
      (succeeded (InitConfig demoEnv (some (demoConfig [])) demoGenesis) = false ∧
        (InitConfig demoEnv (some (demoConfig [])) demoGenesis).1 = demoGenesis) :=
  ⟨(initConfig_one_shot demoEnv (some ⟨4999, 10000, 10, []⟩) Store.empty).1
      (Or.inr ⟨⟨4999, 10000, 10, []⟩, .blockMsgDelay, rfl, rfl⟩),
    (initConfig_one_shot demoEnv (some (demoConfig [])) Store.empty).2
      (demoConfig [⟨1, demoKey2, "genesis"⟩]) (by decide)⟩

/-- C20: for every store and operator-authorized `RejectCandidate(pk)`: if `pk`
has no application record the call fails with the store unchanged; otherwise it
succeeds, its only write is the deletion of the application key of `pk`, so
`ApplicationRecord[pk]` is gone, and the peer pool, the blacklist, every index
assignment, the candidate index counter, the configuration and the application
record of every key with other bytes are unchanged. -/
theorem rejectCandidate_effect (env : Env) (w : Bytes → Bool) (s : Store) (pk : String)
    (hauth : OperatorAuthorized env w) :
    (ApplicationRecord env s pk = none →
        succeeded (RejectCandidate env w (some ⟨pk⟩) s) = false ∧
          (RejectCandidate env w (some ⟨pk⟩) s).1 = s) ∧
      (∀ it, ApplicationRecord env s pk = some it →
        succeeded (RejectCandidate env w (some ⟨pk⟩) s) = true ∧
          ApplicationRecord env (RejectCandidate env w (some ⟨pk⟩) s).1 pk = none ∧
          (∃ b, hex.DecodeString pk = some b ∧
            (RejectCandidate env w (some ⟨pk⟩) s).1 = s.Delete (peerApplyKey env b)) ∧
          SameOutsideApplications env s (RejectCandidate env w (some ⟨pk⟩) s).1 ∧
          SameOtherApplications env s (RejectCandidate env w (some ⟨pk⟩) s).1 pk) := by
  obtain ⟨op, hop, hwop⟩ := hauth
  unfold RejectCandidate ApplicationRecord
  simp only [hop, ValidateOwner, hwop, GetPeeApply]
  cases hd : hex.DecodeString pk with
  | none => exact ⟨fun _ => ⟨rfl, rfl⟩, fun it h => by simp at h⟩
  | some b =>
    dsimp only
    cases ha : s (peerApplyKey env b) with
    | none => exact ⟨fun _ => ⟨rfl, rfl⟩, fun it h => by simp at h⟩
    | some v =>
      cases v with
      | peerPoolItem p =>
        refine ⟨fun h => by simp at h, fun it _ => ⟨rfl, ?_, ⟨b, rfl, rfl⟩, ?_, ?_⟩⟩
        · simp [Store.Delete]
        · apply sameOutsideApplications_of_frame
          intro key hkey
          simp [Store.Delete, hkey b]
        · apply sameOtherApplications_of_frame env s _ pk b hd
          intro b1 hne
          simp [Store.Delete, hne]
      | _ => exact ⟨fun _ => ⟨rfl, rfl⟩, fun it h => by simp at h⟩

/-- C20 at a concrete input: the operator rejects the pending application of
`demoKey` on the concrete chain. -/
theorem rejectCandidate_effect_witness :
    succeeded (RejectCandidate demoEnv (signedBy demoOperator) (some ⟨demoKey⟩) stRegistered)
        = true ∧
      ApplicationRecord demoEnv
        (RejectCandidate demoEnv (signedBy demoOperator) (some ⟨demoKey⟩) stRegistered).1
        demoKey = none ∧
      (∃ b, hex.DecodeString demoKey = some b ∧
        (RejectCandidate demoEnv (signedBy demoOperator) (some ⟨demoKey⟩) stRegistered).1
          = stRegistered.Delete (peerApplyKey demoEnv b)) ∧
      SameOutsideApplications demoEnv stRegistered
        (RejectCandidate demoEnv (signedBy demoOperator) (some ⟨demoKey⟩) stRegistered).1 ∧
      SameOtherApplications demoEnv stRegistered
        (RejectCandidate demoEnv (signedBy demoOperator) (some ⟨demoKey⟩) stRegistered).1
        demoKey :=
  (rejectCandidate_effect demoEnv (signedBy demoOperator) stRegistered demoKey
    ⟨demoOperator, rfl, by decide⟩).2 ⟨0, demoKey, demoOwner⟩ (by decide)
/-! ## Authorization -/

/-- C18: authorization gates every mutation. For every store and input, if the
operator did not authorize the call then `ApproveCandidate`, `RejectCandidate`,
`BlackNode`, `WhiteNode` and `UpdateConfig` each fail, and if the claimed
address of the request did not authorize the call then `RegisterCandidate`,
`UnRegisterCandidate` and `QuitNode` each fail; in every such case the store is
unchanged. -/
theorem authorization_gates (env : Env) (w : Bytes → Bool) (s : Store) :
    (¬ OperatorAuthorized env w →
        (∀ input, succeeded (ApproveCandidate env w input s) = false ∧
          (ApproveCandidate env w input s).1 = s) ∧
        (∀ input, succeeded (RejectCandidate env w input s) = false ∧
          (RejectCandidate env w input s).1 = s) ∧
        (∀ input, succeeded (BlackNode env w input s) = false ∧
          (BlackNode env w input s).1 = s) ∧
        (∀ input, succeeded (WhiteNode env w input s) = false ∧
          (WhiteNode env w input s).1 = s) ∧
        (∀ input, succeeded (UpdateConfig env w input s) = false ∧
          (UpdateConfig env w input s).1 = s)) ∧
      (∀ input : Option RegisterPeerParam, (∀ p, input = some p → w p.Address = false) →
        (succeeded (RegisterCandidate env w input s) = false ∧
          (RegisterCandidate env w input s).1 = s) ∧
        (succeeded (UnRegisterCandidate env w input s) = false ∧
          (UnRegisterCandidate env w input s).1 = s) ∧
        (succeeded (QuitNode env w input s) = false ∧
          (QuitNode env w input s).1 = s)) := by
  constructor
  · intro hno
    have hop : ∀ op, env.operatorAddress = some op → ValidateOwner w op = false := by
      intro op h
      cases hw : w op with
      | false => simp [ValidateOwner, hw]
      | true => exact absurd ⟨op, h, hw⟩ hno
    refine ⟨fun input => ?_, fun input => ?_, fun input => ?_, fun input => ?_,
      fun input => ?_⟩
    · unfold ApproveCandidate
      cases input with
      | none => exact ⟨rfl, rfl⟩
      | some params =>
        cases ho : env.operatorAddress with
        | none => exact ⟨rfl, rfl⟩
        | some op => simp [hop op ho, succeeded]
    · unfold RejectCandidate
      cases input with
      | none => exact ⟨rfl, rfl⟩
      | some params =>
        cases ho : env.operatorAddress with
        | none => exact ⟨rfl, rfl⟩
        | some op => simp [hop op ho, succeeded]
    · unfold BlackNode
      cases input with
      | none => exact ⟨rfl, rfl⟩
      | some params =>
        cases ho : env.operatorAddress with
        | none => exact ⟨rfl, rfl⟩
        | some op => simp [hop op ho, succeeded]
    · unfold WhiteNode
      cases input with
      | none => exact ⟨rfl, rfl⟩
      | some params =>
        cases ho : env.operatorAddress with
        | none => exact ⟨rfl, rfl⟩
        | some op => simp [hop op ho, succeeded]
    · unfold UpdateConfig
      cases ho : env.operatorAddress with
      | none => exact ⟨rfl, rfl⟩
      | some op => simp [hop op ho, succeeded]
  · intro input hno
    cases input with
    | none => exact ⟨⟨rfl, rfl⟩, ⟨rfl, rfl⟩, ⟨rfl, rfl⟩⟩
    | some p =>
      have hw : w p.Address = false := hno p rfl
      have hv : ∀ address, AddressParseFromBytes p.Address = some address →
          ValidateOwner w address = false := by
        intro address h
        unfold AddressParseFromBytes at h
        split at h
        · simp only [Option.some.injEq] at h
          subst h
          exact hw
        · simp at h
      refine ⟨?_, ?_, ?_⟩
      · unfold RegisterCandidate
        dsimp only
        cases ha : AddressParseFromBytes p.Address with
        | none => exact ⟨rfl, rfl⟩
        | some address => simp [hv address ha, succeeded]
      · unfold UnRegisterCandidate
        dsimp only
        cases ha : AddressParseFromBytes p.Address with
        | none => exact ⟨rfl, rfl⟩
        | some address => simp [hv address ha, succeeded]
      · unfold QuitNode
        dsimp only
        cases ha : AddressParseFromBytes p.Address with
        | none => exact ⟨rfl, rfl⟩
        | some address => simp [hv address ha, succeeded]

/-- C18 at concrete inputs: on the concrete chain a transaction signed by the
owner alone cannot approve `demoKey`, and one signed by the operator alone
cannot register it for the owner. -/
theorem authorization_gates_witness :
    (succeeded (ApproveCandidate demoEnv (signedBy demoOwner) (some ⟨demoKey⟩) stRegistered)
          = false ∧
        (ApproveCandidate demoEnv (signedBy demoOwner) (some ⟨demoKey⟩) stRegistered).1
          = stRegistered) ∧
      (succeeded (RegisterCandidate demoEnv (signedBy demoOperator)
          (some ⟨demoKey, demoOwner⟩) demoGenesis) = false ∧
        (RegisterCandidate demoEnv (signedBy demoOperator)
          (some ⟨demoKey, demoOwner⟩) demoGenesis).1 = demoGenesis) :=
  ⟨((authorization_gates demoEnv (signedBy demoOwner) stRegistered).1
      (by
        rintro ⟨op, hop, hw⟩
        have hop1 : op = demoOperator := (Option.some.inj hop).symm
        subst hop1
        revert hw
        decide)).1 (some ⟨demoKey⟩),
    ((authorization_gates demoEnv (signedBy demoOperator) demoGenesis).2
      (some ⟨demoKey, demoOwner⟩)
      (by
        intro p hp
        cases hp
        decide)).1⟩
/-! ## Monotonicity of the candidate index counter -/

/-- On a store that holds a pool, a call leaves the counter as it was or
advanced by one modulo `2^32`. -/
theorem exec_counter_step (env : Env) (s : Store) (call : Call)
    (hp : s (peerPoolKey env) ≠ none) (c : Nat)
    (hc : s (candidateIndexKey env) = some (.uint32 c)) :
    (exec env s call).1 (candidateIndexKey env) = some (.uint32 c) ∨
      (exec env s call).1 (candidateIndexKey env) = some (.uint32 ((c + 1) % 2 ^ 32)) := by
  cases call with
  | InitConfig input =>
    rw [exec, (initConfig_store_of_pool env input s hp).1]; exact Or.inl hc
  | RegisterCandidate w input =>
    rcases registerCandidate_store env w input s with h1 | ⟨b1, it, _, h1⟩ <;>
      simp [exec, h1, hc, Store.Put]
  | UnRegisterCandidate w input =>
    rcases unRegisterCandidate_store env w input s with h1 | ⟨b1, h1⟩ <;>
      simp [exec, h1, hc, Store.Delete]
  | QuitNode w input =>
    rcases quitNode_store env w input s with h1 | ⟨m1, k, _, h1⟩ <;>
      simp [exec, h1, hc, putPeerPoolMap, Store.Put]
  | ApproveCandidate w input =>
    rcases approveCandidate_store env w input s with
      h1 | ⟨pk, pkb, it, b1, _, _, _, ⟨idx, m1, _, _, h1⟩ | ⟨c0, _, hc0, h1 | ⟨m1, _, h1⟩⟩⟩
    · simp [exec, h1, hc]
    · simp [exec, h1, hc, putPeerPoolMap, Store.Put]
    · rw [hc] at hc0
      simp only [Option.some.injEq, Val.uint32.injEq] at hc0
      subst hc0
      right
      simp [exec, h1, putCandidateIndex, Store.Put]
    · rw [hc] at hc0
      simp only [Option.some.injEq, Val.uint32.injEq] at hc0
      subst hc0
      right
      simp [exec, h1, putPeerPoolMap, putCandidateIndex, Store.Put]
  | RejectCandidate w input =>
    rcases rejectCandidate_store env w input s with h1 | ⟨b1, h1⟩ <;>
      simp [exec, h1, hc, Store.Delete]
  | BlackNode w input =>
    rw [exec, (blackNode_store env w input s).1 _ (by simp) (by simp)]; exact Or.inl hc
  | WhiteNode w input =>
    rcases whiteNode_store env w input s with h1 | ⟨b1, h1⟩ <;>
      simp [exec, h1, hc, Store.Delete]
  | UpdateConfig w input =>
    rcases updateConfig_store env w input s with h1 | ⟨c1, h1⟩ <;>
      simp [exec, h1, hc, putConfig, Store.Put]

/-- Every reachable store holds the candidate index counter. -/
theorem reachable_counter (env : Env) (s : Store) (hr : Reachable env s) :
    ∃ c, s (candidateIndexKey env) = some (.uint32 c) := by
  induction hr with
  | init configuration _ hok =>
    obtain ⟨maxId, m, s1, _, _, h⟩ := initConfig_success env configuration _ hok
    exact ⟨(maxId + 1) % 2 ^ 32, by simp [h, putConfig, putPeerPoolMap, Store.Put]⟩
  | step s call hr0 _ ih =>
    obtain ⟨c, hc⟩ := ih
    obtain ⟨m, hm⟩ := reachableVia_pool env _ _ s hr0
    rcases commit_cases env s call with h | ⟨h, _⟩
    · exact ⟨c, by rw [h]; exact hc⟩
    · rw [h]
      rcases exec_counter_step env s call (by simp [hm]) c hc with h1 | h1
      · exact ⟨_, h1⟩
      · exact ⟨_, h1⟩

/-- C17 fails as stated: on the reachable store `stMaxRegistered` the counter
is `2^32 - 1`, and the operator's successful `ApproveCandidate(demoKey)` leaves
it at 0. -/
theorem counter_decreases_on_wrap :
    Reachable demoEnv stMaxRegistered ∧
      CandidateIndexCounter demoEnv stMaxRegistered = some 4294967295 ∧
      succeeded (exec demoEnv stMaxRegistered
        (.ApproveCandidate (signedBy demoOperator) (some ⟨demoKey⟩))) = true ∧
      CandidateIndexCounter demoEnv
        (exec demoEnv stMaxRegistered
          (.ApproveCandidate (signedBy demoOperator) (some ⟨demoKey⟩))).1 = some 0 ∧
      ¬ (4294967295 ≤ 0) := by
  have h0 : Reachable demoEnv
      (InitConfig demoEnv (some (demoConfig [⟨4294967294, demoKey2, "genesis"⟩]))
        Store.empty).1 := ReachableVia.init _ trivial (by decide)
  have h1 := reachable_exec demoEnv _
    (.RegisterCandidate (signedBy demoOwner) (some ⟨demoKey, demoOwner⟩)) h0 (by decide)
  exact ⟨h1, by decide, by decide, by decide, by decide⟩

/-- C17, amended: every state reachable after a successful `InitConfig` holds
the counter, and for every such state whose counter `c` is below `2^32 - 1` and
every Governance API call, the counter in the store the call leaves is `c` or
`c + 1`, hence not smaller than before; at `c = 2^32 - 1` a minting approval
wraps it to 0. -/
theorem counter_monotone (env : Env) (s : Store) (call : Call) (c : Nat)
    (hr : Reachable env s) (hc : CandidateIndexCounter env s = some c)
    (hlt : c + 1 < 2 ^ 32) :
    ∃ c1, CandidateIndexCounter env (exec env s call).1 = some c1 ∧ c ≤ c1 ∧
      (c1 = c ∨ c1 = c + 1) := by
  obtain ⟨m, hm⟩ := reachableVia_pool env _ _ s hr
  obtain ⟨c0, hc0⟩ := reachable_counter env s hr
  have hcc : c0 = c := by
    simpa [CandidateIndexCounter, hc0] using hc
  subst hcc
  rcases exec_counter_step env s call (by simp [hm]) c0 hc0 with h1 | h1
  · exact ⟨c0, by simp [CandidateIndexCounter, h1], le_refl _, Or.inl rfl⟩
  · rw [Nat.mod_eq_of_lt hlt] at h1
    exact ⟨c0 + 1, by simp [CandidateIndexCounter, h1], Nat.le_succ _, Or.inr rfl⟩

/-- C17 (amended) at a concrete input: on the concrete chain after
`RegisterCandidate(demoKey)` the counter is 2, and the operator's approval of
`demoKey` leaves a counter that is not smaller. -/
theorem counter_monotone_witness :
    ∃ c1, CandidateIndexCounter demoEnv
        (exec demoEnv stRegistered
          (.ApproveCandidate (signedBy demoOperator) (some ⟨demoKey⟩))).1 = some c1 ∧
      2 ≤ c1 ∧ (c1 = 2 ∨ c1 = 2 + 1) :=
  counter_monotone demoEnv stRegistered
    (.ApproveCandidate (signedBy demoOperator) (some ⟨demoKey⟩)) 2
    stRegistered_reachable (by decide) (by decide)

/-! ## The storage key scheme -/

/-- C19 fails as stated: `demoKey` and `demoKeyUpper` are different public key
strings, and the application key built for the one is the application key built
for the other, because `hex.DecodeString` reads both letter cases. -/
theorem storageKey_alias_collision :
    demoKey ≠ demoKeyUpper ∧
      storageKey demoEnv .peerApply demoKey = storageKey demoEnv .peerApply demoKeyUpper ∧
      (storageKey demoEnv .peerApply demoKey).isSome = true ∧
      ¬ (Region.peerApply = Region.peerApply ∧ demoKey = demoKeyUpper) := by
  refine ⟨by decide, by decide, by decide, by decide⟩

/-- C19, amended: the storage key scheme is collision-free up to the spelling
of a public key. For all regions `r1`, `r2` and public key strings `p1`, `p2`,
the storage key built for `(r1, p1)` equals the one built for `(r2, p2)` only
if `r1 = r2` and, in the three per-key regions, `p1` and `p2` hex-decode to the
same bytes. -/
theorem storageKey_injective (env : Env) (r1 r2 : Region) (p1 p2 : String) (key : Bytes)
    (h1 : storageKey env r1 p1 = some key) (h2 : storageKey env r2 p2 = some key) :
    r1 = r2 ∧ (r1.perKey = true → hex.DecodeString p1 = hex.DecodeString p2) := by
  cases r1 <;> cases r2 <;>
    simp only [storageKey, Option.map_eq_some', Option.some.injEq] at h1 h2 <;>
    (try obtain ⟨b2, hb2, h2⟩ := h2)
  all_goals try subst key
  all_goals simp_all [Region.perKey]

/-- C19 (amended) at a concrete input: the application key of `demoKey` and
that of `demoKeyUpper` coincide, and the two strings decode to the same bytes. -/
theorem storageKey_injective_witness :
    Region.peerApply = Region.peerApply ∧
      (Region.peerApply.perKey = true →
        hex.DecodeString demoKey = hex.DecodeString demoKeyUpper) :=
  storageKey_injective demoEnv .peerApply .peerApply demoKey demoKeyUpper
    (peerApplyKey demoEnv (2 :: List.replicate 32 171)) (by decide) (by decide)
/-! ## Genesis initialization -/

/-- The `maxId` a successful loop of `InitConfig` returns is the larger of its
start value and the largest genesis index. -/
theorem initPeers_max (env : Env) (peers : List VBFTPeerStakeInfo) :
    ∀ (maxId : Nat) (m : PeerPoolMap) (s : Store) (maxId1 : Nat) (m1 : PeerPoolMap) (s1 : Store),
      initPeers env peers maxId m s = (s1, .ok (maxId1, m1)) →
      maxId1 = max maxId (maxIndex peers) := by
  induction peers with
  | nil =>
    intro maxId m s maxId1 m1 s1 h
    simp only [initPeers, Prod.mk.injEq, Except.ok.injEq] at h
    obtain ⟨_, rfl, _⟩ := h
    simp [maxIndex]
  | cons p rest ih =>
    intro maxId m s maxId1 m1 s1 h
    unfold initPeers at h
    cases ha : env.AddressFromBase58 p.Address with
    | none => simp [ha] at h
    | some address =>
      cases hd : hex.DecodeString p.PeerPubkey with
      | none => simp [ha, hd] at h
      | some b0 =>
        simp only [ha, hd] at h
        have := ih _ _ _ _ _ _ h
        rw [this]
        have hmi : maxIndex (p :: rest) = max p.Index (maxIndex rest) := by
          simp [maxIndex]
        rw [hmi]
        unfold maxIndex
        split <;> omega

/-- A successful loop of `InitConfig` leaves alone the pool entries of keys it
was not given and the index assignments of bytes no given key decodes to. -/
theorem initPeers_keeps (env : Env) (peers : List VBFTPeerStakeInfo) :
    ∀ (maxId : Nat) (m : PeerPoolMap) (s : Store) (maxId1 : Nat) (m1 : PeerPoolMap) (s1 : Store),
      initPeers env peers maxId m s = (s1, .ok (maxId1, m1)) →
      (∀ k, (∀ p ∈ peers, p.PeerPubkey ≠ k) → m1 k = m k) ∧
        (∀ b, (∀ p ∈ peers, hex.DecodeString p.PeerPubkey ≠ some b) →
          s1 (peerIndexKey env b) = s (peerIndexKey env b)) := by
  induction peers with
  | nil =>
    intro maxId m s maxId1 m1 s1 h
    simp only [initPeers, Prod.mk.injEq, Except.ok.injEq] at h
    obtain ⟨rfl, _, rfl⟩ := h
    exact ⟨fun _ _ => rfl, fun _ _ => rfl⟩
  | cons p rest ih =>
    intro maxId m s maxId1 m1 s1 h
    unfold initPeers at h
    cases ha : env.AddressFromBase58 p.Address with
    | none => simp [ha] at h
    | some address =>
      cases hd : hex.DecodeString p.PeerPubkey with
      | none => simp [ha, hd] at h
      | some b0 =>
        simp only [ha, hd] at h
        obtain ⟨hmap, hidx⟩ := ih _ _ _ _ _ _ h
        constructor
        · intro k hk
          rw [hmap k (fun q hq => hk q (List.mem_cons_of_mem _ hq))]
          have : k ≠ p.PeerPubkey := fun e => hk p (List.mem_cons_self _ _) e.symm
          simp [PeerPoolMap.insert, this]
        · intro b hb
          rw [hidx b (fun q hq => hb q (List.mem_cons_of_mem _ hq))]
          have : b ≠ b0 := by
            intro e
            apply hb p (List.mem_cons_self _ _)
            rw [hd, e]
          simp [Store.Put, this]

/-- After a successful loop of `InitConfig` over peers whose keys decode to
pairwise distinct bytes, every peer is in the returned pool with its index and
decoded address, and its index is stored for the bytes of its key. -/
theorem initPeers_entries (env : Env) (peers : List VBFTPeerStakeInfo) :
    ∀ (maxId : Nat) (m : PeerPoolMap) (s : Store) (maxId1 : Nat) (m1 : PeerPoolMap) (s1 : Store),
      initPeers env peers maxId m s = (s1, .ok (maxId1, m1)) →
      (peers.map (fun p => hex.DecodeString p.PeerPubkey)).Nodup →
      ∀ p ∈ peers, ∃ address b, env.AddressFromBase58 p.Address = some address ∧
        hex.DecodeString p.PeerPubkey = some b ∧
        m1 p.PeerPubkey = some ⟨p.Index, p.PeerPubkey, address⟩ ∧
        s1 (peerIndexKey env b) = some (.uint32 p.Index) := by
  induction peers with
  | nil => intro _ _ _ _ _ _ _ _ p hp; simp at hp
  | cons p0 rest ih =>
    intro maxId m s maxId1 m1 s1 h hnd p hp
    rw [List.map_cons, List.nodup_cons] at hnd
    obtain ⟨hnot, hnd⟩ := hnd
    unfold initPeers at h
    cases ha : env.AddressFromBase58 p0.Address with
    | none => simp [ha] at h
    | some address =>
      cases hd : hex.DecodeString p0.PeerPubkey with
      | none => simp [ha, hd] at h
      | some b0 =>
        simp only [ha, hd] at h
        rcases List.mem_cons.1 hp with rfl | hp
        · obtain ⟨hmap, hidx⟩ := initPeers_keeps env rest _ _ _ _ _ _ h
          refine ⟨address, b0, ha, hd, ?_, ?_⟩
          · rw [hmap]
            · simp [PeerPoolMap.insert]
            · intro q hq e
              apply hnot
              rw [← e]
              exact List.mem_map_of_mem _ hq
          · rw [hidx]
            · simp [Store.Put]
            · intro q hq e
              apply hnot
              rw [hd, ← e]
              exact List.mem_map_of_mem _ hq
        · exact ih _ _ _ _ _ _ h hnd p hp

/-- C16 fails as stated: `InitConfig` succeeds on the genesis list with the
indices 1 and `2^32 - 1`, and the counter it persists is 0: not the maximum
plus one, and not above the supplied indices. -/
theorem genesis_counter_wraps :
    succeeded (InitConfig demoEnv
        (some (demoConfig [⟨1, demoKey2, "a"⟩, ⟨4294967295, demoKey3, "bb"⟩])) Store.empty)
        = true ∧
      maxIndex [⟨1, demoKey2, "a"⟩, ⟨4294967295, demoKey3, "bb"⟩] = 4294967295 ∧
      CandidateIndexCounter demoEnv stWrapGenesis = some 0 ∧
      CandidateIndexCounter demoEnv stWrapGenesis ≠ some (4294967295 + 1) ∧
      ¬ (1 < 0) := by
  refine ⟨by decide, by decide, by decide, by decide, by decide⟩

/-- C16, amended: for every genesis peer list on which `InitConfig` succeeds,
the persisted counter is `(max(supplied indices) + 1) mod 2^32` (the maximum of
an empty list being 0); when every supplied index is below `2^32 - 1` it equals
the maximum plus one and is greater than every supplied index; and when the
supplied public keys decode to pairwise distinct bytes, every supplied peer is
in the peer pool with its supplied index and decoded address, and
`IndexAssignment[peer.pubkey] = peer.index`. -/
theorem initConfig_genesis (env : Env) (configuration : VBFTConfig) (s : Store)
    (hok : succeeded (InitConfig env (some configuration) s) = true) :
    CandidateIndexCounter env (InitConfig env (some configuration) s).1
        = some ((maxIndex configuration.Peers + 1) % 2 ^ 32) ∧
      ((∀ p ∈ configuration.Peers, p.Index + 1 < 2 ^ 32) →
        CandidateIndexCounter env (InitConfig env (some configuration) s).1
            = some (maxIndex configuration.Peers + 1) ∧
          ∀ p ∈ configuration.Peers, p.Index < maxIndex configuration.Peers + 1) ∧
      ((configuration.Peers.map (fun p => hex.DecodeString p.PeerPubkey)).Nodup →
        ∀ p ∈ configuration.Peers, ∃ address,
          env.AddressFromBase58 p.Address = some address ∧
          PeerPool env (InitConfig env (some configuration) s).1 p.PeerPubkey
            = some ⟨p.Index, p.PeerPubkey, address⟩ ∧
          IndexAssignment env (InitConfig env (some configuration) s).1 p.PeerPubkey
            = some p.Index) := by
  obtain ⟨maxId, m, s1, hl, _, hs⟩ := initConfig_success env configuration s hok
  have hmax : maxId = maxIndex configuration.Peers := by
    rw [initPeers_max env _ _ _ _ _ _ _ hl]
    simp
  obtain ⟨_, hall, hcases, _, _⟩ := initPeers_ok env _ _ _ _ _ _ _ hl
  subst hmax
  have hcnt : CandidateIndexCounter env (InitConfig env (some configuration) s).1
      = some ((maxIndex configuration.Peers + 1) % 2 ^ 32) := by
    rw [hs]
    simp [CandidateIndexCounter, putConfig, putPeerPoolMap, Store.Put]
  refine ⟨hcnt, fun hb => ?_, fun hnd p hp => ?_⟩
  · have hlt : maxIndex configuration.Peers + 1 < 2 ^ 32 := by
      rcases hcases with h | ⟨p, hp, h⟩
      · rw [h]; norm_num
      · rw [h]; exact hb p hp
    refine ⟨by rw [hcnt, Nat.mod_eq_of_lt hlt], fun p hp => ?_⟩
    have := hall p hp
    omega
  · obtain ⟨address, b, ha, hd, hm, hi⟩ := initPeers_entries env _ _ _ _ _ _ _ hl hnd p hp
    refine ⟨address, ha, ?_, ?_⟩
    · rw [hs]
      simp [PeerPool, GetPeerPoolMap, putConfig, putPeerPoolMap, Store.Put, hm]
    · rw [hs]
      simp [IndexAssignment, hd, putConfig, putPeerPoolMap, Store.Put, hi]

/-- C16 (amended) at a concrete input: the genesis of the concrete chain, one
peer with index 1. -/
theorem initConfig_genesis_witness :
    CandidateIndexCounter demoEnv demoGenesis
        = some ((maxIndex [⟨1, demoKey2, "genesis"⟩] + 1) % 2 ^ 32) ∧
      ((∀ p ∈ [(⟨1, demoKey2, "genesis"⟩ : VBFTPeerStakeInfo)], p.Index + 1 < 2 ^ 32) →
        CandidateIndexCounter demoEnv demoGenesis
            = some (maxIndex [⟨1, demoKey2, "genesis"⟩] + 1) ∧
          ∀ p ∈ [(⟨1, demoKey2, "genesis"⟩ : VBFTPeerStakeInfo)],
            p.Index < maxIndex [⟨1, demoKey2, "genesis"⟩] + 1) ∧
      (([(⟨1, demoKey2, "genesis"⟩ : VBFTPeerStakeInfo)].map
          (fun p => hex.DecodeString p.PeerPubkey)).Nodup →
        ∀ p ∈ [(⟨1, demoKey2, "genesis"⟩ : VBFTPeerStakeInfo)], ∃ address,
          demoEnv.AddressFromBase58 p.Address = some address ∧
          PeerPool demoEnv demoGenesis p.PeerPubkey = some ⟨p.Index, p.PeerPubkey, address⟩ ∧
          IndexAssignment demoEnv demoGenesis p.PeerPubkey = some p.Index) :=
  initConfig_genesis demoEnv (demoConfig [⟨1, demoKey2, "genesis"⟩]) Store.empty (by decide)

/-! ## `UnRegisterCandidate` -/

/-- C21: for every store and every `UnRegisterCandidate(pk, addr)` whose 20-byte
address `addr` authorized the call: if `pk` has no application record the call
fails with the store unchanged; if the record's address differs from `addr` it
fails with `notOwner` and the store unchanged; otherwise it succeeds, its only
write is the deletion of the application key of `pk`, so `ApplicationRecord[pk]`
is gone, and the peer pool, the blacklist, every index assignment, the candidate
index counter, the configuration and the application record of every key with
other bytes are unchanged. -/
theorem unRegisterCandidate_effect (env : Env) (w : Bytes → Bool) (s : Store) (pk : String)
    (addr : Bytes) (hlen : addr.length = 20) (hauth : w addr = true) :
    (ApplicationRecord env s pk = none →
        succeeded (UnRegisterCandidate env w (some ⟨pk, addr⟩) s) = false ∧
          (UnRegisterCandidate env w (some ⟨pk, addr⟩) s).1 = s) ∧
      (∀ it, ApplicationRecord env s pk = some it → it.Address ≠ addr →
        failure (UnRegisterCandidate env w (some ⟨pk, addr⟩) s) = some .notOwner ∧
          succeeded (UnRegisterCandidate env w (some ⟨pk, addr⟩) s) = false ∧
          (UnRegisterCandidate env w (some ⟨pk, addr⟩) s).1 = s) ∧
      (∀ it, ApplicationRecord env s pk = some it → it.Address = addr →
        succeeded (UnRegisterCandidate env w (some ⟨pk, addr⟩) s) = true ∧
          ApplicationRecord env (UnRegisterCandidate env w (some ⟨pk, addr⟩) s).1 pk = none ∧
          (∃ b, hex.DecodeString pk = some b ∧
            (UnRegisterCandidate env w (some ⟨pk, addr⟩) s).1 = s.Delete (peerApplyKey env b)) ∧
          SameOutsideApplications env s (UnRegisterCandidate env w (some ⟨pk, addr⟩) s).1 ∧
          SameOtherApplications env s (UnRegisterCandidate env w (some ⟨pk, addr⟩) s).1 pk) := by
  unfold UnRegisterCandidate ApplicationRecord
  simp only [AddressParseFromBytes, hlen, if_true, ValidateOwner, hauth, Bool.true_eq_false,
    if_false, GetPeeApply]
  cases hd : hex.DecodeString pk with
  | none => exact ⟨fun _ => ⟨rfl, rfl⟩, fun it h => by simp at h, fun it h => by simp at h⟩
  | some b =>
    dsimp only
    cases ha : s (peerApplyKey env b) with
    | none => exact ⟨fun _ => ⟨rfl, rfl⟩, fun it h => by simp at h, fun it h => by simp at h⟩
    | some v =>
      cases v with
      | peerPoolItem p =>
        dsimp only
        refine ⟨fun h => by simp at h, fun it hit hne => ?_, fun it hit heq => ?_⟩
        · simp only [Option.some.injEq] at hit
          subst hit
          rw [if_pos hne]
          exact ⟨rfl, rfl, rfl⟩
        · simp only [Option.some.injEq] at hit
          subst hit
          rw [if_neg (not_not.mpr heq)]
          refine ⟨rfl, ?_, ⟨b, rfl, rfl⟩, ?_, ?_⟩
          · simp [Store.Delete]
          · apply sameOutsideApplications_of_frame
            intro key hkey
            simp [Store.Delete, hkey b]
          · apply sameOtherApplications_of_frame env s _ pk b hd
            intro b1 hne
            simp [Store.Delete, hne]
      | _ => exact ⟨fun _ => ⟨rfl, rfl⟩, fun it h => by simp at h, fun it h => by simp at h⟩

/-- C21 at a concrete input: the owner withdraws the pending application of
`demoKey` on the concrete chain. -/
theorem unRegisterCandidate_effect_witness :
    succeeded (UnRegisterCandidate demoEnv (signedBy demoOwner) (some ⟨demoKey, demoOwner⟩)
        stRegistered) = true ∧
      ApplicationRecord demoEnv
        (UnRegisterCandidate demoEnv (signedBy demoOwner) (some ⟨demoKey, demoOwner⟩)
          stRegistered).1 demoKey = none ∧
      (∃ b, hex.DecodeString demoKey = some b ∧
        (UnRegisterCandidate demoEnv (signedBy demoOwner) (some ⟨demoKey, demoOwner⟩)
          stRegistered).1 = stRegistered.Delete (peerApplyKey demoEnv b)) ∧
      SameOutsideApplications demoEnv stRegistered
        (UnRegisterCandidate demoEnv (signedBy demoOwner) (some ⟨demoKey, demoOwner⟩)
          stRegistered).1 ∧
      SameOtherApplications demoEnv stRegistered
        (UnRegisterCandidate demoEnv (signedBy demoOwner) (some ⟨demoKey, demoOwner⟩)
          stRegistered).1 demoKey :=
  (unRegisterCandidate_effect demoEnv (signedBy demoOwner) stRegistered demoKey demoOwner
    (by decide) (by decide)).2.2 ⟨0, demoKey, demoOwner⟩ (by decide) (by decide)

/-! ## The records of the peer pool -/

/-- Where a pool record comes from: every record of the pool a call leaves was in
the pool before, or is the pending application that `ApproveCandidate` found
under the bytes of the pool key, with the index the call leaves stored for the
bytes of the application's own public key. -/
theorem exec_pool_entry (env : Env) (s : Store) (c : Call) (m m1 : PeerPoolMap)
    (hp : s (peerPoolKey env) = some (.peerPoolMap m))
    (h1 : (exec env s c).1 (peerPoolKey env) = some (.peerPoolMap m1))
    (k : String) (it1 : PeerPoolItem) (hk : m1 k = some it1) :
    m k = some it1 ∨
      ∃ pkb it b, hex.DecodeString k = some pkb ∧
        s (peerApplyKey env pkb) = some (.peerPoolItem it) ∧
        hex.DecodeString it.PeerPubkey = some b ∧
        it1.PeerPubkey = it.PeerPubkey ∧ it1.Address = it.Address ∧
        (exec env s c).1 (peerIndexKey env b) = some (.uint32 it1.Index) := by
  have same : (exec env s c).1 (peerPoolKey env) = s (peerPoolKey env) → m k = some it1 := by
    intro he
    rw [he, hp] at h1
    simp only [Option.some.injEq, Val.peerPoolMap.injEq] at h1
    rw [h1]; exact hk
  cases c with
  | InitConfig input =>
    exact Or.inl (same (by rw [exec, (initConfig_store_of_pool env input s (by simp [hp])).1]))
  | RegisterCandidate w input =>
    rcases registerCandidate_store env w input s with h | ⟨b, it, _, h⟩ <;>
      exact Or.inl (same (by simp [exec, h, Store.Put]))
  | UnRegisterCandidate w input =>
    rcases unRegisterCandidate_store env w input s with h | ⟨b, h⟩ <;>
      exact Or.inl (same (by simp [exec, h, Store.Delete]))
  | RejectCandidate w input =>
    rcases rejectCandidate_store env w input s with h | ⟨b, h⟩ <;>
      exact Or.inl (same (by simp [exec, h, Store.Delete]))
  | WhiteNode w input =>
    rcases whiteNode_store env w input s with h | ⟨b, h⟩ <;>
      exact Or.inl (same (by simp [exec, h, Store.Delete]))
  | UpdateConfig w input =>
    rcases updateConfig_store env w input s with h | ⟨c, h⟩ <;>
      exact Or.inl (same (by simp [exec, h, putConfig, Store.Put]))
  | QuitNode w input =>
    rcases quitNode_store env w input s with h | ⟨m0, k0, hm0, h⟩
    · exact Or.inl (same (by simp [exec, h]))
    · rw [hp] at hm0
      simp only [Option.some.injEq, Val.peerPoolMap.injEq] at hm0
      subst hm0
      simp only [exec, h, putPeerPoolMap, Store.Put, if_true, Option.some.injEq,
        Val.peerPoolMap.injEq] at h1
      subst h1
      simp only [PeerPoolMap.erase] at hk
      split at hk
      · simp at hk
      · exact Or.inl hk
  | BlackNode w input =>
    rcases (blackNode_store env w input s).2 with h | ⟨m0, m2, hm0, h, hsub⟩
    · exact Or.inl (same (by simp [exec, h]))
    · rw [hp] at hm0
      simp only [Option.some.injEq, Val.peerPoolMap.injEq] at hm0
      subst hm0
      simp only [exec] at h1
      rw [h] at h1
      simp only [Option.some.injEq, Val.peerPoolMap.injEq] at h1
      subst h1
      exact Or.inl (hsub k it1 hk)
  | ApproveCandidate w input =>
    rcases approveCandidate_store env w input s with
      h | ⟨pk, pkb, it, b, hd, ha, hb, ⟨idx, m0, hi, hm0, h⟩ | ⟨c, hnone, hc, h | ⟨m0, hm0, h⟩⟩⟩
    · exact Or.inl (same (by simp [exec, h]))
    · rw [hp] at hm0
      simp only [Option.some.injEq, Val.peerPoolMap.injEq] at hm0
      subst hm0
      simp only [exec, h, putPeerPoolMap, Store.Put, if_true, Option.some.injEq,
        Val.peerPoolMap.injEq] at h1
      subst h1
      simp only [PeerPoolMap.insert] at hk
      split at hk
      · rename_i hkpk
        simp only [Option.some.injEq] at hk
        subst hk
        refine Or.inr ⟨pkb, it, b, by rw [hkpk]; exact hd, ha, hb, rfl, rfl, ?_⟩
        simp [exec, h, putPeerPoolMap, Store.Put, hi]
      · exact Or.inl hk
    · exact Or.inl (same (by simp [exec, h, putCandidateIndex, Store.Put]))
    · rw [hp] at hm0
      simp only [Option.some.injEq, Val.peerPoolMap.injEq] at hm0
      subst hm0
      simp only [exec, h, putPeerPoolMap, Store.Put, if_true, Option.some.injEq,
        Val.peerPoolMap.injEq] at h1
      subst h1
      simp only [PeerPoolMap.insert] at hk
      split at hk
      · rename_i hkpk
        simp only [Option.some.injEq] at hk
        subst hk
        refine Or.inr ⟨pkb, it, b, by rw [hkpk]; exact hd, ha, hb, rfl, rfl, ?_⟩
        simp [exec, h, putPeerPoolMap, putCandidateIndex, Store.Put]
      · exact Or.inl hk

/-- On a store that holds a pool, every call leaves the pending applications
stored under their own keys. -/
theorem applicationsKeyed_exec (env : Env) (s : Store) (c : Call)
    (hp : s (peerPoolKey env) ≠ none) (h : ApplicationsKeyed env s) :
    ApplicationsKeyed env (exec env s c).1 := by
  have frame : (∀ b, (exec env s c).1 (peerApplyKey env b) = s (peerApplyKey env b)) →
      ApplicationsKeyed env (exec env s c).1 := by
    intro he b it ha
    rw [he] at ha
    exact h b it ha
  cases c with
  | InitConfig input =>
    exact frame (fun b => by rw [exec, (initConfig_store_of_pool env input s hp).1])
  | RegisterCandidate w input =>
    rcases registerCandidate_store env w input s with h1 | ⟨b1, it1, hd1, h1⟩
    · exact frame (fun b => by simp [exec, h1])
    · intro b it ha
      simp only [exec, h1, Store.Put] at ha
      split at ha
      · rename_i hkey
        have hb : b = b1 := (peerApplyKey_inj env b b1).1 hkey
        simp only [Option.some.injEq, Val.peerPoolItem.injEq] at ha
        subst ha
        rw [hb]; exact hd1
      · exact h b it ha
  | UnRegisterCandidate w input =>
    rcases unRegisterCandidate_store env w input s with h1 | ⟨b1, h1⟩
    · exact frame (fun b => by simp [exec, h1])
    · intro b it ha
      simp only [exec, h1, Store.Delete] at ha
      split at ha
      · simp at ha
      · exact h b it ha
  | RejectCandidate w input =>
    rcases rejectCandidate_store env w input s with h1 | ⟨b1, h1⟩
    · exact frame (fun b => by simp [exec, h1])
    · intro b it ha
      simp only [exec, h1, Store.Delete] at ha
      split at ha
      · simp at ha
      · exact h b it ha
  | WhiteNode w input =>
    rcases whiteNode_store env w input s with h1 | ⟨b1, h1⟩ <;>
      exact frame (fun b => by simp [exec, h1, Store.Delete])
  | UpdateConfig w input =>
    rcases updateConfig_store env w input s with h1 | ⟨c1, h1⟩ <;>
      exact frame (fun b => by simp [exec, h1, putConfig, Store.Put])
  | QuitNode w input =>
    rcases quitNode_store env w input s with h1 | ⟨m0, k0, _, h1⟩ <;>
      exact frame (fun b => by simp [exec, h1, putPeerPoolMap, Store.Put])
  | BlackNode w input =>
    exact frame (fun b => by
      rw [exec, (blackNode_store env w input s).1 _ (by simp) (by simp)])
  | ApproveCandidate w input =>
    rcases approveCandidate_store env w input s with
      h1 | ⟨pk, pkb, it, b1, _, _, _, ⟨idx, m0, _, _, h1⟩ | ⟨c, _, _, h1 | ⟨m0, _, h1⟩⟩⟩ <;>
      exact frame (fun b => by simp [exec, h1, putPeerPoolMap, putCandidateIndex, Store.Put])

/-- In every store reached from a successful `InitConfig` on the empty store,
the pending applications are stored under their own keys. -/
theorem reachableVia_applicationsKeyed (env : Env) (G : VBFTConfig → Prop) (P : Store → Prop)
    (s : Store) (hr : ReachableVia env G P s) : ApplicationsKeyed env s := by
  induction hr with
  | init configuration _ hok =>
    obtain ⟨maxId, m, s1, hl, _, h⟩ := initConfig_success env configuration _ hok
    intro b it ha
    have hs1 : s1 (peerApplyKey env b) = none := by
      have := initPeers_frame env configuration.Peers 0 (fun _ => none) Store.empty
        (peerApplyKey env b) (by simp)
      rw [hl] at this
      exact this
    rw [h] at ha
    simp [putConfig, putPeerPoolMap, Store.Put, hs1] at ha
  | step s c hr _ ih =>
    rcases commit_cases env s c with h | ⟨h, _⟩
    · rw [h]; exact ih
    · rw [h]
      obtain ⟨m, hm⟩ := reachableVia_pool env G P s hr
      exact applicationsKeyed_exec env s c (by simp [hm]) ih

/-- The loop of `InitConfig` stores every peer under its own public key string,
which decodes. -/
theorem initPeers_own_key (env : Env) (peers : List VBFTPeerStakeInfo) :
    ∀ (maxId : Nat) (m : PeerPoolMap) (s : Store) (maxId1 : Nat) (m1 : PeerPoolMap) (s1 : Store),
      initPeers env peers maxId m s = (s1, .ok (maxId1, m1)) →
      ∀ k it, m1 k = some it →
        m k = some it ∨ (it.PeerPubkey = k ∧ (hex.DecodeString k).isSome = true) := by
  induction peers with
  | nil =>
    intro maxId m s maxId1 m1 s1 h
    simp only [initPeers, Prod.mk.injEq, Except.ok.injEq] at h
    obtain ⟨rfl, rfl, rfl⟩ := h
    exact fun _ _ h => Or.inl h
  | cons p rest ih =>
    intro maxId m s maxId1 m1 s1 h
    unfold initPeers at h
    cases ha : env.AddressFromBase58 p.Address with
    | none => simp [ha] at h
    | some address =>
      cases hd : hex.DecodeString p.PeerPubkey with
      | none => simp [ha, hd] at h
      | some b0 =>
        simp only [ha, hd] at h
        intro k it hk
        rcases ih _ _ _ _ _ _ h k it hk with h1 | h1
        · simp only [PeerPoolMap.insert] at h1
          split at h1
          · rename_i hkp
            simp only [Option.some.injEq] at h1
            subst h1
            exact Or.inr ⟨hkp.symm, by simp [hkp, hd]⟩
          · exact Or.inl h1
        · exact Or.inr h1

/-- The loop of `InitConfig` leaves every pool record with the index stored for
the bytes of its key, when peers whose keys decode to the same bytes have the
same index. -/
theorem initPeers_carries (env : Env) (peers : List VBFTPeerStakeInfo) :
    ∀ (maxId : Nat) (m : PeerPoolMap) (s : Store) (maxId1 : Nat) (m1 : PeerPoolMap) (s1 : Store),
      initPeers env peers maxId m s = (s1, .ok (maxId1, m1)) →
      (∀ p ∈ peers, ∀ q ∈ peers,
        hex.DecodeString p.PeerPubkey = hex.DecodeString q.PeerPubkey → p.Index = q.Index) →
      (∀ k it, m k = some it → ∃ b, hex.DecodeString k = some b ∧
        s (peerIndexKey env b) = some (.uint32 it.Index) ∧
        ∀ q ∈ peers, hex.DecodeString q.PeerPubkey = some b → q.Index = it.Index) →
      ∀ k it, m1 k = some it →
        ∃ b, hex.DecodeString k = some b ∧ s1 (peerIndexKey env b) = some (.uint32 it.Index) := by
  induction peers with
  | nil =>
    intro maxId m s maxId1 m1 s1 h _ hm
    simp only [initPeers, Prod.mk.injEq, Except.ok.injEq] at h
    obtain ⟨rfl, rfl, rfl⟩ := h
    intro k it hk
    obtain ⟨b, hb, hs, _⟩ := hm k it hk
    exact ⟨b, hb, hs⟩
  | cons p rest ih =>
    intro maxId m s maxId1 m1 s1 h hg hm
    unfold initPeers at h
    cases ha : env.AddressFromBase58 p.Address with
    | none => simp [ha] at h
    | some address =>
      cases hd : hex.DecodeString p.PeerPubkey with
      | none => simp [ha, hd] at h
      | some b0 =>
        simp only [ha, hd] at h
        refine ih _ _ _ _ _ _ h
          (fun x hx y hy => hg x (List.mem_cons_of_mem _ hx) y (List.mem_cons_of_mem _ hy)) ?_
        intro k it hk
        simp only [PeerPoolMap.insert] at hk
        split at hk
        · rename_i hkp
          simp only [Option.some.injEq] at hk
          subst hk
          refine ⟨b0, by rw [hkp]; exact hd, by simp [Store.Put], ?_⟩
          intro q hq hqd
          exact hg q (List.mem_cons_of_mem _ hq) p (List.mem_cons_self _ _) (by rw [hqd, hd])
        · obtain ⟨b, hb, hs, hq⟩ := hm k it hk
          refine ⟨b, hb, ?_, fun q hq1 => hq q (List.mem_cons_of_mem _ hq1)⟩
          by_cases hbb : b = b0
          · have := hq p (List.mem_cons_self _ _) (by rw [hd, hbb])
            simp [Store.Put, hbb, this]
          · simp [Store.Put, hbb, hs]

/-- Genesis leaves every pool record with the index stored for the bytes of its
key, when genesis peers whose keys decode to the same bytes have the same index. -/
theorem poolCarriesIndex_init (env : Env) (configuration : VBFTConfig)
    (hg : GenesisKeysAgree configuration)
    (hok : succeeded (InitConfig env (some configuration) Store.empty) = true) :
    PoolCarriesIndex env (InitConfig env (some configuration) Store.empty).1 := by
  obtain ⟨maxId, m, s1, hl, _, h⟩ := initConfig_success env configuration _ hok
  refine ⟨m, by simp [h, putConfig, putPeerPoolMap, Store.Put], ?_⟩
  intro k it hk
  obtain ⟨b, hb, hs⟩ := initPeers_carries env configuration.Peers 0 (fun _ => none) Store.empty
    maxId m s1 hl hg (fun _ _ hn => by simp at hn) k it hk
  exact ⟨b, hb, by simp [h, putConfig, putPeerPoolMap, Store.Put, hs]⟩

/-- Every call keeps the pool records with the index stored for the bytes of
their keys, when the pending applications are stored under their own keys. -/
theorem poolCarriesIndex_exec (env : Env) (s : Store) (c : Call)
    (ha : ApplicationsKeyed env s) (h : PoolCarriesIndex env s) :
    PoolCarriesIndex env (exec env s c).1 := by
  obtain ⟨m, hm, hall⟩ := h
  obtain ⟨m1, hm1⟩ := exec_pool_present env s c m hm
  refine ⟨m1, hm1, ?_⟩
  intro k it1 hk
  rcases exec_pool_entry env s c m m1 hm hm1 k it1 hk with h1 | ⟨pkb, it, b, hd, hap, hb, _, _, hi⟩
  · obtain ⟨b, hb, hs⟩ := hall k it1 h1
    exact ⟨b, hb, exec_index_kept env s c (by simp [hm]) b _ hs⟩
  · have hbb : some b = some pkb := by rw [← hb]; exact ha pkb it hap
    simp only [Option.some.injEq] at hbb
    subst hbb
    exact ⟨b, hd, hi⟩

/-- Every call keeps the pool records under keys that decode to the bytes of the
record's own public key, when the pending applications are stored under their
own keys. -/
theorem poolKeyedByBytes_exec (env : Env) (s : Store) (c : Call)
    (ha : ApplicationsKeyed env s) (h : PoolKeyedByBytes env s) :
    PoolKeyedByBytes env (exec env s c).1 := by
  obtain ⟨m, hm, hall⟩ := h
  obtain ⟨m1, hm1⟩ := exec_pool_present env s c m hm
  refine ⟨m1, hm1, ?_⟩
  intro k it1 hk
  rcases exec_pool_entry env s c m m1 hm hm1 k it1 hk with h1 | ⟨pkb, it, b, hd, hap, _, hpub, _, _⟩
  · exact hall k it1 h1
  · exact ⟨pkb, hd, by rw [hpub]; exact ha pkb it hap⟩

/-- In every store reached from a genesis whose peers agree on the index of a
key, every pool record carries the index stored for the bytes of its key. -/
theorem reachableVia_poolCarriesIndex (env : Env) (s : Store)
    (hr : ReachableVia env GenesisKeysAgree (fun _ => True) s) : PoolCarriesIndex env s := by
  induction hr with
  | init configuration hg hok => exact poolCarriesIndex_init env configuration hg hok
  | step s c hr _ ih =>
    rcases commit_cases env s c with h | ⟨h, _⟩
    · rw [h]; exact ih
    · rw [h]
      exact poolCarriesIndex_exec env s c
        (reachableVia_applicationsKeyed env _ _ s hr) ih

/-- In every reachable store, every pool record is stored under a key that
decodes to the bytes of the record's own public key. -/
theorem reachable_poolKeyedByBytes (env : Env) (s : Store) (hr : Reachable env s) :
    PoolKeyedByBytes env s := by
  induction hr with
  | init configuration _ hok =>
    obtain ⟨maxId, m, s1, hl, _, h⟩ := initConfig_success env configuration _ hok
    refine ⟨m, by simp [h, putConfig, putPeerPoolMap, Store.Put], ?_⟩
    intro k it hk
    rcases initPeers_own_key env configuration.Peers 0 (fun _ => none) Store.empty
      maxId m s1 hl k it hk with h1 | ⟨hpub, hsome⟩
    · simp at h1
    · obtain ⟨b, hb⟩ := Option.isSome_iff_exists.1 hsome
      exact ⟨b, hb, by rw [hpub]; exact hb⟩
  | step s c hr _ ih =>
    rcases commit_cases env s c with h | ⟨h, _⟩
    · rw [h]; exact ih
    · rw [h]
      exact poolKeyedByBytes_exec env s c
        (reachableVia_applicationsKeyed env _ _ s hr) ih

/-- The record the stored pool holds under a key. -/
theorem peerPool_entry (env : Env) (s : Store) (m : PeerPoolMap) (k : String)
    (it : PeerPoolItem) (hm : s (peerPoolKey env) = some (.peerPoolMap m))
    (hk : PeerPool env s k = some it) : m k = some it := by
  simpa [PeerPool, GetPeerPoolMap, hm] using hk

theorem stAliasApproved_reachable : Reachable demoEnv stAliasApproved :=
  reachable_exec demoEnv stRegistered
    (.ApproveCandidate (signedBy demoOperator) (some ⟨demoKeyUpper⟩))
    stRegistered_reachable (by decide)

theorem demoGenesis_keysAgree : GenesisKeysAgree (demoConfig [⟨1, demoKey2, "genesis"⟩]) := by
  intro p hp q hq _
  simp only [demoConfig, List.mem_singleton] at hp hq
  rw [hp, hq]

/-- C22 fails as stated: the genesis list may hold the same public key bytes
under two spellings, `demoKey` with index 1 and `demoKeyUpper` with index 2. The
pool is keyed by the string and keeps both records, the index assignment is
keyed by the decoded bytes and keeps the later index: in the reachable store
`InitConfig` leaves, the pool record of `demoKey` carries index 1 while the
index assigned to `demoKey` is 2. -/
theorem pool_index_differs_from_assignment :
    Reachable demoEnv stAliasGenesis ∧
      demoKey ≠ demoKeyUpper ∧
      PeerPool demoEnv stAliasGenesis demoKey = some ⟨1, demoKey, List.replicate 20 1⟩ ∧
      IndexAssignment demoEnv stAliasGenesis demoKey = some 2 :=
  ⟨ReachableVia.init _ trivial (by decide), by decide, by decide, by decide⟩

/-- C22, amended: in every state reachable from the empty store by a successful
`InitConfig` whose genesis peers have the same index whenever their public keys
decode to the same bytes, followed by any sequence of committed Governance API
calls, every peer pool record carries its key's permanent index: for every key
`k` of the pool, `IndexAssignment[k]` exists and equals `PeerPool[k].index`. -/
theorem pool_entry_carries_index (env : Env) (s : Store) (k : String) (it : PeerPoolItem)
    (hr : ReachableVia env GenesisKeysAgree (fun _ => True) s)
    (hk : PeerPool env s k = some it) :
    IndexAssignment env s k = some it.Index := by
  obtain ⟨m, hm, hall⟩ := reachableVia_poolCarriesIndex env s hr
  obtain ⟨b, hb, hs⟩ := hall k it (peerPool_entry env s m k it hm hk)
  simp [IndexAssignment, hb, hs]

/-- C22 (amended) at a concrete input: the pool record of `demoKey` on the
concrete chain after register and approve carries the assigned index 2. -/
theorem pool_entry_carries_index_witness :
    PeerPool demoEnv stApproved demoKey = some ⟨2, demoKey, demoOwner⟩ ∧
      IndexAssignment demoEnv stApproved demoKey = some 2 :=
  ⟨by decide, pool_entry_carries_index demoEnv stApproved demoKey ⟨2, demoKey, demoOwner⟩
    (reachableVia_exec demoEnv _ _ stRegistered
      (.ApproveCandidate (signedBy demoOperator) (some ⟨demoKey⟩))
      (reachableVia_exec demoEnv _ _ demoGenesis
        (.RegisterCandidate (signedBy demoOwner) (some ⟨demoKey, demoOwner⟩))
        (ReachableVia.init _ demoGenesis_keysAgree (by decide)) trivial (by decide))
      trivial (by decide))
    (by decide)⟩

/-- C23 fails as stated: hexadecimal decoding reads both letter cases, so the
operator's `ApproveCandidate(demoKeyUpper)` finds the application that
`RegisterCandidate(demoKey, demoOwner)` stored, keys the pool by the request
string `demoKeyUpper` and stores the record it found, whose public key is
`demoKey`: in a reachable store a pool record is stored under a key that is not
its own public key. -/
theorem pool_entry_under_alias_key :
    Reachable demoEnv stAliasApproved ∧
      PeerPool demoEnv stAliasApproved demoKeyUpper = some ⟨2, demoKey, demoOwner⟩ ∧
      (⟨2, demoKey, demoOwner⟩ : PeerPoolItem).PeerPubkey ≠ demoKeyUpper :=
  ⟨stAliasApproved_reachable, by decide, by decide⟩

/-- C23, amended: in every state reachable from the empty store by a successful
`InitConfig` followed by any sequence of committed Governance API calls, every
peer pool record is stored under a spelling of its own public key: for every
`(k, record)` of the pool, `k` decodes and `record.pubkey` decodes to the same
bytes as `k`. -/
theorem pool_entry_keyed_by_bytes (env : Env) (s : Store) (k : String) (it : PeerPoolItem)
    (hr : Reachable env s) (hk : PeerPool env s k = some it) :
    (hex.DecodeString k).isSome = true ∧
      hex.DecodeString it.PeerPubkey = hex.DecodeString k := by
  obtain ⟨m, hm, hall⟩ := reachable_poolKeyedByBytes env s hr
  obtain ⟨b, hb, hp⟩ := hall k it (peerPool_entry env s m k it hm hk)
  simp [hb, hp]

/-- C23 (amended) at a concrete input: the pool record stored under
`demoKeyUpper` after the approval by that spelling has the public key `demoKey`,
which decodes to the same bytes. -/
theorem pool_entry_keyed_by_bytes_witness :
    PeerPool demoEnv stAliasApproved demoKeyUpper = some ⟨2, demoKey, demoOwner⟩ ∧
      (hex.DecodeString demoKeyUpper).isSome = true ∧
      hex.DecodeString demoKey = hex.DecodeString demoKeyUpper :=
  ⟨by decide, pool_entry_keyed_by_bytes demoEnv stAliasApproved demoKeyUpper
    ⟨2, demoKey, demoOwner⟩ stAliasApproved_reachable (by decide)⟩

/-! ## Index allocation in `ApproveCandidate` -/

/-- C2: for every store whose pending applications are stored under their own
keys (`ApplicationsKeyed`, which holds in every reachable store) and every
public key `pk` that has an application record and already has
`IndexAssignment[pk] = i`, a successful `ApproveCandidate(pk)` (a successful
call is operator-authorized) stores `PeerPool[pk]` with index `i` and leaves
`IndexAssignment[pk]` and `CandidateIndexCounter` unchanged. The record is the
one `GetPeeApply` finds under the decoded bytes of `pk`, whatever the spelling
of `pk`. -/
theorem approveCandidate_reuses_index (env : Env) (checkWitness : Bytes → Bool) (s : Store)
    (pk : String) (item : PeerPoolItem) (i : Nat)
    (hkeyed : ApplicationsKeyed env s)
    (hrec : ApplicationRecord env s pk = some item)
    (hidx : IndexAssignment env s pk = some i)
    (hok : succeeded (ApproveCandidate env checkWitness (some ⟨pk⟩) s) = true) :
    PeerPool env (ApproveCandidate env checkWitness (some ⟨pk⟩) s).1 pk
        = some { item with Index := i } ∧
      IndexAssignment env (ApproveCandidate env checkWitness (some ⟨pk⟩) s).1 pk = some i ∧
      CandidateIndexCounter env (ApproveCandidate env checkWitness (some ⟨pk⟩) s).1
        = CandidateIndexCounter env s := by
  unfold IndexAssignment at hidx
  unfold ApplicationRecord at hrec
  cases hd : hex.DecodeString pk with
  | none => simp [hd] at hidx
  | some b =>
    simp only [hd] at hidx hrec
    cases hi : s (peerIndexKey env b) with
    | none => simp [hi] at hidx
    | some v =>
      cases v <;> simp [hi] at hidx
      subst hidx
      cases ha : s (peerApplyKey env b) with
      | none => simp [ha] at hrec
      | some v =>
        cases v <;> simp [ha] at hrec
        subst hrec
        have hown := hkeyed b _ ha
        revert hok
        simp only [ApproveCandidate, GetPeeApply, hd, ha, approveIndex, hown, hi]
        cases env.operatorAddress with
        | none => simp [succeeded]
        | some op =>
          by_cases hw : ValidateOwner checkWitness op = false
          · simp [hw, succeeded]
          · cases hp : GetPeerPoolMap env s with
            | error e => simp [hw, hp, succeeded]
            | ok m =>
              intro _
              simp [hw, hp, PeerPool, IndexAssignment, CandidateIndexCounter, putPeerPoolMap,
                GetPeerPoolMap, Store.Put, PeerPoolMap.insert, hd, hi]

/-- C2 at a concrete input: on the concrete chain after register, approve and
quit, the application record of `demoKey` is still stored and its bytes have
index 2; approving it by the spelling `demoKeyUpper` stores the pool record
under that key with index 2 and leaves index and counter alone. -/
theorem approveCandidate_reuses_index_witness :
    ApplicationRecord demoEnv stQuit demoKeyUpper = some ⟨0, demoKey, demoOwner⟩ ∧
      IndexAssignment demoEnv stQuit demoKeyUpper = some 2 ∧
      PeerPool demoEnv
        (ApproveCandidate demoEnv (signedBy demoOperator) (some ⟨demoKeyUpper⟩) stQuit).1
        demoKeyUpper = some ⟨2, demoKey, demoOwner⟩ ∧
      IndexAssignment demoEnv
        (ApproveCandidate demoEnv (signedBy demoOperator) (some ⟨demoKeyUpper⟩) stQuit).1
        demoKeyUpper = some 2 ∧
      CandidateIndexCounter demoEnv
        (ApproveCandidate demoEnv (signedBy demoOperator) (some ⟨demoKeyUpper⟩) stQuit).1
        = CandidateIndexCounter demoEnv stQuit :=
  ⟨by decide, by decide,
    approveCandidate_reuses_index demoEnv (signedBy demoOperator) stQuit demoKeyUpper
      ⟨0, demoKey, demoOwner⟩ 2
      (reachableVia_applicationsKeyed demoEnv _ _ stQuit stQuit_reachable)
      (by decide) (by decide) (by decide)⟩

/-- C3 fails as stated: on a reachable store whose counter is `2^32 - 1`, a
successful `ApproveCandidate` of a key with an application record and no index
leaves the counter at 0, not at `2^32`. -/
theorem approveCandidate_counter_wraps :
    Reachable demoEnv stMaxRegistered ∧
      CandidateIndexCounter demoEnv stMaxRegistered = some 4294967295 ∧
      ApplicationRecord demoEnv stMaxRegistered demoKey = some ⟨0, demoKey, demoOwner⟩ ∧
      IndexAssignment demoEnv stMaxRegistered demoKey = none ∧
      succeeded (ApproveCandidate demoEnv (signedBy demoOperator) (some ⟨demoKey⟩)
        stMaxRegistered) = true ∧
      CandidateIndexCounter demoEnv
        (ApproveCandidate demoEnv (signedBy demoOperator) (some ⟨demoKey⟩)
          stMaxRegistered).1 = some 0 ∧
      CandidateIndexCounter demoEnv
        (ApproveCandidate demoEnv (signedBy demoOperator) (some ⟨demoKey⟩)
          stMaxRegistered).1 ≠ some (4294967295 + 1) := by
  have h0 : Reachable demoEnv
      (InitConfig demoEnv (some (demoConfig [⟨4294967294, demoKey2, "genesis"⟩]))
        Store.empty).1 := ReachableVia.init _ trivial (by decide)
  have h1 := reachable_exec demoEnv _
    (.RegisterCandidate (signedBy demoOwner) (some ⟨demoKey, demoOwner⟩)) h0 (by decide)
  exact ⟨h1, by decide, by decide, by decide, by decide, by decide, by decide⟩

/-- C3, amended: for every store with `CandidateIndexCounter = c` whose pending
applications are stored under their own keys (`ApplicationsKeyed`, which holds
in every reachable store) and every public key `pk` that has an application
record but no `IndexAssignment`, a successful `ApproveCandidate(pk)` stores
`PeerPool[pk]` with index `c`, sets `IndexAssignment[pk] = c` and sets the
counter to `(c + 1) mod 2^32`, which is `c + 1` whenever `c` is below the
largest `uint32`. The record is the one `GetPeeApply` finds under the decoded
bytes of `pk`, whatever the spelling of `pk`. -/
theorem approveCandidate_mints_index (env : Env) (checkWitness : Bytes → Bool) (s : Store)
    (pk : String) (item : PeerPoolItem) (c : Nat)
    (hkeyed : ApplicationsKeyed env s)
    (hc : CandidateIndexCounter env s = some c)
    (hrec : ApplicationRecord env s pk = some item)
    (hidx : IndexAssignment env s pk = none)
    (hok : succeeded (ApproveCandidate env checkWitness (some ⟨pk⟩) s) = true) :
    PeerPool env (ApproveCandidate env checkWitness (some ⟨pk⟩) s).1 pk
        = some { item with Index := c } ∧
      IndexAssignment env (ApproveCandidate env checkWitness (some ⟨pk⟩) s).1 pk = some c ∧
      CandidateIndexCounter env (ApproveCandidate env checkWitness (some ⟨pk⟩) s).1
        = some ((c + 1) % 2 ^ 32) ∧
      (c + 1 < 2 ^ 32 →
        CandidateIndexCounter env (ApproveCandidate env checkWitness (some ⟨pk⟩) s).1
          = some (c + 1)) := by
  unfold IndexAssignment at hidx
  unfold ApplicationRecord at hrec
  unfold CandidateIndexCounter at hc
  cases hd : hex.DecodeString pk with
  | none => simp [hd] at hrec
  | some b =>
    simp only [hd] at hidx hrec
    cases ha : s (peerApplyKey env b) with
    | none => simp [ha] at hrec
    | some v =>
      cases v <;> simp [ha] at hrec
      subst hrec
      have hown := hkeyed b _ ha
      cases hcv : s (candidateIndexKey env) with
      | none => simp [hcv] at hc
      | some v =>
        cases v <;> simp [hcv] at hc
        subst hc
        revert hok
        simp only [ApproveCandidate, GetPeeApply, hd, ha, approveIndex, hown]
        cases env.operatorAddress with
        | none => simp [succeeded]
        | some op =>
          by_cases hw : ValidateOwner checkWitness op = false
          · simp [hw, succeeded]
          · cases hi : s (peerIndexKey env b) with
            | some v => cases v <;> simp [hi] at hidx <;> simp [hw, hi, succeeded]
            | none =>
              simp only [getCandidateIndex, hcv]
              cases hp : GetPeerPoolMap env s with
              | error e =>
                simp [hw, GetPeerPoolMap, putCandidateIndex, Store.Put, succeeded]
                simp [GetPeerPoolMap] at hp
                split at hp <;> simp_all
              | ok m =>
                intro _
                have hm : s (peerPoolKey env) = some (.peerPoolMap m) := by
                  simp only [GetPeerPoolMap] at hp
                  split at hp <;> simp_all
                simp [hw, PeerPool, IndexAssignment, CandidateIndexCounter, putPeerPoolMap,
                  putCandidateIndex, GetPeerPoolMap, Store.Put, PeerPoolMap.insert, hd, hm]

/-- C3 (amended) at a concrete input: on the concrete chain after
`RegisterCandidate(demoKey)` the counter is 2, the application record of
`demoKey` is found under the spelling `demoKeyUpper` and its bytes have no
index; approving `demoKeyUpper` stores index 2 under that key, assigns index 2
and moves the counter to 3. -/
theorem approveCandidate_mints_index_witness :
    ApplicationRecord demoEnv stRegistered demoKeyUpper = some ⟨0, demoKey, demoOwner⟩ ∧
      IndexAssignment demoEnv stRegistered demoKeyUpper = none ∧
      PeerPool demoEnv
        (ApproveCandidate demoEnv (signedBy demoOperator) (some ⟨demoKeyUpper⟩)
          stRegistered).1 demoKeyUpper = some ⟨2, demoKey, demoOwner⟩ ∧
      IndexAssignment demoEnv
        (ApproveCandidate demoEnv (signedBy demoOperator) (some ⟨demoKeyUpper⟩)
          stRegistered).1 demoKeyUpper = some 2 ∧
      CandidateIndexCounter demoEnv
        (ApproveCandidate demoEnv (signedBy demoOperator) (some ⟨demoKeyUpper⟩)
          stRegistered).1 = some ((2 + 1) % 2 ^ 32) ∧
      (2 + 1 < 2 ^ 32 →
        CandidateIndexCounter demoEnv
          (ApproveCandidate demoEnv (signedBy demoOperator) (some ⟨demoKeyUpper⟩)
            stRegistered).1 = some (2 + 1)) :=
  ⟨by decide, by decide,
    approveCandidate_mints_index demoEnv (signedBy demoOperator) stRegistered demoKeyUpper
      ⟨0, demoKey, demoOwner⟩ 2
      (reachableVia_applicationsKeyed demoEnv _ _ stRegistered stRegistered_reachable)
      (by decide) (by decide) (by decide) (by decide)⟩

/-! ## `VerifyBtcTx` -/

/-- The condition of line 54 has no value exactly on an empty hash list and on
a single hash that differs from the transaction id. -/
theorem wrongTransactionHash_none (hashes : List Bytes) (txid : Bytes) :
    wrongTransactionHash hashes txid = none ↔
      hashes = [] ∨ ∃ h, hashes = [h] ∧ h ≠ txid := by
  unfold wrongTransactionHash
  cases hashes with
  | nil => simp
  | cons h0 rest =>
    cases rest with
    | nil =>
      by_cases h : h0 = txid <;> simp [h]
    | cons h1 rest1 =>
      by_cases h : h0 = txid <;> simp [h]

/-- C24 fails on the code: for every host, every proof that decodes to a merkle
block and every transaction that decodes, when the block has no hash, or a
single hash that differs from the transaction id, `VerifyBtcTx` does not
return: the index expression `mb.Hashes[0]` (no hash) or `mb.Hashes[1]` (one
hash) of line 54 is out of range and the call is aborted. -/
theorem verifyBtcTx_index_out_of_range (host : BtcHost) (proof tx : Bytes) (height : Nat)
    (mb : MsgMerkleBlock) (mtx : MsgTx)
    (hp : host.BchDecode proof = some mb) (ht : host.BtcDecode tx = some mtx)
    (hh : mb.Hashes = [] ∨ ∃ h, mb.Hashes = [h] ∧ h ≠ host.TxHash mtx) :
    VerifyBtcTx host proof tx height = .aborted := by
  have hnone := (wrongTransactionHash_none mb.Hashes (host.TxHash mtx)).2 hh
  unfold VerifyBtcTx
  simp only [hp, ht, hnone]

/-- C24 at concrete inputs: on the concrete host the proof without hashes
decodes, the transaction decodes, and `VerifyBtcTx` is aborted. -/
theorem verifyBtcTx_index_out_of_range_witness :
    (demoBtcHost.BchDecode demoProofNoHashes).isSome = true ∧
      (demoBtcHost.BtcDecode demoTx).isSome = true ∧
      VerifyBtcTx demoBtcHost demoProofNoHashes demoTx 0 = .aborted :=
  ⟨by decide, by decide,
    verifyBtcTx_index_out_of_range demoBtcHost demoProofNoHashes demoTx 0
      ⟨List.replicate 80 0, 0, [], []⟩ ⟨demoTx⟩ (by decide) (by decide) (Or.inl rfl)⟩

/-- The outcomes of `VerifyBtcTx`, for every host and input: the call is aborted
exactly when proof and transaction decode and the merkle block has no hash or a
single hash that differs from the transaction id; in every other case it
returns, and what it returns is `(true, nil)` or `(false, error)`. -/
theorem verifyBtcTx_outcome (host : BtcHost) (proof tx : Bytes) (height : Nat) :
    (VerifyBtcTx host proof tx height = .aborted ↔
        ∃ mb mtx, host.BchDecode proof = some mb ∧ host.BtcDecode tx = some mtx ∧
          (mb.Hashes = [] ∨ ∃ h, mb.Hashes = [h] ∧ h ≠ host.TxHash mtx)) ∧
      (VerifyBtcTx host proof tx height = .aborted ∨
        VerifyBtcTx host proof tx height = .returned true none ∨
        ∃ e, VerifyBtcTx host proof tx height = .returned false (some e)) := by
  unfold VerifyBtcTx
  cases hp : host.BchDecode proof with
  | none => simp
  | some mb =>
    cases ht : host.BtcDecode tx with
    | none => simp
    | some mtx =>
      dsimp only
      cases hw : wrongTransactionHash mb.Hashes (host.TxHash mtx) with
      | none =>
        have := (wrongTransactionHash_none mb.Hashes (host.TxHash mtx)).1 hw
        simp [this]
      | some b =>
        have hne : ¬ (mb.Hashes = [] ∨ ∃ h, mb.Hashes = [h] ∧ h ≠ host.TxHash mtx) := by
          intro h
          rw [(wrongTransactionHash_none mb.Hashes (host.TxHash mtx)).2 h] at hw
          simp at hw
        cases b with
        | true => simp [hne]
        | false =>
          dsimp only
          split
          · simp [hne]
          · cases host.GetHeaderFromSpv height with
            | none => simp [hne]
            | some root =>
              dsimp only
              split <;> simp [hne]

/-- The outcomes of `VerifyBtcTx` on the concrete host for a merkle block with
one hash: it is aborted when the hash differs from the transaction id, and it
returns when the hash is the transaction id. -/
theorem verifyBtcTx_concrete :
    VerifyBtcTx demoBtcHost demoProofOneHash demoTx 0 = .aborted ∧
      VerifyBtcTx demoBtcHost demoProofOneHash demoTxSeven 0 = .returned true none :=
  ⟨by decide, by decide⟩

end NodeManager
